import Mathlib

/-!
# Verification of the crucible decomposition core (`src/melt.rs`)

This file gives a shallow embedding of the algorithmic core of the repository:

* the balanced hierarchical decomposition `hierarchical_decomp` of a rooted
  phylogenetic tree into contiguous taxon ranges (`melt.rs` lines 51-123), and
* the non-gap prefix-sum index `CrucibleCtxt` with its query
  `retrieve_nchars` (`melt.rs` lines 16-49 and the table construction in
  `oneshot_melt`, lines 144-156).

The tree type of the `ogcat` crate is an external collaborator of this
repository; following the specification it is modelled as a rooted tree with
dense integer node ids, a leaf test, child enumeration, ancestor-chain
enumeration and post-order traversals (plain and with an excluded cut set).

Machine arithmetic: the Rust code uses `u64`/`usize` (64-bit) values; we model
them as `Nat` with explicit wrap-around `% 2^64` at every arithmetic operation
the source performs on them (release-mode wrapping semantics), and `u32` with
wrap-around `% 2^32` for the prefix-sum table entries.
-/

namespace Crucible

/-! ## Machine integer helpers (64-bit `usize`/`u64`, 32-bit `u32`) -/

def U64 : Nat := 2 ^ 64

def U64MAX : Nat := U64 - 1

def U32 : Nat := 2 ^ 32

/-- Wrapping 64-bit addition. -/
def wadd (a b : Nat) : Nat := (a + b) % U64

/-- Wrapping 64-bit subtraction. -/
def wsub (a b : Nat) : Nat := (a % U64 + (U64 - b % U64)) % U64

/-- Wrapping 32-bit addition. -/
def wadd32 (a b : Nat) : Nat := (a + b) % U32

/-- Wrapping 32-bit subtraction. -/
def wsub32 (a b : Nat) : Nat := (a % U32 + (U32 - b % U32)) % U32

/-- Rust `u64::abs_diff`. -/
def u64AbsDiff (a b : Nat) : Nat := if a ≤ b then b - a else a - b

/-! ## Function update used to model in-place array writes -/

/-- Pointwise update of a map, modelling `v[i] = x`. -/
def updf (f : Nat → Nat) (i v : Nat) : Nat → Nat :=
  fun j => if j = i then v else f j

/-! ## The rose-tree model of the external `ogcat` tree -/

/-- A rooted tree with dense integer node ids, as exposed by the external
tree collaborator: every node carries its id and its (ordered) children. -/
inductive RTree : Type where
  | node : Nat → List RTree → RTree
  deriving Inhabited

/-- Id of the root of a subtree. -/
def rootId : RTree → Nat
  | .node i _ => i

mutual

/-- Post-order traversal of all node ids (children before parents),
modelling `tree.postorder()`. -/
def postorderList : RTree → List Nat
  | .node i cs => poAux cs ++ [i]

/-- Post-order traversal of a forest. -/
def poAux : List RTree → List Nat
  | [] => []
  | c :: cs => postorderList c ++ poAux cs

end

mutual

/-- Post-order traversal from a subtree while excluding the subtrees of the
nodes in `cuts` (the node the traversal starts from is traversed regardless of
membership in `cuts`, which is the behaviour the first decomposition iteration
relies on: the root is inserted into `cuts` before any traversal).
Models `PostorderIterator::from_node_excluding`. -/
def poExcl (cuts : List Nat) : RTree → List Nat
  | .node i cs => poExclAux cuts cs ++ [i]

/-- Pruned post-order traversal of a forest: a child whose root id lies in
`cuts` is skipped together with its entire subtree. -/
def poExclAux (cuts : List Nat) : List RTree → List Nat
  | [] => []
  | c :: cs =>
      (if rootId c ∈ cuts then [] else poExcl cuts c) ++ poExclAux cuts cs

end

mutual

/-- Locate the subtree rooted at the node with id `j` (the node itself counts). -/
def findSub : RTree → Nat → Option RTree
  | .node i cs, j => if i = j then some (.node i cs) else findSubAux cs j

/-- Locate a subtree rooted at id `j` in a forest (first match). -/
def findSubAux : List RTree → Nat → Option RTree
  | [], _ => none
  | c :: cs, j =>
      match findSub c j with
      | some u => some u
      | none => findSubAux cs j

end

mutual

/-- Path of node ids from the root of `t` down to the node with id `j`,
both endpoints included. -/
def pathTo : RTree → Nat → Option (List Nat)
  | .node i cs, j =>
      if i = j then some [i] else (pathToAux cs j).map (i :: ·)

/-- Path search in a forest. -/
def pathToAux : List RTree → Nat → Option (List Nat)
  | [], _ => none
  | c :: cs, j =>
      match pathTo c j with
      | some p => some p
      | none => pathToAux cs j

end

/-! ## The tree interface handed to the decomposer

The `ogcat` tree is external to this repository; per the specification it
exposes a leaf test, child enumeration, ancestor enumeration (proper
ancestors, nearest first), a taxon id per leaf, the taxon count, and the
post-order traversals used above. -/

structure Tree where
  shape : RTree
  taxa : Nat → Nat
  ntaxa : Nat

/-- `tree.is_leaf(i)`: node `i` exists and has no children. -/
def Tree.isLeafNode (t : Tree) (i : Nat) : Bool :=
  match findSub t.shape i with
  | some (.node _ cs) => cs.isEmpty
  | none => false

/-- `tree.children(i)`. -/
def Tree.childIds (t : Tree) (i : Nat) : List Nat :=
  match findSub t.shape i with
  | some (.node _ cs) => cs.map rootId
  | none => []

/-- `tree.postorder()`. -/
def Tree.postorder (t : Tree) : List Nat := postorderList t.shape

/-- `tree.postorder_from(i)`. -/
def Tree.postorderFrom (t : Tree) (i : Nat) : List Nat :=
  match findSub t.shape i with
  | some u => postorderList u
  | none => []

/-- `PostorderIterator::from_node_excluding(tree, r, cuts)`. -/
def Tree.fromNodeExcluding (t : Tree) (r : Nat) (cuts : List Nat) : List Nat :=
  match findSub t.shape r with
  | some u => poExcl cuts u
  | none => []

/-- Modelled from the spec: `tree.ancestors(i)` of the external tree type is
the chain of proper ancestors of `i`, nearest (parent) first, ending at the
tree's root ("ancestor-chain enumeration", "walk its ancestor chain up to
(excluding) the unit's root"). -/
def Tree.ancestors (t : Tree) (i : Nat) : List Nat :=
  match pathTo t.shape i with
  | some p => p.dropLast.reverse
  | none => []

/-- Number of nodes of the tree. -/
def Tree.numNodes (t : Tree) : Nat := (postorderList t.shape).length

/-- The leaves of the tree, in post-order. -/
def Tree.leavesList (t : Tree) : List Nat :=
  (postorderList t.shape).filter (fun i => t.isLeafNode i)

/-- Wellformedness of the external tree, as guaranteed by its only producer
(`TreeCollection::from_newick`): the root is node `0`, node ids are distinct,
the leaf-to-taxon map is a bijection onto `0..ntaxa`, and the node vector
fits in memory (so 64-bit size arithmetic cannot wrap). -/
structure WfTree (t : Tree) : Prop where
  root_id : rootId t.shape = 0
  nodup : (postorderList t.shape).Nodup
  taxa_perm : ((t.leavesList).map t.taxa).Perm (List.range t.ntaxa)
  size_ok : t.numNodes + 1 < U64

/-! ## The subtree-size table (`melt.rs` lines 60-69) -/

/-- One iteration of the size-table construction: a leaf gets size 1, an
internal node accumulates its children's sizes (wrapping `u64` addition,
starting from the zero-initialised entry). -/
def buildSizesStep (t : Tree) (szs : Nat → Nat) (i : Nat) : Nat → Nat :=
  if t.isLeafNode i then updf szs i 1
  else updf szs i ((t.childIds i).foldl (fun acc c => wadd acc (szs c)) 0)

/-- `tree_sizes`: the post-order pass filling the subtree-size table. -/
def buildSizes (t : Tree) : Nat → Nat :=
  (postorderList t.shape).foldl (buildSizesStep t) (fun _ => 0)

/-- Number of leaves below node `v` (by global leaf test). -/
def subLeafCount (t : Tree) (v : Nat) : Nat :=
  ((t.postorderFrom v).filter (fun i => t.isLeafNode i)).length

/-! ## `CrucibleCtxt`: the non-gap prefix-sum index (`melt.rs` 16-49, 144-156) -/

/-- `CrucibleCtxt` (melt.rs lines 16-20): the dense `(n+1) × k` table of
non-gap prefix counts (`u32` entries modelled as `Nat (mod 2^32)`) plus the
decomposition ranges it serves. -/
structure CrucibleCtxt where
  nchars_partial_sum : List (List Nat)
  hmm_ranges : List (Nat × Nat)

/-- `num_hmms` (melt.rs lines 46-48). -/
def CrucibleCtxt.num_hmms (c : CrucibleCtxt) : Nat := c.hmm_ranges.length

/-- `retrieve_nchars_noalloc` (melt.rs lines 30-37): with `(start, end)` the
requested range, entry `i` of the caller's length-`k` buffer becomes
`table[end][i] - table[start][i]` (`u32` subtraction) for every `i < k`,
`k = shape[1]`; the buffer is fully overwritten, so we return its contents.
Out-of-bounds range indices or row indices would panic in Rust; the `getD`
defaults are made irrelevant by the theorems' bounds hypotheses. -/
def CrucibleCtxt.retrieve_nchars_noalloc (c : CrucibleCtxt) (hmm_idx : Nat) :
    List Nat :=
  let k := (c.nchars_partial_sum.headD []).length
  let se := c.hmm_ranges.getD hmm_idx (0, 0)
  (List.range k).map fun i =>
    wsub32 ((c.nchars_partial_sum.getD se.2 []).getD i 0)
      ((c.nchars_partial_sum.getD se.1 []).getD i 0)

/-- `retrieve_nchars` (melt.rs lines 39-44): allocates the length-`k` buffer
and fills it with `retrieve_nchars_noalloc`. -/
def CrucibleCtxt.retrieve_nchars (c : CrucibleCtxt) (hmm_idx : Nat) :
    List Nat :=
  c.retrieve_nchars_noalloc hmm_idx

/-- Row 0 of the prefix table: `Array::zeros` initialisation. -/
def zeroRow (k : Nat) : List Nat := List.replicate k 0

/-- One row of the `nchars_prefix` construction loop (melt.rs lines 147-156):
row `i` is row `i-1` plus the non-gap indicator of sequence `i-1` at each
column `j < k`; for `i = 1` the indicator is written directly (the source's
special case — the previous row is the zero row, so the two branches agree).
Additions are wrapping `u32`. A sequence shorter than `k` would panic in
Rust; the width hypotheses of the theorems make the `getD` default
irrelevant. -/
def nextRow (isFirst : Bool) (prev : List Nat) (s : List Char) (k : Nat) :
    List Nat :=
  (List.range k).map fun j =>
    if isFirst then (if s.getD j '-' = '-' then 0 else 1)
    else wadd32 (prev.getD j 0) (if s.getD j '-' = '-' then 0 else 1)

/-- Rows `1..n` of the prefix table, built sequence by sequence. -/
def psumRowsAux (k : Nat) : Bool → List Nat → List (List Char) → List (List Nat)
  | _, _, [] => []
  | isFirst, prev, s :: rest =>
      nextRow isFirst prev s k ::
        psumRowsAux k false (nextRow isFirst prev s k) rest

/-- The full `(n+1) × k` table `nchars_prefix` built by `oneshot_melt`
(melt.rs lines 146-156), row 0 included. -/
def ncharsPartialSum (seqs : List (List Char)) (k : Nat) : List (List Nat) :=
  zeroRow k :: psumRowsAux k true (zeroRow k) seqs

/-- Direct specification count: number of non-gap symbols in column `j`
among the sequences with indices in `[a, b)`. -/
def colCount (seqs : List (List Char)) (j a b : Nat) : Nat :=
  (((seqs.drop a).take (b - a)).filter (fun s => !(s.getD j '-' = '-'))).length

/-- Example alignment from the specification: `"AC-G"` and `"--CG"`. -/
def exSeqs : List (List Char) := [['A', 'C', '-', 'G'], ['-', '-', 'C', 'G']]

/-! ## The hierarchical decomposer (`melt.rs` lines 51-123)

The Rust loop is embedded as a step function on an explicit state plus a
fuel-driven loop (the fuel is a modelling artefact; the termination theorem
shows the chosen fuel always suffices, i.e. the loop exits because the queue
empties or the source `break`s, never because fuel runs out).  The state
carries two ghost fields — an event `log` and a `done` flag — that are pure
instrumentation: the source-mirrored fields are never computed from them. -/

/-- Ghost record of what one loop iteration did. -/
inductive StepAction : Type where
  /-- `size < max_size`: the unit is final, `continue`. -/
  | kept : StepAction
  /-- the cut search saw no internal candidate: the source executes `break`,
  leaving the whole loop. -/
  | leafBreak : StepAction
  /-- `assert_ne!(best_inbalance, u64::MAX)` would fire (panic). -/
  | assertFail : StepAction
  /-- a cut was applied: `best_cut` and its recorded size, two children
  enqueued. -/
  | split : Nat → Nat → StepAction
  deriving DecidableEq, Inhabited

/-- Ghost per-iteration log entry: the popped unit `(size, (lb, ub), root)`,
the cut set at pop time, and the action taken. -/
structure LogEntry : Type where
  size : Nat
  lb : Nat
  ub : Nat
  root : Nat
  cutsSnap : List Nat
  action : StepAction
  deriving DecidableEq, Inhabited

/-- The loop state of `hierarchical_decomp`: the taxon permutation being
reordered in place, the mutable subtree-size table, the `BinaryHeap` work
list (as a list; popping takes the lexicographic maximum, matching the
derived `Ord` of the Rust tuple), the cut set, and the recorded ranges.
`log` and `done` are ghost instrumentation. -/
structure DecompState : Type where
  reordered : List Nat
  sizes : Nat → Nat
  pq : List (Nat × (Nat × Nat) × Nat)
  cuts : List Nat
  ranges : List (Nat × Nat)
  log : List LogEntry
  done : Bool

/-- Strict lexicographic order of `(usize, (usize, usize), usize)`,
the derived `Ord` used by the `BinaryHeap`. -/
def entryLt (a b : Nat × (Nat × Nat) × Nat) : Bool :=
  if a.1 ≠ b.1 then Nat.blt a.1 b.1
  else if a.2.1.1 ≠ b.2.1.1 then Nat.blt a.2.1.1 b.2.1.1
  else if a.2.1.2 ≠ b.2.1.2 then Nat.blt a.2.1.2 b.2.1.2
  else Nat.blt a.2.2 b.2.2

/-- Greatest element of a nonempty list under `entryLt`. -/
def listMax : List (Nat × (Nat × Nat) × Nat) → Option (Nat × (Nat × Nat) × Nat)
  | [] => none
  | e :: rest => some (rest.foldl (fun m x => if entryLt m x then x else m) e)

/-- `BinaryHeap::pop`: remove and return the greatest element. (Entries that
compare equal under the full lexicographic order are identical tuples, so
which occurrence is removed is immaterial.) -/
def popMax (l : List (Nat × (Nat × Nat) × Nat)) :
    Option ((Nat × (Nat × Nat) × Nat) × List (Nat × (Nat × Nat) × Nat)) :=
  match listMax l with
  | none => none
  | some m => some (m, l.erase m)

/-- Result of the cut search (melt.rs lines 78-94): `best_inbalance`,
`best_cut`, `non_leaf`. -/
structure CutResult : Type where
  best : Nat
  bestCut : Nat
  nonLeaf : Bool
  deriving DecidableEq

/-- One iteration of the cut-search loop: the unit's root and leaves are
skipped; every other node sets `non_leaf` and competes on
`(size as u64 - tree_sizes[i]).abs_diff(tree_sizes[i])` under a strict
comparison, so the first minimiser in traversal order wins. -/
def cutStep (t : Tree) (szs : Nat → Nat) (size root : Nat) (acc : CutResult)
    (i : Nat) : CutResult :=
  if i = root then acc
  else if t.isLeafNode i then acc
  else
    if u64AbsDiff (wsub size (szs i)) (szs i) < acc.best then
      ⟨u64AbsDiff (wsub size (szs i)) (szs i), i, true⟩
    else ⟨acc.best, acc.bestCut, true⟩

/-- The cut search over the pruned traversal, starting from
`best_inbalance = u64::MAX`, `best_cut = 0`, `non_leaf = false`. -/
def cutSearch (t : Tree) (szs : Nat → Nat) (size root : Nat)
    (visited : List Nat) : CutResult :=
  visited.foldl (cutStep t szs size root) ⟨U64MAX, 0, false⟩

/-- The ancestor-update loop (melt.rs lines 100-105): walk the ancestor
chain of `best_cut`, stop at the unit's root, and subtract
`tree_sizes[best_cut]` (re-read at each step, as the source does) from every
ancestor strictly below it. Wrapping `u64` subtraction. -/
def applyAncestorCuts (root bc : Nat) : List Nat → (Nat → Nat) → (Nat → Nat)
  | [], szs => szs
  | a :: rest, szs =>
      if a = root then szs
      else applyAncestorCuts root bc rest (updf szs a (wsub (szs a) (szs bc)))

/-- The taxa marked by the labelling loop (melt.rs lines 107-112): the taxon
ids of all leaves below `best_cut` (full subtree, cuts not excluded — taxa of
previously cut-off subtrees lie outside the current unit's slice, so marking
them has no effect on the sort). -/
def labeledTaxa (t : Tree) (bc : Nat) : List Nat :=
  ((t.postorderFrom bc).filter (fun u => t.isLeafNode u)).map t.taxa

/-- The sub-slice `reordered_taxa[lb..ub]`. -/
def slice (l : List Nat) (lb ub : Nat) : List Nat := (l.drop lb).take (ub - lb)

/-- In-place replacement of the sub-slice `[lb, ub)`. -/
def writeSlice (l : List Nat) (lb ub : Nat) (seg : List Nat) : List Nat :=
  l.take lb ++ seg ++ l.drop ub

/-- The in-place reordering
`view.sort_unstable_by_key(|e| !taxa_label[*e])` (melt.rs lines 113-114):
the boolean key is false exactly on labelled taxa, so the slice ends up with
every labelled taxon before every unlabelled one.  `sort_unstable_by_key`
guarantees the key order but not the relative order of equal keys (it is an
unstable pattern-defeating quicksort whose exact permutation is
implementation-defined); the model fixes the stable representative.  Every
theorem below about ranges, sizes, the queue, the cut set or the log is
independent of this choice (those fields never read `reordered`), and the
permutation property of `reordered_taxa` holds for every representative. -/
def partitionSlice (t : Tree) (bc : Nat) (reord : List Nat) (lb ub : Nat) :
    List Nat :=
  writeSlice reord lb ub
    ((slice reord lb ub).filter (fun e => (labeledTaxa t bc).contains e) ++
      (slice reord lb ub).filter (fun e => !((labeledTaxa t bc).contains e)))

/-- One iteration of the `while let Some(...) = pq.pop()` loop
(melt.rs lines 70-118), with ghost logging. -/
def decompStep (t : Tree) (maxSize : Nat) (st : DecompState) : DecompState :=
  match popMax st.pq with
  | none => { st with done := true }
  | some (e, rest) =>
      let size := e.1
      let lb := e.2.1.1
      let ub := e.2.1.2
      let root := e.2.2
      let ranges1 := if 2 ≤ size then st.ranges ++ [(lb, ub)] else st.ranges
      if size < maxSize then
        { st with
            pq := rest,
            ranges := ranges1,
            log := st.log ++ [⟨size, lb, ub, root, st.cuts, .kept⟩] }
      else
        let res := cutSearch t st.sizes size root
          (t.fromNodeExcluding root st.cuts)
        if res.nonLeaf then
          if res.best = U64MAX then
            { st with
                pq := rest,
                ranges := ranges1,
                done := true,
                log := st.log ++
                  [⟨size, lb, ub, root, st.cuts, .assertFail⟩] }
          else
            let sizes1 :=
              applyAncestorCuts root res.bestCut (t.ancestors res.bestCut)
                st.sizes
            { reordered := partitionSlice t res.bestCut st.reordered lb ub,
              sizes := sizes1,
              pq := rest ++
                [(sizes1 res.bestCut,
                  (lb, wadd lb (sizes1 res.bestCut)), res.bestCut),
                 (wsub size (sizes1 res.bestCut),
                  (wadd lb (sizes1 res.bestCut), ub), root)],
              cuts := if res.bestCut ∈ st.cuts then st.cuts
                else res.bestCut :: st.cuts,
              ranges := ranges1,
              log := st.log ++
                [⟨size, lb, ub, root, st.cuts,
                  .split res.bestCut (sizes1 res.bestCut)⟩],
              done := st.done }
        else
          { st with
              pq := rest,
              ranges := ranges1,
              done := true,
              log := st.log ++ [⟨size, lb, ub, root, st.cuts, .leafBreak⟩] }

/-- The state before the loop (melt.rs lines 52-69): identity permutation,
size table from the post-order pass, the whole taxon space as one pending
unit rooted at node 0, and `cuts = {0}`. -/
def decompInit (t : Tree) : DecompState :=
  { reordered := List.range t.ntaxa,
    sizes := buildSizes t,
    pq := [(t.ntaxa, (0, t.ntaxa), 0)],
    cuts := [0],
    ranges := [],
    log := [],
    done := false }

/-- Fuel-driven iteration of the loop; `done` marks that the Rust loop has
exited (empty queue, `break`, or panic). -/
def decompLoop (t : Tree) (maxSize : Nat) : Nat → DecompState → DecompState
  | 0, st => st
  | fuel + 1, st =>
      if st.done then st else decompLoop t maxSize fuel (decompStep t maxSize st)

/-- Fuel that always suffices (proved below): one iteration per queue entry,
at most one split per tree node. -/
def decompFuel (t : Tree) : Nat := 2 * t.numNodes + 2

/-- The final loop state of `hierarchical_decomp`. -/
def hierarchicalDecompState (t : Tree) (max_size : Nat) : DecompState :=
  decompLoop t max_size (decompFuel t) (decompInit t)

/-- `TaxaHierarchy` (melt.rs lines 11-14). -/
structure TaxaHierarchy : Type where
  reordered_taxa : List Nat
  decomposition_ranges : List (Nat × Nat)
  deriving DecidableEq

/-- `hierarchical_decomp(tree, max_size)` (melt.rs lines 51-123). -/
def hierarchical_decomp (t : Tree) (max_size : Nat) : TaxaHierarchy :=
  { reordered_taxa := (hierarchicalDecompState t max_size).reordered,
    decomposition_ranges := (hierarchicalDecompState t max_size).ranges }

/-! ## Concrete trees for witnesses and counterexamples -/

/-- A balanced binary tree with four taxa: root `0`, internal nodes `1` and
`4`, leaves `2, 3` (taxa 0, 1) and `5, 6` (taxa 2, 3). -/
def tree4 : Tree :=
  { shape := .node 0 [.node 1 [.node 2 [], .node 3 []],
      .node 4 [.node 5 [], .node 6 []]],
    taxa := fun i =>
      if i = 2 then 0 else if i = 3 then 1
      else if i = 5 then 2 else if i = 6 then 3 else 0,
    ntaxa := 4 }

/-! ## Interval relations on recorded ranges -/

/-- `a` is contained in `b` as half-open intervals. -/
def intSub (a b : Nat × Nat) : Prop := b.1 ≤ a.1 ∧ a.2 ≤ b.2

/-- `a` and `b` are disjoint as half-open intervals. -/
def intDisj (a b : Nat × Nat) : Prop := a.2 ≤ b.1 ∨ b.2 ≤ a.1

/-- Laminar-family relation: nested one way or the other, or disjoint. -/
def lamRel (a b : Nat × Nat) : Prop := intSub a b ∨ intSub b a ∨ intDisj a b

instance (a b : Nat × Nat) : Decidable (intSub a b) := by
  unfold intSub; infer_instance

instance (a b : Nat × Nat) : Decidable (intDisj a b) := by
  unfold intDisj; infer_instance

instance (a b : Nat × Nat) : Decidable (lamRel a b) := by
  unfold lamRel; infer_instance

/-- The leaves of a pending unit's region. -/
def regLeaves (t : Tree) (r : Nat) (cuts : List Nat) : List Nat :=
  (t.fromNodeExcluding r cuts).filter (fun i => t.isLeafNode i)

/-- Number of leaves in a pending unit's region. -/
def regCount (t : Tree) (r : Nat) (cuts : List Nat) : Nat :=
  (regLeaves t r cuts).length

/-! ## The loop invariant -/

/-- What holds of every pending queue entry `(size, (lb, ub), root)`: the
root exists, the interval bounds are ordered and inside `[0, ntaxa]`, the
stored size is both the interval width and the unit's region leaf count, the
sub-slice holds exactly the taxa of the region's leaves, and the size table
is correct throughout the region (its root's entry is never read again). -/
structure EntryInv (t : Tree) (szs : Nat → Nat) (cuts : List Nat)
    (reord : List Nat) (e : Nat × (Nat × Nat) × Nat) : Prop where
  hfind : (findSub t.shape e.2.2).isSome = true
  lb_le : e.2.1.1 ≤ e.2.1.2
  ub_le : e.2.1.2 ≤ t.ntaxa
  size_eq : e.1 = e.2.1.2 - e.2.1.1
  size_reg : e.1 = regCount t e.2.2 cuts
  slice_perm : (slice reord e.2.1.1 e.2.1.2).Perm
    ((regLeaves t e.2.2 cuts).map t.taxa)
  sizes_reg : ∀ v ∈ t.fromNodeExcluding e.2.2 cuts, v ≠ e.2.2 →
    szs v = regCount t v cuts

/-- Two pending units occupy disjoint index intervals and disjoint tree
regions. -/
def EntrySep (t : Tree) (cuts : List Nat)
    (e1 e2 : Nat × (Nat × Nat) × Nat) : Prop :=
  (e1.2.1.2 ≤ e2.2.1.1 ∨ e2.2.1.2 ≤ e1.2.1.1) ∧
  ∀ x, x ∈ t.fromNodeExcluding e1.2.2 cuts →
    x ∈ t.fromNodeExcluding e2.2.2 cuts → False

/-- The ranges recorded by the loop, read off the ghost log: one per popped
unit of size at least 2, in pop order. -/
def extractRanges (log : List LogEntry) : List (Nat × Nat) :=
  (log.filter (fun L => decide (2 ≤ L.size))).map (fun L => (L.lb, L.ub))

/-- The popped unit had no internal cut candidate: everything its pruned
traversal visits other than its root is a leaf. -/
def leafOnlyStep (t : Tree) (L : LogEntry) : Prop :=
  ∀ i ∈ t.fromNodeExcluding L.root L.cutsSnap, i ≠ L.root →
    t.isLeafNode i = true

/-- What holds of every ghost log entry: interval sanity, `kept` exactly for
units below the threshold, the fatal assertion never fires, a `leafBreak`
comes from a leaf-only unit, and a split's cut is an internal region member
whose recorded size fits in the unit's interval. -/
structure LogInv (t : Tree) (maxSize : Nat) (L : LogEntry) : Prop where
  lb_le : L.lb ≤ L.ub
  ub_le : L.ub ≤ t.ntaxa
  size_eq : L.size = L.ub - L.lb
  kept_iff : L.action = .kept ↔ L.size < maxSize
  no_assert : L.action ≠ .assertFail
  leaf_only : L.action = .leafBreak → leafOnlyStep t L
  split_wit : ∀ bc s, L.action = .split bc s →
    bc ∈ t.fromNodeExcluding L.root L.cutsSnap ∧ bc ≠ L.root ∧
      t.isLeafNode bc = false ∧ L.lb + s ≤ L.ub

/-- The loop invariant of `hierarchical_decomp`. -/
structure Inv (t : Tree) (maxSize : Nat) (st : DecompState) : Prop where
  reord_perm : st.reordered.Perm (List.range t.ntaxa)
  cuts_nodup : st.cuts.Nodup
  cuts_sub : ∀ c ∈ st.cuts, c ∈ postorderList t.shape
  entries : ∀ e ∈ st.pq, EntryInv t st.sizes st.cuts st.reordered e
  sep : st.pq.Pairwise (EntrySep t st.cuts)
  ranges_log : st.ranges = extractRanges st.log
  log_inv : ∀ L ∈ st.log, LogInv t maxSize L
  ranges_lam : st.ranges.Pairwise lamRel
  ranges_pq : ∀ ρ ∈ st.ranges, ∀ e ∈ st.pq,
    intSub (e.2.1.1, e.2.1.2) ρ ∨ intDisj (e.2.1.1, e.2.1.2) ρ

/-- Termination measure: two units of slack per uncut node plus one per
pending unit. -/
def decompMeasure (t : Tree) (st : DecompState) : Nat :=
  2 * (t.numNodes + 1 - st.cuts.length) + st.pq.length

theorem U64_pos : 0 < U64 := by decide

theorem wadd_eq (a b : Nat) (h : a + b < U64) : wadd a b = a + b := by
  unfold wadd; exact Nat.mod_eq_of_lt h

theorem wsub_eq (a b : Nat) (hba : b ≤ a) (ha : a < U64) : wsub a b = a - b := by
  unfold wsub
  have hb : b < U64 := lt_of_le_of_lt hba ha
  rw [Nat.mod_eq_of_lt ha, Nat.mod_eq_of_lt hb]
  have h1 : a + (U64 - b) = (a - b) + U64 := by omega
  rw [h1, Nat.add_mod_right]
  exact Nat.mod_eq_of_lt (by omega)

theorem wadd32_eq (a b : Nat) (h : a + b < U32) : wadd32 a b = a + b := by
  unfold wadd32; exact Nat.mod_eq_of_lt h

theorem wsub32_eq (a b : Nat) (hba : b ≤ a) (ha : a < U32) : wsub32 a b = a - b := by
  unfold wsub32
  have hb : b < U32 := lt_of_le_of_lt hba ha
  rw [Nat.mod_eq_of_lt ha, Nat.mod_eq_of_lt hb]
  have h1 : a + (U32 - b) = (a - b) + U32 := by omega
  rw [h1, Nat.add_mod_right]
  exact Nat.mod_eq_of_lt (by omega)

theorem u64AbsDiff_le (a b c : Nat) (ha : a ≤ c) (hb : b ≤ c) :
    u64AbsDiff a b ≤ c := by
  unfold u64AbsDiff; split <;> omega

theorem updf_same (f : Nat → Nat) (i v : Nat) : updf f i v i = v := by
  simp [updf]

theorem updf_other (f : Nat → Nat) (i v j : Nat) (h : j ≠ i) :
    updf f i v j = f j := by
  simp [updf, h]

/-! ## Mutual induction principle for rose trees -/

mutual

theorem rtreeInd (P : RTree → Prop) (Q : List RTree → Prop)
    (hnode : ∀ i cs, Q cs → P (RTree.node i cs))
    (hnil : Q []) (hcons : ∀ c cs, P c → Q cs → Q (c :: cs)) :
    ∀ t : RTree, P t
  | .node i cs => hnode i cs (rforestInd P Q hnode hnil hcons cs)

theorem rforestInd (P : RTree → Prop) (Q : List RTree → Prop)
    (hnode : ∀ i cs, Q cs → P (RTree.node i cs))
    (hnil : Q []) (hcons : ∀ c cs, P c → Q cs → Q (c :: cs)) :
    ∀ l : List RTree, Q l
  | [] => hnil
  | c :: cs =>
      hcons c cs (rtreeInd P Q hnode hnil hcons c)
        (rforestInd P Q hnode hnil hcons cs)

end

/-! ## Basic facts about the traversals -/

theorem poAux_eq (c : RTree) (cs : List RTree) :
    poAux (c :: cs) = postorderList c ++ poAux cs := by
  simp [poAux]

theorem postorderList_eq (i : Nat) (cs : List RTree) :
    postorderList (.node i cs) = poAux cs ++ [i] := by
  simp [postorderList]

theorem mem_poAux {x : Nat} {cs : List RTree} :
    x ∈ poAux cs ↔ ∃ c ∈ cs, x ∈ postorderList c := by
  induction cs with
  | nil => simp [poAux]
  | cons c cs ih => simp [poAux_eq, ih]

theorem rootId_mem_postorder (u : RTree) : rootId u ∈ postorderList u := by
  cases u with
  | node i cs => simp [postorderList_eq, rootId]

theorem poExclAux_eq (cuts : List Nat) (c : RTree) (cs : List RTree) :
    poExclAux cuts (c :: cs) =
      (if rootId c ∈ cuts then [] else poExcl cuts c) ++ poExclAux cuts cs := by
  simp [poExclAux]

theorem poExcl_eq (cuts : List Nat) (i : Nat) (cs : List RTree) :
    poExcl cuts (.node i cs) = poExclAux cuts cs ++ [i] := by
  simp [poExcl]

theorem poExcl_sublist (cuts : List Nat) :
    ∀ u : RTree, List.Sublist (poExcl cuts u) (postorderList u) := by
  have h := rtreeInd (fun u => List.Sublist (poExcl cuts u) (postorderList u))
    (fun cs => List.Sublist (poExclAux cuts cs) (poAux cs))
    (fun i cs hq => by
      dsimp only
      rw [poExcl_eq, postorderList_eq]
      exact hq.append (List.Sublist.refl _))
    (by simp [poExclAux, poAux])
    (fun c cs hp hq => by
      dsimp only
      rw [poExclAux_eq, poAux_eq]
      refine List.Sublist.append ?_ hq
      split
      · exact List.nil_sublist _
      · exact hp)
  exact h

theorem poExclAux_sublist (cuts : List Nat) :
    ∀ cs : List RTree, List.Sublist (poExclAux cuts cs) (poAux cs) := by
  have h := rforestInd (fun u => List.Sublist (poExcl cuts u) (postorderList u))
    (fun cs => List.Sublist (poExclAux cuts cs) (poAux cs))
    (fun i cs hq => by
      dsimp only
      rw [poExcl_eq, postorderList_eq]
      exact hq.append (List.Sublist.refl _))
    (by simp [poExclAux, poAux])
    (fun c cs hp hq => by
      dsimp only
      rw [poExclAux_eq, poAux_eq]
      refine List.Sublist.append ?_ hq
      split
      · exact List.nil_sublist _
      · exact hp)
  exact h

theorem mem_of_mem_poExcl {cuts : List Nat} {u : RTree} {x : Nat}
    (h : x ∈ poExcl cuts u) : x ∈ postorderList u :=
  (poExcl_sublist cuts u).mem h

theorem rootId_mem_poExcl (cuts : List Nat) (u : RTree) :
    rootId u ∈ poExcl cuts u := by
  cases u with
  | node i cs => simp [poExcl_eq, rootId]

/-- A node yielded by the pruned traversal other than the start node is never
in the cut set. -/
theorem poExcl_not_cut (cuts : List Nat) :
    ∀ u : RTree, ∀ x ∈ poExcl cuts u, x ≠ rootId u → x ∉ cuts := by
  have h := rtreeInd
    (fun u => ∀ x ∈ poExcl cuts u, x ≠ rootId u → x ∉ cuts)
    (fun cs => ∀ x ∈ poExclAux cuts cs, x ∉ cuts)
    (fun i cs hq => by
      dsimp only
      intro x hx hne
      rw [poExcl_eq] at hx
      rcases List.mem_append.1 hx with hx | hx
      · exact hq x hx
      · simp [rootId] at hne
        simp at hx
        exact absurd hx hne)
    (by simp [poExclAux])
    (fun c cs hp hq => by
      dsimp only
      intro x hx
      rw [poExclAux_eq] at hx
      rcases List.mem_append.1 hx with hx | hx
      · by_cases hc : rootId c ∈ cuts
        · simp [hc] at hx
        · simp [hc] at hx
          by_cases hxc : x = rootId c
          · exact hxc ▸ hc
          · exact hp x hx hxc
      · exact hq x hx)
  exact h

/-! ## Locating subtrees by node id -/

theorem findSubAux_cons (c : RTree) (cs : List RTree) (j : Nat) :
    findSubAux (c :: cs) j =
      match findSub c j with
      | some u => some u
      | none => findSubAux cs j := by
  simp [findSubAux]

theorem findSub_node (i : Nat) (cs : List RTree) (j : Nat) :
    findSub (.node i cs) j =
      if i = j then some (.node i cs) else findSubAux cs j := by
  simp [findSub]

theorem findSub_rootId_self (u : RTree) : findSub u (rootId u) = some u := by
  cases u with
  | node i cs => simp [findSub_node, rootId]

theorem findSub_isSome_iff :
    ∀ u : RTree, ∀ j, (findSub u j).isSome = true ↔ j ∈ postorderList u := by
  have h := rtreeInd
    (fun u => ∀ j, (findSub u j).isSome = true ↔ j ∈ postorderList u)
    (fun cs => ∀ j, (findSubAux cs j).isSome = true ↔ j ∈ poAux cs)
    (fun i cs hq => by
      dsimp only
      intro j
      rw [findSub_node, postorderList_eq]
      by_cases hij : i = j
      · simp [hij]
      · simp [hij, hq j, Ne.symm hij])
    (by intro j; simp [findSubAux, poAux])
    (fun c cs hp hq => by
      dsimp only
      intro j
      rw [findSubAux_cons, poAux_eq]
      cases h : findSub c j with
      | some u =>
          have : j ∈ postorderList c := (hp j).1 (by simp [h])
          simp [this]
      | none =>
          have : j ∉ postorderList c := by
            intro hmem
            have := (hp j).2 hmem
            simp [h] at this
          simp [this, hq j])
  exact h

theorem findSubAux_isSome_iff :
    ∀ cs : List RTree, ∀ j, (findSubAux cs j).isSome = true ↔ j ∈ poAux cs := by
  intro cs j
  induction cs with
  | nil => simp [findSubAux, poAux]
  | cons c cs ih =>
      rw [findSubAux_cons, poAux_eq]
      cases h : findSub c j with
      | some u =>
          have : j ∈ postorderList c := (findSub_isSome_iff c j).1 (by simp [h])
          simp [this]
      | none =>
          have : j ∉ postorderList c := by
            intro hmem
            have := (findSub_isSome_iff c j).2 hmem
            simp [h] at this
          simp [this, ih]

theorem findSub_some_of_mem {u : RTree} {j : Nat} (h : j ∈ postorderList u) :
    ∃ w, findSub u j = some w := by
  have := (findSub_isSome_iff u j).2 h
  cases hw : findSub u j with
  | some w => exact ⟨w, rfl⟩
  | none => simp [hw] at this

theorem findSub_none_of_not_mem {u : RTree} {j : Nat}
    (h : j ∉ postorderList u) : findSub u j = none := by
  cases hw : findSub u j with
  | some w =>
      exact absurd ((findSub_isSome_iff u j).1 (by simp [hw])) h
  | none => rfl

theorem findSub_rootId :
    ∀ u : RTree, ∀ j w, findSub u j = some w → rootId w = j := by
  have h := rtreeInd
    (fun u => ∀ j w, findSub u j = some w → rootId w = j)
    (fun cs => ∀ j w, findSubAux cs j = some w → rootId w = j)
    (fun i cs hq => by
      dsimp only
      intro j w hw
      rw [findSub_node] at hw
      by_cases hij : i = j
      · simp [hij] at hw
        rw [← hw]; simp only [rootId]
      · simp [hij] at hw
        exact hq j w hw)
    (by intro j w hw; simp [findSubAux] at hw)
    (fun c cs hp hq => by
      dsimp only
      intro j w hw
      rw [findSubAux_cons] at hw
      cases h : findSub c j with
      | some u => rw [h] at hw; simp at hw; exact hw ▸ hp j u h
      | none => rw [h] at hw; simp at hw; exact hq j w hw)
  exact h

theorem findSub_po_sublist :
    ∀ u : RTree, ∀ j w, findSub u j = some w →
      List.Sublist (postorderList w) (postorderList u) := by
  have h := rtreeInd
    (fun u => ∀ j w, findSub u j = some w →
      List.Sublist (postorderList w) (postorderList u))
    (fun cs => ∀ j w, findSubAux cs j = some w →
      List.Sublist (postorderList w) (poAux cs))
    (fun i cs hq => by
      dsimp only
      intro j w hw
      rw [findSub_node] at hw
      by_cases hij : i = j
      · subst hij
        simp at hw
        rw [← hw]
      · simp [hij] at hw
        rw [postorderList_eq]
        exact (hq j w hw).trans (List.sublist_append_left _ _))
    (by intro j w hw; simp [findSubAux] at hw)
    (fun c cs hp hq => by
      dsimp only
      intro j w hw
      rw [findSubAux_cons] at hw
      rw [poAux_eq]
      cases h : findSub c j with
      | some u =>
          rw [h] at hw; simp at hw
          exact (hw ▸ hp j u h).trans (List.sublist_append_left _ _)
      | none =>
          rw [h] at hw; simp at hw
          exact (hq j w hw).trans (List.sublist_append_right _ _))
  exact h

theorem findSubAux_po_sublist :
    ∀ cs : List RTree, ∀ j w, findSubAux cs j = some w →
      List.Sublist (postorderList w) (poAux cs) := by
  intro cs j w hw
  induction cs with
  | nil => simp [findSubAux] at hw
  | cons c cs ih =>
      rw [findSubAux_cons] at hw
      rw [poAux_eq]
      cases h : findSub c j with
      | some u =>
          rw [h] at hw; simp at hw
          exact (hw ▸ findSub_po_sublist c j u h).trans
            (List.sublist_append_left _ _)
      | none =>
          rw [h] at hw; simp at hw
          exact (ih hw).trans (List.sublist_append_right _ _)

theorem findSub_po_subset {u w : RTree} {j : Nat} (h : findSub u j = some w) :
    ∀ x ∈ postorderList w, x ∈ postorderList u :=
  fun _ hx => (findSub_po_sublist u j w h).mem hx

theorem findSub_po_nodup {u w : RTree} {j : Nat}
    (hn : (postorderList u).Nodup) (h : findSub u j = some w) :
    (postorderList w).Nodup :=
  (findSub_po_sublist u j w h).nodup hn

/-- Under distinct node ids, locating an id inside a located subtree agrees
with locating it from the top. -/
theorem findSub_trans :
    ∀ u : RTree, (postorderList u).Nodup → ∀ r w, findSub u r = some w →
      ∀ j ∈ postorderList w, findSub u j = findSub w j := by
  have h := rtreeInd
    (fun u => (postorderList u).Nodup → ∀ r w, findSub u r = some w →
      ∀ j ∈ postorderList w, findSub u j = findSub w j)
    (fun cs => (poAux cs).Nodup → ∀ r w, findSubAux cs r = some w →
      ∀ j ∈ postorderList w, findSubAux cs j = findSub w j)
    (fun i cs hq => by
      dsimp only
      intro hn r w hw j hj
      rw [postorderList_eq, List.nodup_append] at hn
      obtain ⟨hn1, _, hdisj⟩ := hn
      rw [findSub_node] at hw ⊢
      by_cases hir : i = r
      · subst hir
        simp at hw
        rw [← hw] at hj ⊢
        rw [findSub_node]
      · simp [hir] at hw
        have hjaux : j ∈ poAux cs := (findSubAux_po_sublist cs r w hw).mem hj
        have hij : i ≠ j := fun hh => hdisj (hh ▸ hjaux) (by simp)
        simp [hij]
        exact hq hn1 r w hw j hj)
    (by intro hn r w hw; simp [findSubAux] at hw)
    (fun c cs hp hq => by
      dsimp only
      intro hn r w hw j hj
      rw [poAux_eq, List.nodup_append] at hn
      obtain ⟨hnc, hncs, hdisj⟩ := hn
      rw [findSubAux_cons] at hw ⊢
      cases h : findSub c r with
      | some u =>
          rw [h] at hw; simp at hw
          have hjc : j ∈ postorderList c :=
            (findSub_po_sublist c r u h).mem (hw ▸ hj)
          obtain ⟨v, hv⟩ := findSub_some_of_mem hjc
          rw [hv]
          rw [← hv, hp hnc r u h j (hw ▸ hj), hw]
          obtain ⟨x, hx⟩ := findSub_some_of_mem hj
          rw [hx]
      | none =>
          rw [h] at hw
          have hjaux : j ∈ poAux cs := (findSubAux_po_sublist cs r w hw).mem hj
          have hjc : j ∉ postorderList c := fun hh => hdisj hh hjaux
          rw [findSub_none_of_not_mem hjc]
          exact hq hncs r w hw j hj)
  exact h

/-! ## Paths from the root to a node -/

theorem pathTo_node (i : Nat) (cs : List RTree) (j : Nat) :
    pathTo (.node i cs) j =
      if i = j then some [i] else (pathToAux cs j).map (i :: ·) := by
  simp [pathTo]

theorem pathToAux_cons (c : RTree) (cs : List RTree) (j : Nat) :
    pathToAux (c :: cs) j =
      match pathTo c j with
      | some p => some p
      | none => pathToAux cs j := by
  simp [pathToAux]

theorem dropLast_cons_ne_nil {α : Type _} (a : α) {l : List α} (h : l ≠ []) :
    (a :: l).dropLast = a :: l.dropLast := by
  cases l with
  | nil => exact absurd rfl h
  | cons b l => simp

theorem getLast?_cons_ne_nil {α : Type _} (a : α) {l : List α} (h : l ≠ []) :
    (a :: l).getLast? = l.getLast? := by
  cases l with
  | nil => exact absurd rfl h
  | cons b l => simp [List.getLast?_cons_cons]

theorem pathTo_isSome_iff :
    ∀ u : RTree, ∀ j, (pathTo u j).isSome = true ↔ j ∈ postorderList u := by
  have h := rtreeInd
    (fun u => ∀ j, (pathTo u j).isSome = true ↔ j ∈ postorderList u)
    (fun cs => ∀ j, (pathToAux cs j).isSome = true ↔ j ∈ poAux cs)
    (fun i cs hq => by
      dsimp only
      intro j
      rw [pathTo_node, postorderList_eq]
      by_cases hij : i = j
      · simp [hij]
      · simp [hij, hq j, Ne.symm hij])
    (by intro j; simp [pathToAux, poAux])
    (fun c cs hp hq => by
      dsimp only
      intro j
      rw [pathToAux_cons, poAux_eq]
      cases h : pathTo c j with
      | some p =>
          have : j ∈ postorderList c := (hp j).1 (by simp [h])
          simp [this]
      | none =>
          have : j ∉ postorderList c := by
            intro hmem
            have := (hp j).2 hmem
            simp [h] at this
          simp [this, hq j])
  exact h

theorem pathTo_some_of_mem {u : RTree} {j : Nat} (h : j ∈ postorderList u) :
    ∃ p, pathTo u j = some p := by
  have := (pathTo_isSome_iff u j).2 h
  cases hp : pathTo u j with
  | some p => exact ⟨p, rfl⟩
  | none => simp [hp] at this

theorem pathTo_none_of_not_mem {u : RTree} {j : Nat}
    (h : j ∉ postorderList u) : pathTo u j = none := by
  cases hp : pathTo u j with
  | some p =>
      exact absurd ((pathTo_isSome_iff u j).1 (by simp [hp])) h
  | none => rfl

theorem pathTo_mem :
    ∀ u : RTree, ∀ j p, pathTo u j = some p → ∀ x ∈ p, x ∈ postorderList u := by
  have h := rtreeInd
    (fun u => ∀ j p, pathTo u j = some p → ∀ x ∈ p, x ∈ postorderList u)
    (fun cs => ∀ j p, pathToAux cs j = some p → ∀ x ∈ p, x ∈ poAux cs)
    (fun i cs hq => by
      dsimp only
      intro j p hp x hx
      rw [pathTo_node] at hp
      rw [postorderList_eq]
      by_cases hij : i = j
      · simp [hij] at hp
        rw [← hp] at hx
        simp at hx
        simp [hx, hij]
      · simp [hij] at hp
        obtain ⟨p', hp', hpp⟩ := hp
        rw [← hpp] at hx
        rcases List.mem_cons.1 hx with hx | hx
        · simp [hx]
        · exact List.mem_append.2 (Or.inl (hq j p' hp' x hx)))
    (by intro j p hp; simp [pathToAux] at hp)
    (fun c cs hp hq => by
      dsimp only
      intro j p hpp x hx
      rw [pathToAux_cons] at hpp
      rw [poAux_eq]
      cases h : pathTo c j with
      | some q =>
          rw [h] at hpp; simp at hpp
          exact List.mem_append.2 (Or.inl (hp j q h x (hpp ▸ hx)))
      | none =>
          rw [h] at hpp
          exact List.mem_append.2 (Or.inr (hq j p hpp x hx)))
  exact h

theorem pathToAux_mem :
    ∀ cs : List RTree, ∀ j p, pathToAux cs j = some p →
      ∀ x ∈ p, x ∈ poAux cs := by
  intro cs j p hpp x hx
  induction cs with
  | nil => simp [pathToAux] at hpp
  | cons c cs ih =>
      rw [pathToAux_cons] at hpp
      rw [poAux_eq]
      cases h : pathTo c j with
      | some q =>
          rw [h] at hpp; simp at hpp
          exact List.mem_append.2 (Or.inl (pathTo_mem c j q h x (hpp ▸ hx)))
      | none =>
          rw [h] at hpp
          exact List.mem_append.2 (Or.inr (ih hpp))

theorem pathTo_head :
    ∀ u : RTree, ∀ j p, pathTo u j = some p →
      ∃ tl, p = rootId u :: tl := by
  intro u j p hp
  cases u with
  | node i cs =>
      rw [pathTo_node] at hp
      by_cases hij : i = j
      · simp [hij] at hp
        exact ⟨[], by simp [← hp, rootId, hij]⟩
      · simp [hij] at hp
        obtain ⟨p', _, hpp⟩ := hp
        exact ⟨p', by simp [← hpp, rootId]⟩

theorem pathTo_ne_nil {u : RTree} {j : Nat} {p : List Nat}
    (hp : pathTo u j = some p) : p ≠ [] := by
  obtain ⟨tl, htl⟩ := pathTo_head u j p hp
  simp [htl]

theorem pathToAux_ne_nil {cs : List RTree} {j : Nat} {p : List Nat}
    (hp : pathToAux cs j = some p) : p ≠ [] := by
  induction cs with
  | nil => simp [pathToAux] at hp
  | cons c cs ih =>
      rw [pathToAux_cons] at hp
      cases h : pathTo c j with
      | some q => rw [h] at hp; simp at hp; exact hp ▸ pathTo_ne_nil h
      | none => rw [h] at hp; exact ih hp

theorem pathTo_getLast :
    ∀ u : RTree, ∀ j p, pathTo u j = some p → p.getLast? = some j := by
  have h := rtreeInd
    (fun u => ∀ j p, pathTo u j = some p → p.getLast? = some j)
    (fun cs => ∀ j p, pathToAux cs j = some p → p.getLast? = some j)
    (fun i cs hq => by
      dsimp only
      intro j p hp
      rw [pathTo_node] at hp
      by_cases hij : i = j
      · simp [hij] at hp
        simp [← hp, hij]
      · simp [hij] at hp
        obtain ⟨p', hp', hpp⟩ := hp
        rw [← hpp, getLast?_cons_ne_nil i (pathToAux_ne_nil hp')]
        exact hq j p' hp')
    (by intro j p hp; simp [pathToAux] at hp)
    (fun c cs hp hq => by
      dsimp only
      intro j p hpp
      rw [pathToAux_cons] at hpp
      cases h : pathTo c j with
      | some q => rw [h] at hpp; simp at hpp; exact hpp ▸ hp j q h
      | none => rw [h] at hpp; exact hq j p hpp)
  exact h

theorem pathTo_nodup :
    ∀ u : RTree, (postorderList u).Nodup → ∀ j p, pathTo u j = some p →
      p.Nodup := by
  have h := rtreeInd
    (fun u => (postorderList u).Nodup → ∀ j p, pathTo u j = some p → p.Nodup)
    (fun cs => (poAux cs).Nodup → ∀ j p, pathToAux cs j = some p → p.Nodup)
    (fun i cs hq => by
      dsimp only
      intro hn j p hp
      rw [postorderList_eq, List.nodup_append] at hn
      obtain ⟨hn1, _, hdisj⟩ := hn
      rw [pathTo_node] at hp
      by_cases hij : i = j
      · simp [hij] at hp
        simp [← hp]
      · simp [hij] at hp
        obtain ⟨p', hp', hpp⟩ := hp
        rw [← hpp]
        refine List.nodup_cons.2 ⟨?_, hq hn1 j p' hp'⟩
        intro hip
        exact hdisj (pathToAux_mem cs j p' hp' i hip) (by simp))
    (by intro hn j p hp; simp [pathToAux] at hp)
    (fun c cs hp hq => by
      dsimp only
      intro hn j p hpp
      rw [poAux_eq, List.nodup_append] at hn
      obtain ⟨hnc, hncs, _⟩ := hn
      rw [pathToAux_cons] at hpp
      cases h : pathTo c j with
      | some q => rw [h] at hpp; simp at hpp; exact hpp ▸ hp hnc j q h
      | none => rw [h] at hpp; exact hq hncs j p hpp)
  exact h

/-- Splitting a root-to-node path at any intermediate node `a` yields the
subtree rooted at `a` together with the remaining path inside it. -/
theorem pathTo_suffix :
    ∀ u : RTree, (postorderList u).Nodup → ∀ j q1 a q2,
      pathTo u j = some (q1 ++ a :: q2) →
      ∃ ua, findSub u a = some ua ∧ pathTo ua j = some (a :: q2) := by
  have h := rtreeInd
    (fun u => (postorderList u).Nodup → ∀ j q1 a q2,
      pathTo u j = some (q1 ++ a :: q2) →
      ∃ ua, findSub u a = some ua ∧ pathTo ua j = some (a :: q2))
    (fun cs => (poAux cs).Nodup → ∀ j q1 a q2,
      pathToAux cs j = some (q1 ++ a :: q2) →
      ∃ ua, findSubAux cs a = some ua ∧ pathTo ua j = some (a :: q2))
    (fun i cs hq => by
      dsimp only
      intro hn j q1 a q2 hp
      rw [postorderList_eq, List.nodup_append] at hn
      obtain ⟨hn1, _, hdisj⟩ := hn
      rw [pathTo_node] at hp
      by_cases hij : i = j
      · simp [hij] at hp
        cases q1 with
        | nil =>
            simp at hp
            obtain ⟨ha, hq2⟩ := hp
            subst hq2; subst ha; subst hij
            refine ⟨.node i cs, ?_, ?_⟩
            · simp [findSub_node]
            · simp [pathTo_node]
        | cons b q1' => simp at hp
      · simp [hij] at hp
        obtain ⟨p', hp', hpp⟩ := hp
        cases q1 with
        | nil =>
            simp at hpp
            obtain ⟨ha, hq2⟩ := hpp
            subst hq2
            refine ⟨.node i cs, ?_, ?_⟩
            · simp [findSub_node, ha]
            · rw [pathTo_node]; simp [hij, hp', ← ha]
        | cons b q1' =>
            simp at hpp
            obtain ⟨hib, hpq⟩ := hpp
            obtain ⟨ua, hua, hpua⟩ := hq hn1 j q1' a q2 (hpq ▸ hp')
            have haaux : a ∈ poAux cs :=
              pathToAux_mem cs j p' hp' a
                (by rw [hpq]; exact List.mem_append.2 (Or.inr (by simp)))
            have hia : i ≠ a := fun hh => hdisj (hh ▸ haaux) (by simp)
            refine ⟨ua, ?_, hpua⟩
            rw [findSub_node]; simp [hia]; exact hua)
    (by intro hn j q1 a q2 hp; simp [pathToAux] at hp)
    (fun c cs hp hq => by
      dsimp only
      intro hn j q1 a q2 hpp
      rw [poAux_eq, List.nodup_append] at hn
      obtain ⟨hnc, hncs, hdisj⟩ := hn
      rw [pathToAux_cons] at hpp
      cases h : pathTo c j with
      | some q =>
          rw [h] at hpp; simp at hpp
          obtain ⟨ua, hua, hpua⟩ := hp hnc j q1 a q2 (hpp ▸ h)
          refine ⟨ua, ?_, hpua⟩
          rw [findSubAux_cons, hua]
      | none =>
          rw [h] at hpp
          obtain ⟨ua, hua, hpua⟩ := hq hncs j q1 a q2 hpp
          have hac : a ∉ postorderList c := by
            intro hmem
            exact hdisj hmem
              (pathToAux_mem cs j _ hpp a
                (List.mem_append.2 (Or.inr (by simp))))
          refine ⟨ua, ?_, hpua⟩
          rw [findSubAux_cons, findSub_none_of_not_mem hac]
          exact hua)
  exact h

/-- The path to a node inside a located subtree is the path to the subtree's
root (without its endpoint) followed by the path within the subtree. -/
theorem pathTo_decomp :
    ∀ u : RTree, (postorderList u).Nodup → ∀ r w pr j pw,
      findSub u r = some w → pathTo u r = some pr → pathTo w j = some pw →
      pathTo u j = some (pr.dropLast ++ pw) := by
  have h := rtreeInd
    (fun u => (postorderList u).Nodup → ∀ r w pr j pw,
      findSub u r = some w → pathTo u r = some pr → pathTo w j = some pw →
      pathTo u j = some (pr.dropLast ++ pw))
    (fun cs => (poAux cs).Nodup → ∀ r w pr j pw,
      findSubAux cs r = some w → pathToAux cs r = some pr →
      pathTo w j = some pw →
      pathToAux cs j = some (pr.dropLast ++ pw))
    (fun i cs hq => by
      dsimp only
      intro hn r w pr j pw hfw hpr hpw
      rw [postorderList_eq, List.nodup_append] at hn
      obtain ⟨hn1, _, hdisj⟩ := hn
      rw [findSub_node] at hfw
      rw [pathTo_node] at hpr
      by_cases hir : i = r
      · subst hir
        simp at hfw hpr
        rw [← hpr, hfw]
        simp [hpw]
      · simp [hir] at hfw hpr
        obtain ⟨pr', hpr', hppr⟩ := hpr
        have hjw : j ∈ postorderList w := by
          have := (pathTo_isSome_iff w j).1 (by simp [hpw])
          exact this
        have hjaux : j ∈ poAux cs := (findSubAux_po_sublist cs r w hfw).mem hjw
        have hij : i ≠ j := fun hh => hdisj (hh ▸ hjaux) (by simp)
        rw [pathTo_node]
        simp only [hij, if_false]
        rw [hq hn1 r w pr' j pw hfw hpr' hpw]
        simp [← hppr, dropLast_cons_ne_nil i (pathToAux_ne_nil hpr')])
    (by intro hn r w pr j pw hfw; simp [findSubAux] at hfw)
    (fun c cs hp hq => by
      dsimp only
      intro hn r w pr j pw hfw hpr hpw
      rw [poAux_eq, List.nodup_append] at hn
      obtain ⟨hnc, hncs, hdisj⟩ := hn
      rw [findSubAux_cons] at hfw
      rw [pathToAux_cons] at hpr ⊢
      cases h : pathTo c r with
      | some q =>
          rw [h] at hpr; simp at hpr
          have hrc : r ∈ postorderList c := (pathTo_isSome_iff c r).1 (by simp [h])
          obtain ⟨w', hw'⟩ := findSub_some_of_mem hrc
          rw [hw'] at hfw; simp at hfw
          have := hp hnc r w' q j pw hw' h (hfw ▸ hpw)
          rw [this, hpr]
      | none =>
          rw [h] at hpr
          have hrc : r ∉ postorderList c := by
            intro hmem
            obtain ⟨p, hpp⟩ := pathTo_some_of_mem hmem
            rw [hpp] at h; exact Option.noConfusion h
          rw [findSub_none_of_not_mem hrc] at hfw
          have hjw : j ∈ postorderList w := (pathTo_isSome_iff w j).1 (by simp [hpw])
          have hjaux : j ∈ poAux cs := (findSubAux_po_sublist cs r w hfw).mem hjw
          have hjc : j ∉ postorderList c := fun hh => hdisj hh hjaux
          rw [pathTo_none_of_not_mem hjc]
          exact hq hncs r w pr j pw hfw hpr hpw)
  exact h

/-! ## Regions: properties of the pruned traversal -/

/-- Adding a node that is not part of a pruned traversal to the cut set does
not change the traversal at all. -/
theorem poExcl_cons_notmem (cuts : List Nat) (c : Nat) :
    ∀ u : RTree, c ∉ poExcl cuts u → poExcl (c :: cuts) u = poExcl cuts u := by
  have h := rtreeInd
    (fun u => c ∉ poExcl cuts u → poExcl (c :: cuts) u = poExcl cuts u)
    (fun cs => c ∉ poExclAux cuts cs →
      poExclAux (c :: cuts) cs = poExclAux cuts cs)
    (fun i cs hq => by
      dsimp only
      intro hc
      rw [poExcl_eq] at hc ⊢
      rw [poExcl_eq]
      rw [hq (fun hh => hc (List.mem_append.2 (Or.inl hh)))])
    (by intro _; simp [poExclAux])
    (fun ch cs hp hq => by
      dsimp only
      intro hc
      rw [poExclAux_eq] at hc ⊢
      rw [poExclAux_eq]
      have htail : poExclAux (c :: cuts) cs = poExclAux cuts cs :=
        hq (fun hh => hc (List.mem_append.2 (Or.inr hh)))
      rw [htail]
      by_cases hcut : rootId ch ∈ cuts
      · simp [hcut, List.mem_cons]
      · have hne : rootId ch ≠ c := by
          intro hh
          refine hc (List.mem_append.2 (Or.inl ?_))
          simp [hcut]
          exact hh ▸ rootId_mem_poExcl cuts ch
        have : rootId ch ∉ c :: cuts := by
          simp [List.mem_cons, hcut]
          exact fun hh => hne hh
        simp only [hcut, if_false, this, if_false]
        rw [hp (fun hh => hc (List.mem_append.2 (Or.inl (by simp [hcut]; exact hh))))])
  exact h

theorem poExclAux_cons_notmem (cuts : List Nat) (c : Nat) :
    ∀ cs : List RTree, c ∉ poExclAux cuts cs →
      poExclAux (c :: cuts) cs = poExclAux cuts cs := by
  intro cs hc
  induction cs with
  | nil => simp [poExclAux]
  | cons ch cs ih =>
      rw [poExclAux_eq] at hc ⊢
      rw [poExclAux_eq]
      have htail : poExclAux (c :: cuts) cs = poExclAux cuts cs :=
        ih (fun hh => hc (List.mem_append.2 (Or.inr hh)))
      rw [htail]
      by_cases hcut : rootId ch ∈ cuts
      · simp [hcut, List.mem_cons]
      · have hne : rootId ch ≠ c := by
          intro hh
          refine hc (List.mem_append.2 (Or.inl ?_))
          simp [hcut]
          exact hh ▸ rootId_mem_poExcl cuts ch
        have : rootId ch ∉ c :: cuts := by
          simp [List.mem_cons, hcut]
          exact fun hh => hne hh
        simp only [hcut, if_false, this, if_false]
        rw [poExcl_cons_notmem cuts c ch
          (fun hh => hc (List.mem_append.2 (Or.inl (by simp [hcut]; exact hh))))]

/-- Relativization: the pruned traversal from a region member `v` consists of
exactly the region nodes lying in `v`'s subtree. -/
theorem poExcl_relativize (cuts : List Nat) :
    ∀ u : RTree, (postorderList u).Nodup → ∀ v w, v ∈ poExcl cuts u →
      findSub u v = some w →
      ∀ x, x ∈ poExcl cuts w ↔ (x ∈ poExcl cuts u ∧ x ∈ postorderList w) := by
  have h := rtreeInd
    (fun u => (postorderList u).Nodup → ∀ v w, v ∈ poExcl cuts u →
      findSub u v = some w →
      ∀ x, x ∈ poExcl cuts w ↔ (x ∈ poExcl cuts u ∧ x ∈ postorderList w))
    (fun cs => (poAux cs).Nodup → ∀ v w, v ∈ poExclAux cuts cs →
      findSubAux cs v = some w →
      ∀ x, x ∈ poExcl cuts w ↔ (x ∈ poExclAux cuts cs ∧ x ∈ postorderList w))
    (fun i cs hq => by
      dsimp only
      intro hn v w hv hfw x
      rw [postorderList_eq, List.nodup_append] at hn
      obtain ⟨hn1, _, hdisj⟩ := hn
      rw [findSub_node] at hfw
      by_cases hiv : i = v
      · subst hiv
        simp at hfw
        subst hfw
        constructor
        · intro hx; exact ⟨hx, mem_of_mem_poExcl hx⟩
        · exact fun hx => hx.1
      · simp [hiv] at hfw
        have hvaux : v ∈ poExclAux cuts cs := by
          rw [poExcl_eq] at hv
          rcases List.mem_append.1 hv with h1 | h1
          · exact h1
          · simp at h1; exact absurd h1.symm hiv
        have hiff := hq hn1 v w hvaux hfw x
        rw [poExcl_eq]
        have hpow : ∀ y ∈ postorderList w, y ∈ poAux cs := fun y hy =>
          (findSubAux_po_sublist cs v w hfw).mem hy
        constructor
        · intro hx
          have hx2 := hiff.1 hx
          exact ⟨List.mem_append.2 (Or.inl hx2.1), hx2.2⟩
        · rintro ⟨hx1, hx2⟩
          rcases List.mem_append.1 hx1 with h1 | h1
          · exact hiff.2 ⟨h1, hx2⟩
          · simp at h1
            exact absurd (h1 ▸ hpow x hx2) (fun hh => hdisj hh (by simp)))
    (by intro hn v w hv; simp [poExclAux] at hv)
    (fun ch cs hp hq => by
      dsimp only
      intro hn v w hv hfw x
      rw [poAux_eq, List.nodup_append] at hn
      obtain ⟨hnc, hncs, hdisj⟩ := hn
      rw [poExclAux_eq] at hv
      rw [poExclAux_eq]
      rw [findSubAux_cons] at hfw
      rcases List.mem_append.1 hv with hv1 | hv1
      · by_cases hcut : rootId ch ∈ cuts
        · simp [hcut] at hv1
        · simp [hcut] at hv1
          have hvch : v ∈ postorderList ch := mem_of_mem_poExcl hv1
          obtain ⟨w', hw'⟩ := findSub_some_of_mem hvch
          rw [hw'] at hfw; simp at hfw
          subst hfw
          have hiff := hp hnc v w' hv1 hw' x
          have hpow : ∀ y ∈ postorderList w', y ∈ postorderList ch :=
            findSub_po_subset hw'
          constructor
          · intro hx
            have hx2 := hiff.1 hx
            refine ⟨List.mem_append.2 (Or.inl ?_), hx2.2⟩
            simp [hcut]; exact hx2.1
          · rintro ⟨hx1, hx2⟩
            rcases List.mem_append.1 hx1 with h1 | h1
            · simp [hcut] at h1
              exact hiff.2 ⟨h1, hx2⟩
            · have hxa : x ∈ poAux cs := (poExclAux_sublist cuts cs).mem h1
              exact absurd (hpow x hx2) (fun hh => hdisj hh hxa)
      · have hvaux : v ∈ poAux cs := (poExclAux_sublist cuts cs).mem hv1
        have hvch : v ∉ postorderList ch := fun hh => hdisj hh hvaux
        rw [findSub_none_of_not_mem hvch] at hfw
        have hiff := hq hncs v w hv1 hfw x
        have hpow : ∀ y ∈ postorderList w, y ∈ poAux cs := fun y hy =>
          (findSubAux_po_sublist cs v w hfw).mem hy
        constructor
        · intro hx
          have hx2 := hiff.1 hx
          exact ⟨List.mem_append.2 (Or.inr hx2.1), hx2.2⟩
        · rintro ⟨hx1, hx2⟩
          rcases List.mem_append.1 hx1 with h1 | h1
          · have hxch : x ∈ postorderList ch := by
              by_cases hcut : rootId ch ∈ cuts
              · simp [hcut] at h1
              · simp [hcut] at h1; exact mem_of_mem_poExcl h1
            exact absurd hxch (fun hh => hdisj hh (hpow x hx2))
          · exact hiff.2 ⟨h1, hx2⟩)
  exact h

/-- Every node on the path from a unit's root to a region member lies in the
region. -/
theorem pathTo_mem_poExcl (cuts : List Nat) :
    ∀ u : RTree, (postorderList u).Nodup → ∀ bc p, bc ∈ poExcl cuts u →
      pathTo u bc = some p → ∀ x ∈ p, x ∈ poExcl cuts u := by
  have h := rtreeInd
    (fun u => (postorderList u).Nodup → ∀ bc p, bc ∈ poExcl cuts u →
      pathTo u bc = some p → ∀ x ∈ p, x ∈ poExcl cuts u)
    (fun cs => (poAux cs).Nodup → ∀ bc p, bc ∈ poExclAux cuts cs →
      pathToAux cs bc = some p → ∀ x ∈ p, x ∈ poExclAux cuts cs)
    (fun i cs hq => by
      dsimp only
      intro hn bc p hv hp x hx
      rw [postorderList_eq, List.nodup_append] at hn
      obtain ⟨hn1, _, hdisj⟩ := hn
      rw [pathTo_node] at hp
      by_cases hib : i = bc
      · subst hib
        simp at hp
        subst hp
        simp at hx
        rw [hx]
        exact rootId_mem_poExcl cuts (.node i cs)
      · simp [hib] at hp
        obtain ⟨p', hp', hpp⟩ := hp
        rw [← hpp] at hx
        have hroot : i ∈ poExcl cuts (.node i cs) := by
          rw [poExcl_eq]; simp
        rcases List.mem_cons.1 hx with hx | hx
        · exact hx ▸ hroot
        · have hvaux : bc ∈ poExclAux cuts cs := by
            rw [poExcl_eq] at hv
            rcases List.mem_append.1 hv with h1 | h1
            · exact h1
            · simp at h1; exact absurd h1.symm hib
          rw [poExcl_eq]
          exact List.mem_append.2 (Or.inl (hq hn1 bc p' hvaux hp' x hx)))
    (by intro hn bc p hv; simp [poExclAux] at hv)
    (fun ch cs hp hq => by
      dsimp only
      intro hn bc p hv hpp x hx
      rw [poAux_eq, List.nodup_append] at hn
      obtain ⟨hnc, hncs, hdisj⟩ := hn
      rw [poExclAux_eq] at hv
      rw [poExclAux_eq]
      rw [pathToAux_cons] at hpp
      cases hch : pathTo ch bc with
      | some q =>
          rw [hch] at hpp; simp at hpp
          have hbch : bc ∈ postorderList ch :=
            (pathTo_isSome_iff ch bc).1 (by simp [hch])
          rcases List.mem_append.1 hv with hv1 | hv1
          · by_cases hcut : rootId ch ∈ cuts
            · simp [hcut] at hv1
            · simp [hcut] at hv1
              refine List.mem_append.2 (Or.inl ?_)
              simp [hcut]
              exact hp hnc bc q hv1 hch x (hpp ▸ hx)
          · have : bc ∈ poAux cs := (poExclAux_sublist cuts cs).mem hv1
            exact absurd hbch (fun hh => hdisj hh this)
      | none =>
          rw [hch] at hpp
          have hbch : bc ∉ postorderList ch := by
            intro hmem
            obtain ⟨q, hquestion⟩ := pathTo_some_of_mem hmem
            rw [hquestion] at hch; exact Option.noConfusion hch
          rcases List.mem_append.1 hv with hv1 | hv1
          · have : bc ∈ postorderList ch := by
              by_cases hcut : rootId ch ∈ cuts
              · simp [hcut] at hv1
              · simp [hcut] at hv1; exact mem_of_mem_poExcl hv1
            exact absurd this hbch
          · exact List.mem_append.2 (Or.inr (hq hncs bc p hv1 hpp x hx)))
  exact h

/-- Cutting a region member `bc` (other than the start node) removes exactly
`bc`'s subtree from the region. -/
theorem poExcl_cons_mem (cuts : List Nat) :
    ∀ u : RTree, (postorderList u).Nodup → ∀ bc w, bc ∈ poExcl cuts u →
      bc ≠ rootId u → findSub u bc = some w →
      ∀ x, x ∈ poExcl (bc :: cuts) u ↔
        (x ∈ poExcl cuts u ∧ x ∉ postorderList w) := by
  have h := rtreeInd
    (fun u => (postorderList u).Nodup → ∀ bc w, bc ∈ poExcl cuts u →
      bc ≠ rootId u → findSub u bc = some w →
      ∀ x, x ∈ poExcl (bc :: cuts) u ↔
        (x ∈ poExcl cuts u ∧ x ∉ postorderList w))
    (fun cs => (poAux cs).Nodup → ∀ bc w, bc ∈ poExclAux cuts cs →
      findSubAux cs bc = some w →
      ∀ x, x ∈ poExclAux (bc :: cuts) cs ↔
        (x ∈ poExclAux cuts cs ∧ x ∉ postorderList w))
    (fun i cs hq => by
      dsimp only
      intro hn bc w hv hne hfw x
      rw [postorderList_eq, List.nodup_append] at hn
      obtain ⟨hn1, _, hdisj⟩ := hn
      have hbci : i ≠ bc := fun hh => hne (by simp [rootId, ← hh])
      rw [findSub_node] at hfw
      simp [hbci] at hfw
      have hvaux : bc ∈ poExclAux cuts cs := by
        rw [poExcl_eq] at hv
        rcases List.mem_append.1 hv with h1 | h1
        · exact h1
        · simp at h1; exact absurd h1.symm hbci
      have hiff := hq hn1 bc w hvaux hfw
      have hpow : ∀ y ∈ postorderList w, y ∈ poAux cs := fun y hy =>
        (findSubAux_po_sublist cs bc w hfw).mem hy
      rw [poExcl_eq, poExcl_eq]
      constructor
      · intro hx
        rcases List.mem_append.1 hx with h1 | h1
        · have h2 := (hiff x).1 h1
          exact ⟨List.mem_append.2 (Or.inl h2.1), h2.2⟩
        · simp at h1
          refine ⟨List.mem_append.2 (Or.inr (by simp [h1])), ?_⟩
          intro hh
          exact hdisj (h1 ▸ hpow x hh) (by simp)
      · rintro ⟨hx1, hx2⟩
        rcases List.mem_append.1 hx1 with h1 | h1
        · exact List.mem_append.2 (Or.inl ((hiff x).2 ⟨h1, hx2⟩))
        · exact List.mem_append.2 (Or.inr h1))
    (by intro hn bc w hv; simp [poExclAux] at hv)
    (fun ch cs hp hq => by
      dsimp only
      intro hn bc w hv hfw x
      rw [poAux_eq, List.nodup_append] at hn
      obtain ⟨hnc, hncs, hdisj⟩ := hn
      rw [poExclAux_eq] at hv
      rw [findSubAux_cons] at hfw
      rw [poExclAux_eq, poExclAux_eq]
      rcases List.mem_append.1 hv with hv1 | hv1
      · by_cases hcut : rootId ch ∈ cuts
        · simp [hcut] at hv1
        · simp [hcut] at hv1
          have hbcch : bc ∈ postorderList ch := mem_of_mem_poExcl hv1
          obtain ⟨w', hw'⟩ := findSub_some_of_mem hbcch
          rw [hw'] at hfw; simp at hfw
          subst hfw
          have htail : poExclAux (bc :: cuts) cs = poExclAux cuts cs :=
            poExclAux_cons_notmem cuts bc cs (fun hh =>
              hdisj hbcch ((poExclAux_sublist cuts cs).mem hh))
          rw [htail]
          by_cases hbcr : rootId ch = bc
          · have hwch : w' = ch := by
              rw [← hbcr, findSub_rootId_self] at hw'
              exact (Option.some.inj hw').symm
            have hhd : rootId ch ∈ bc :: cuts := by simp [hbcr]
            rw [if_pos hhd, if_neg hcut]
            constructor
            · intro hx
              rw [List.nil_append] at hx
              refine ⟨List.mem_append.2 (Or.inr hx), ?_⟩
              intro hh
              rw [hwch] at hh
              exact hdisj hh ((poExclAux_sublist cuts cs).mem hx)
            · rintro ⟨hx1, hx2⟩
              rw [List.nil_append]
              rcases List.mem_append.1 hx1 with h1 | h1
              · rw [hwch] at hx2
                exact absurd (mem_of_mem_poExcl h1) hx2
              · exact h1
          · have hrne : rootId ch ∉ bc :: cuts := by
              simp [hcut]
              exact fun hh => hbcr hh
            simp only [hrne, if_false, hcut, if_false]
            have hiff := hp hnc bc w' hv1 (fun hh => hbcr hh.symm) hw'
            have hpow : ∀ y ∈ postorderList w', y ∈ postorderList ch :=
              findSub_po_subset hw'
            constructor
            · intro hx
              rcases List.mem_append.1 hx with h1 | h1
              · have h2 := (hiff x).1 h1
                exact ⟨List.mem_append.2 (Or.inl h2.1), h2.2⟩
              · refine ⟨List.mem_append.2 (Or.inr h1), ?_⟩
                intro hh
                exact hdisj (hpow x hh) ((poExclAux_sublist cuts cs).mem h1)
            · rintro ⟨hx1, hx2⟩
              rcases List.mem_append.1 hx1 with h1 | h1
              · exact List.mem_append.2 (Or.inl ((hiff x).2 ⟨h1, hx2⟩))
              · exact List.mem_append.2 (Or.inr h1)
      · have hbcaux : bc ∈ poAux cs := (poExclAux_sublist cuts cs).mem hv1
        have hbcch : bc ∉ postorderList ch := fun hh => hdisj hh hbcaux
        rw [findSub_none_of_not_mem hbcch] at hfw
        have hiff := hq hncs bc w hv1 hfw
        have hpow : ∀ y ∈ postorderList w, y ∈ poAux cs := fun y hy =>
          (findSubAux_po_sublist cs bc w hfw).mem hy
        have hrne : rootId ch ≠ bc := by
          intro hh
          exact hdisj (hh ▸ rootId_mem_postorder ch) hbcaux
        have hhd : (rootId ch ∈ bc :: cuts) ↔ (rootId ch ∈ cuts) := by
          simp [hrne]
        have hheq :
            (if rootId ch ∈ bc :: cuts then [] else poExcl (bc :: cuts) ch) =
            (if rootId ch ∈ cuts then [] else poExcl cuts ch) := by
          by_cases hcut : rootId ch ∈ cuts
          · simp [hcut, hhd.2 hcut]
          · have : rootId ch ∉ bc :: cuts := fun hh => hcut (hhd.1 hh)
            simp only [this, if_false, hcut, if_false]
            exact poExcl_cons_notmem cuts bc ch
              (fun hh => hbcch (mem_of_mem_poExcl hh))
        rw [hheq]
        constructor
        · intro hx
          rcases List.mem_append.1 hx with h1 | h1
          · refine ⟨List.mem_append.2 (Or.inl h1), ?_⟩
            intro hh
            have hxch : x ∈ postorderList ch := by
              by_cases hcut : rootId ch ∈ cuts
              · simp [hcut] at h1
              · simp [hcut] at h1; exact mem_of_mem_poExcl h1
            exact hdisj hxch (hpow x hh)
          · have h2 := (hiff x).1 h1
            exact ⟨List.mem_append.2 (Or.inr h2.1), h2.2⟩
        · rintro ⟨hx1, hx2⟩
          rcases List.mem_append.1 hx1 with h1 | h1
          · exact List.mem_append.2 (Or.inl h1)
          · exact List.mem_append.2 (Or.inr ((hiff x).2 ⟨h1, hx2⟩)))
  exact h

theorem poExcl_nodup {cuts : List Nat} {u : RTree}
    (hn : (postorderList u).Nodup) : (poExcl cuts u).Nodup :=
  (poExcl_sublist cuts u).nodup hn

/-- Adding the start node itself to the cut set leaves its own traversal
unchanged (the start node is always traversed). -/
theorem poExcl_rootCons (cuts : List Nat) (u : RTree)
    (hn : (postorderList u).Nodup) :
    poExcl (rootId u :: cuts) u = poExcl cuts u := by
  cases u with
  | node i cs =>
      rw [postorderList_eq, List.nodup_append] at hn
      simp only [rootId]
      rw [poExcl_eq, poExcl_eq]
      rw [poExclAux_cons_notmem cuts i cs (fun hh =>
        hn.2.2 ((poExclAux_sublist cuts cs).mem hh) (by simp))]

/-- Locating the root of a forest member under distinct ids. -/
theorem findSubAux_self_of_mem :
    ∀ cs : List RTree, (poAux cs).Nodup → ∀ c ∈ cs,
      findSubAux cs (rootId c) = some c := by
  intro cs hn c hc
  induction cs with
  | nil => simp at hc
  | cons c0 cs ih =>
      rw [poAux_eq, List.nodup_append] at hn
      obtain ⟨hn0, hncs, hdisj⟩ := hn
      rw [findSubAux_cons]
      rcases List.mem_cons.1 hc with hc | hc
      · subst hc
        rw [findSub_rootId_self]
      · have hmem : rootId c ∈ poAux cs :=
          mem_poAux.2 ⟨c, hc, rootId_mem_postorder c⟩
        have : rootId c ∉ postorderList c0 := fun hh => hdisj hh hmem
        rw [findSub_none_of_not_mem this]
        exact ih hncs hc

/-- Each child of a located node is itself located by its id. -/
theorem findSub_child {s : RTree} (hn : (postorderList s).Nodup)
    {r r' : Nat} {cs' : List RTree}
    (hw : findSub s r = some (.node r' cs')) :
    ∀ c ∈ cs', findSub s (rootId c) = some c := by
  intro c hc
  have hnw : (postorderList (RTree.node r' cs')).Nodup := findSub_po_nodup hn hw
  have hcaux : rootId c ∈ poAux cs' :=
    mem_poAux.2 ⟨c, hc, rootId_mem_postorder c⟩
  have hcmem : rootId c ∈ postorderList (RTree.node r' cs') := by
    rw [postorderList_eq]
    exact List.mem_append.2 (Or.inl hcaux)
  rw [findSub_trans s hn r _ hw (rootId c) hcmem]
  rw [postorderList_eq, List.nodup_append] at hnw
  have hne : r' ≠ rootId c := fun hh => hnw.2.2 (hh ▸ hcaux) (by simp)
  rw [findSub_node]
  simp only [hne, if_false]
  exact findSubAux_self_of_mem cs' hnw.1 c hc

theorem leavesList_length {t : Tree} (hw : WfTree t) :
    t.leavesList.length = t.ntaxa := by
  have h := hw.taxa_perm.length_eq
  simpa using h

theorem subLeafCount_le_ntaxa {t : Tree} (hw : WfTree t) (v : Nat) :
    subLeafCount t v ≤ t.ntaxa := by
  unfold subLeafCount Tree.postorderFrom
  cases hfw : findSub t.shape v with
  | none => simp
  | some u =>
      simp only
      rw [← leavesList_length hw]
      exact List.Sublist.length_le
        (List.Sublist.filter _ (findSub_po_sublist t.shape v u hfw))

theorem ntaxa_le_numNodes {t : Tree} (hw : WfTree t) :
    t.ntaxa ≤ t.numNodes := by
  rw [← leavesList_length hw]
  exact List.length_filter_le _ _

theorem ntaxa_ok {t : Tree} (hw : WfTree t) : t.ntaxa + 1 < U64 :=
  lt_of_le_of_lt (by have := ntaxa_le_numNodes hw; omega) hw.size_ok

theorem foldl_wadd_map_eq_sum (g : Nat → Nat) :
    ∀ (l : List Nat) (acc : Nat), acc + (l.map g).sum < U64 →
      l.foldl (fun a x => wadd a (g x)) acc = acc + (l.map g).sum := by
  intro l
  induction l with
  | nil => intro acc h; simp
  | cons x xs ih =>
      intro acc h
      simp only [List.foldl_cons]
      have hx : acc + g x < U64 := by
        simp [List.map_cons, List.sum_cons] at h
        omega
      rw [wadd_eq _ _ hx, ih (acc + g x) (by
        simp [List.map_cons, List.sum_cons] at h ⊢
        omega)]
      simp [List.map_cons, List.sum_cons]
      omega

theorem filter_length_poAux (p : Nat → Bool) :
    ∀ cs : List RTree, ((poAux cs).filter p).length =
      (cs.map (fun c => ((postorderList c).filter p).length)).sum := by
  intro cs
  induction cs with
  | nil => simp [poAux]
  | cons c cs ih => simp [poAux_eq, List.filter_append, ih]

/-- The post-order size pass computes, at every node of the tree, the number
of leaves of that node's subtree; entries outside the processed traversal are
left untouched. -/
theorem buildSizes_fold (t : Tree) (hw : WfTree t) :
    ∀ w : RTree, findSub t.shape (rootId w) = some w →
      ∀ szs : Nat → Nat, ∀ v : Nat,
        ((postorderList w).foldl (buildSizesStep t) szs) v =
          if v ∈ postorderList w then subLeafCount t v else szs v := by
  have h := rtreeInd
    (fun w => findSub t.shape (rootId w) = some w →
      ∀ szs : Nat → Nat, ∀ v : Nat,
        ((postorderList w).foldl (buildSizesStep t) szs) v =
          if v ∈ postorderList w then subLeafCount t v else szs v)
    (fun cs => (∀ c ∈ cs, findSub t.shape (rootId c) = some c) →
      ∀ szs : Nat → Nat, ∀ v : Nat,
        ((poAux cs).foldl (buildSizesStep t) szs) v =
          if v ∈ poAux cs then subLeafCount t v else szs v)
    (fun i cs hq => by
      dsimp only
      intro hfw szs v
      simp only [rootId] at hfw
      have hchild : ∀ c ∈ cs, findSub t.shape (rootId c) = some c :=
        findSub_child hw.nodup hfw
      have hnw : (postorderList (RTree.node i cs)).Nodup :=
        findSub_po_nodup hw.nodup hfw
      rw [postorderList_eq, List.nodup_append] at hnw
      obtain ⟨hn1, _, hdisj⟩ := hnw
      rw [postorderList_eq, List.foldl_append]
      have hszs1 := hq hchild szs
      set szs1 := (poAux cs).foldl (buildSizesStep t) szs with hszs1def
      have hleaf : t.isLeafNode i = cs.isEmpty := by
        unfold Tree.isLeafNode
        rw [hfw]
      have hpofrom : t.postorderFrom i = postorderList (RTree.node i cs) := by
        unfold Tree.postorderFrom
        rw [hfw]
      have hsub : subLeafCount t i =
          ((poAux cs).filter (fun j => t.isLeafNode j)).length +
            (if t.isLeafNode i then 1 else 0) := by
        unfold subLeafCount
        rw [hpofrom, postorderList_eq, List.filter_append]
        simp only [List.length_append, List.filter_cons, List.filter_nil]
        split <;> simp
      cases cs with
      | nil =>
          simp only [List.isEmpty_nil] at hleaf
          simp only [List.foldl_cons, List.foldl_nil]
          simp only [buildSizesStep, hleaf, if_true]
          by_cases hvi : v = i
          · subst hvi
            rw [updf_same]
            have : subLeafCount t v = 1 := by
              rw [hsub]
              simp [poAux, hleaf]
            simp [poAux, this]
          · rw [updf_other _ _ _ _ hvi]
            rw [hszs1 v]
            simp [poAux, hvi]
      | cons c cs' =>
          have hleaf' : t.isLeafNode i = false := by
            rw [hleaf]; simp
          simp only [List.foldl_cons, List.foldl_nil]
          simp only [buildSizesStep, hleaf', Bool.false_eq_true, if_false]
          have hchildIds : t.childIds i = (c :: cs').map rootId := by
            unfold Tree.childIds
            rw [hfw]
          by_cases hvi : v = i
          · subst hvi
            rw [updf_same]
            have hvals : ∀ x ∈ (c :: cs').map rootId,
                szs1 x = subLeafCount t x := by
              intro x hx
              rw [hszs1 x]
              obtain ⟨cc, hcc, hrcc⟩ := List.mem_map.1 hx
              have : x ∈ poAux (c :: cs') :=
                hrcc ▸ mem_poAux.2 ⟨cc, hcc, rootId_mem_postorder cc⟩
              simp [this]
            have hfold :
                ((c :: cs').map rootId).foldl (fun acc x => wadd acc (szs1 x)) 0 =
                  subLeafCount t v := by
              have hcong : ∀ (l : List Nat), (∀ x ∈ l, szs1 x = subLeafCount t x) →
                  ∀ acc, l.foldl (fun a x => wadd a (szs1 x)) acc =
                    l.foldl (fun a x => wadd a (subLeafCount t x)) acc := by
                intro l
                induction l with
                | nil => intro _ acc; simp
                | cons y ys ihy =>
                    intro hmemy acc
                    simp only [List.foldl_cons]
                    rw [hmemy y (by simp)]
                    exact ihy (fun x hx => hmemy x (by simp [hx])) _
              rw [hcong _ hvals 0]
              have hsum :
                  (((c :: cs').map rootId).map (fun x => subLeafCount t x)).sum =
                    subLeafCount t v := by
                rw [hsub]
                simp only [hleaf', if_false, Nat.add_zero, Bool.false_eq_true]
                rw [filter_length_poAux]
                rw [List.map_map]
                congr 1
                refine List.map_congr_left ?_
                intro cc hcc
                simp only [Function.comp]
                unfold subLeafCount Tree.postorderFrom
                rw [hchild cc hcc]
              rw [foldl_wadd_map_eq_sum _ _ 0 (by
                rw [hsum]
                have h1 := subLeafCount_le_ntaxa hw v
                have h2 := ntaxa_ok hw
                omega)]
              rw [hsum]
              omega
            rw [← hchildIds] at hfold
            rw [hfold]
            simp [List.mem_append]
          · rw [updf_other _ _ _ _ hvi]
            rw [hszs1 v]
            simp [List.mem_append, hvi])
    (by intro _ szs v; simp [poAux])
    (fun c cs hp hq => by
      dsimp only
      intro hfind szs v
      rw [poAux_eq, List.foldl_append]
      rw [hq (fun cc hcc => hfind cc (by simp [hcc])) _ v]
      by_cases hv : v ∈ poAux cs
      · simp [hv, List.mem_append]
      · simp only [hv, if_false]
        rw [hp (hfind c (by simp)) szs v]
        by_cases hvc : v ∈ postorderList c
        · simp [hvc, List.mem_append]
        · simp [hvc, hv, List.mem_append])
  exact h

/-- The size table built by `hierarchical_decomp` holds the leaf count of
every node's subtree. -/
theorem buildSizes_eq (t : Tree) (hw : WfTree t) :
    ∀ v ∈ postorderList t.shape, buildSizes t v = subLeafCount t v := by
  intro v hv
  unfold buildSizes
  have hself : findSub t.shape (rootId t.shape) = some t.shape :=
    findSub_rootId_self t.shape
  rw [buildSizes_fold t hw t.shape hself _ v]
  simp [hv]

theorem mapRange_getD (f : Nat → Nat) (k j d : Nat) (h : j < k) :
    (((List.range k).map f).getD j d) = f j := by
  rw [List.getD_eq_getElem?_getD]
  rw [List.getElem?_map]
  rw [List.getElem?_range h]
  simp

theorem zeroRow_getD (k j : Nat) : (zeroRow k).getD j 0 = 0 := by
  unfold zeroRow
  rw [List.getD_eq_getElem?_getD]
  rcases Nat.lt_or_ge j k with h | h
  · rw [List.getElem?_replicate]
    simp [h]
  · rw [List.getElem?_eq_none (by simpa using h)]
    simp

theorem psumRowsAux_length (k : Nat) :
    ∀ (ss : List (List Char)) (b : Bool) (prev : List Nat),
      (psumRowsAux k b prev ss).length = ss.length := by
  intro ss
  induction ss with
  | nil => intro b prev; simp [psumRowsAux]
  | cons s rest ih => intro b prev; simp [psumRowsAux, ih]

theorem nextRow_true_eq (prev : List Nat) (s : List Char) (k : Nat) :
    nextRow true prev s k = nextRow false (zeroRow k) s k := by
  unfold nextRow
  refine List.map_congr_left ?_
  intro j _
  rw [zeroRow_getD]
  have hx : ∀ x : Nat, x ≤ 1 → wadd32 0 x = x := by
    intro x hxx; unfold wadd32 U32; omega
  rw [if_pos rfl, if_neg Bool.false_ne_true]
  split
  · exact (hx 0 (by omega)).symm
  · exact (hx 1 (by omega)).symm

theorem psumRowsAux_first (k : Nat) (prev : List Nat) :
    ∀ ss : List (List Char),
      psumRowsAux k true prev ss = psumRowsAux k false (zeroRow k) ss := by
  intro ss
  cases ss with
  | nil => rfl
  | cons s rest =>
      show nextRow true prev s k ::
          psumRowsAux k false (nextRow true prev s k) rest =
        nextRow false (zeroRow k) s k ::
          psumRowsAux k false (nextRow false (zeroRow k) s k) rest
      rw [nextRow_true_eq]

theorem colCount_zero (seqs : List (List Char)) (j a : Nat) :
    colCount seqs j a a = 0 := by
  simp [colCount]

theorem colCount_cons (s : List Char) (rest : List (List Char)) (j b : Nat) :
    colCount (s :: rest) j 0 (b + 1) =
      (if s.getD j '-' = '-' then 0 else 1) + colCount rest j 0 b := by
  unfold colCount
  simp only [List.drop_zero, Nat.sub_zero, List.take_succ_cons,
    List.filter_cons]
  by_cases hgap : s.getD j '-' = '-'
  · rw [List.getD_eq_getElem?_getD] at hgap
    simp [hgap]
  · rw [List.getD_eq_getElem?_getD] at hgap
    simp [hgap]
    try omega

theorem colCount_le (seqs : List (List Char)) (j a b : Nat) :
    colCount seqs j a b ≤ b - a := by
  unfold colCount
  calc (((seqs.drop a).take (b - a)).filter _).length
      ≤ ((seqs.drop a).take (b - a)).length := List.length_filter_le _ _
    _ ≤ b - a := List.length_take_le _ _

theorem colCount_split (seqs : List (List Char)) (j a b : Nat) (hab : a ≤ b) :
    colCount seqs j 0 b = colCount seqs j 0 a + colCount seqs j a b := by
  unfold colCount
  simp only [List.drop_zero, Nat.sub_zero]
  have hb : b = a + (b - a) := by omega
  rw [hb, List.take_add, List.filter_append, List.length_append]
  rw [Nat.add_sub_cancel_left]

/-- Entries of the row-building pass: row `i` (0-based within the pass) holds,
at each column `j < k`, the carried-in count plus the number of non-gaps among
the first `i+1` processed sequences (all mod `2^32`). -/
theorem psumRowsAux_getD (k : Nat) :
    ∀ (ss : List (List Char)) (prev : List Nat) (i : Nat), i < ss.length →
      ∀ j < k, ((psumRowsAux k false prev ss).getD i []).getD j 0 =
        (prev.getD j 0 + colCount ss j 0 (i + 1)) % U32 := by
  intro ss
  induction ss with
  | nil => intro prev i hi; simp at hi
  | cons s rest ih =>
      intro prev i hi j hj
      cases i with
      | zero =>
          simp only [psumRowsAux, List.getD_cons_zero]
          unfold nextRow
          rw [mapRange_getD _ _ _ _ hj]
          simp only [Bool.false_eq_true, if_false]
          rw [colCount_cons, colCount_zero]
          unfold wadd32
          simp
      | succ i' =>
          simp only [psumRowsAux, List.getD_cons_succ]
          rw [ih _ i' (by simpa using hi) j hj]
          unfold nextRow
          rw [mapRange_getD _ _ _ _ hj]
          simp only [Bool.false_eq_true, if_false]
          rw [colCount_cons]
          unfold wadd32
          rw [Nat.mod_add_mod]
          congr 1
          omega

/-- Entry `(i, j)` of the built table is the non-gap count of column `j`
over the first `i` sequences, mod `2^32`. -/
theorem ncharsPartialSum_getD (seqs : List (List Char)) (k : Nat) :
    ∀ i ≤ seqs.length, ∀ j < k,
      (((ncharsPartialSum seqs k).getD i []).getD j 0) =
        colCount seqs j 0 i % U32 := by
  intro i hi j hj
  unfold ncharsPartialSum
  cases i with
  | zero =>
      simp only [List.getD_cons_zero]
      rw [zeroRow_getD, colCount_zero]
      simp [U32]
  | succ i' =>
      simp only [List.getD_cons_succ]
      rw [psumRowsAux_first k _ seqs]
      rw [psumRowsAux_getD k seqs (zeroRow k) i' (by omega) j hj]
      rw [zeroRow_getD]
      simp

theorem ncharsPartialSum_getD_exact (seqs : List (List Char)) (k : Nat)
    (hn : seqs.length < U32) :
    ∀ i ≤ seqs.length, ∀ j < k,
      (((ncharsPartialSum seqs k).getD i []).getD j 0) = colCount seqs j 0 i := by
  intro i hi j hj
  rw [ncharsPartialSum_getD seqs k i hi j hj]
  have h1 : colCount seqs j 0 i ≤ i := by
    have := colCount_le seqs j 0 i; omega
  exact Nat.mod_eq_of_lt (by omega)

/-- C8: for `n` sequences of identical width `k` (with `n` below the `u32`
bound so the unsigned counts cannot wrap), entry `(i, j)` of the
`(n+1) × k` prefix table equals the number of non-gap (non-`'-'`) characters
in column `j` among the first `i` sequences; in particular row 0 is all zero
and entry `(n, j)` is the total non-gap count of column `j`. -/
theorem C8_nchars_table (seqs : List (List Char)) (k i j : Nat)
    (hk : ∀ s ∈ seqs, s.length = k) (hn : seqs.length < U32)
    (hi : i ≤ seqs.length) (hj : j < k) :
    (ncharsPartialSum seqs k).length = seqs.length + 1 ∧
    (((ncharsPartialSum seqs k).getD i []).getD j 0 = colCount seqs j 0 i) ∧
    (ncharsPartialSum seqs k).getD 0 [] = List.replicate k 0 ∧
    ((ncharsPartialSum seqs k).getD seqs.length []).getD j 0 =
      colCount seqs j 0 seqs.length := by
  refine ⟨?_, ?_, ?_, ?_⟩
  · unfold ncharsPartialSum
    simp [psumRowsAux_length]
  · exact ncharsPartialSum_getD_exact seqs k hn i hi j hj
  · rfl
  · exact ncharsPartialSum_getD_exact seqs k hn seqs.length (le_refl _) j hj

theorem C8_nchars_table_witness :
    (ncharsPartialSum exSeqs 4).length = 2 + 1 ∧
    (((ncharsPartialSum exSeqs 4).getD 2 []).getD 3 0 = colCount exSeqs 3 0 2) ∧
    (ncharsPartialSum exSeqs 4).getD 0 [] = List.replicate 4 0 ∧
    ((ncharsPartialSum exSeqs 4).getD 2 []).getD 3 0 = colCount exSeqs 3 0 2 := by
  have h := C8_nchars_table exSeqs 4 2 3 (by decide) (by decide) (by decide)
    (by decide)
  exact h

/-- C7: for a `CrucibleCtxt` whose prefix table was built from the `n`
reordered sequences of width `k` (with `n` below the `u32` bound) and whose
`hmm_ranges` all satisfy `start ≤ end ≤ n`, `retrieve_nchars hmm_idx`
returns, at every column `j < k` and for every `hmm_idx < num_hmms`, exactly
the number of non-gap symbols in column `j` among the sequences with indices
in `[start, end)` of range `hmm_idx`. -/
theorem C7_retrieve_nchars_roundtrip (seqs : List (List Char)) (k : Nat)
    (ranges : List (Nat × Nat)) (hmm_idx j : Nat)
    (hk : ∀ s ∈ seqs, s.length = k) (hn : seqs.length < U32)
    (hr : ∀ r ∈ ranges, r.1 ≤ r.2 ∧ r.2 ≤ seqs.length)
    (hidx : hmm_idx < (CrucibleCtxt.mk (ncharsPartialSum seqs k) ranges).num_hmms)
    (hj : j < k) :
    ((CrucibleCtxt.mk (ncharsPartialSum seqs k) ranges).retrieve_nchars
        hmm_idx).getD j 0 =
      colCount seqs j (ranges.getD hmm_idx (0, 0)).1
        (ranges.getD hmm_idx (0, 0)).2 := by
  have hmem : ranges.getD hmm_idx (0, 0) ∈ ranges := by
    rw [List.getD_eq_getElem ranges (0, 0) hidx]
    exact List.getElem_mem _
  obtain ⟨hab, hbn⟩ := hr _ hmem
  set se := ranges.getD hmm_idx (0, 0) with hse
  unfold CrucibleCtxt.retrieve_nchars CrucibleCtxt.retrieve_nchars_noalloc
  simp only
  have hhead : (ncharsPartialSum seqs k).headD [] = zeroRow k := rfl
  rw [hhead]
  have hklen : (zeroRow k).length = k := by
    unfold zeroRow; exact List.length_replicate _ _
  rw [hklen]
  rw [mapRange_getD _ _ _ _ hj]
  rw [ncharsPartialSum_getD_exact seqs k hn se.2 hbn j hj]
  rw [ncharsPartialSum_getD_exact seqs k hn se.1 (le_trans hab hbn) j hj]
  have hsplit := colCount_split seqs j se.1 se.2 hab
  have hle : colCount seqs j 0 se.1 ≤ colCount seqs j 0 se.2 := by omega
  have hlt : colCount seqs j 0 se.2 < U32 := by
    have h1 := colCount_le seqs j 0 se.2
    omega
  rw [wsub32_eq _ _ hle hlt]
  omega

theorem C7_retrieve_nchars_roundtrip_witness :
    ((CrucibleCtxt.mk (ncharsPartialSum exSeqs 4) [(0, 2)]).retrieve_nchars
        0).getD 3 0 =
      colCount exSeqs 3 (([(0, 2)] : List (Nat × Nat)).getD 0 (0, 0)).1
        (([(0, 2)] : List (Nat × Nat)).getD 0 (0, 0)).2 :=
  C7_retrieve_nchars_roundtrip exSeqs 4 [(0, 2)] 0 3 (by decide) (by decide)
    (by decide) (by decide) (by decide)

theorem tree4_wf : WfTree tree4 := by
  refine ⟨rfl, by decide, ?_, by decide⟩
  decide

/-- C1 (counterexample): the recorded decomposition ranges are not pairwise
disjoint. On the balanced four-taxon tree with `max_size = 2`, a parent
range is recorded together with the ranges of the units it is split into:
`decomposition_ranges = [(0,4), (2,4), (2,4)]`, and `(0,4)` overlaps
`(2,4)`. -/
theorem C1_ranges_not_pairwise_disjoint :
    ¬ List.Pairwise (fun r1 r2 : Nat × Nat => r1.2 ≤ r2.1 ∨ r2.2 ≤ r1.1)
      (hierarchical_decomp tree4 2).decomposition_ranges := by
  decide

/-- C2 (counterexample): with `max_size = 2`, the first recorded range
`(0, 4)` has size `4 ≥ max_size`, yet the unit it was recorded from (the
initial unit rooted at node 0, cut set `{0}` — see the first log entry)
contains the internal non-leaf, non-root cut candidate node 1, so that unit
does not consist entirely of leaf taxa and the claim's exception does not
apply. -/
theorem C2_large_range_not_leaf_only :
    ((hierarchicalDecompState tree4 2).log.getD 0 default).size = 4 ∧
    ((hierarchicalDecompState tree4 2).log.getD 0 default).lb = 0 ∧
    ((hierarchicalDecompState tree4 2).log.getD 0 default).ub = 4 ∧
    ((hierarchicalDecompState tree4 2).log.getD 0 default).root = 0 ∧
    ((hierarchicalDecompState tree4 2).log.getD 0 default).cutsSnap = [0] ∧
    (0, 4) ∈ (hierarchical_decomp tree4 2).decomposition_ranges ∧
    ¬ (4 - 0 < 2) ∧
    1 ∈ tree4.fromNodeExcluding 0 [0] ∧
    tree4.isLeafNode 1 = false ∧ (1 : Nat) ≠ 0 := by
  decide

/-- C3 (code bug): on the four-taxon tree with `max_size = 2`, the third
popped unit (the re-rooted `(2,4)` unit at node 4) is a pure leaf cluster;
the source then executes `break` — leaving the whole work-list loop — so the
still-pending splittable unit `(2, (0, 2), 1)` (and the empty `(0, (4,4), 0)`
unit) are never popped or processed, and `(0, 2)` is never recorded. The
claimed behaviour (stop refining only that unit, keep popping until the
queue is empty) does not hold of the code. -/
theorem C3_break_abandons_pending :
    (hierarchicalDecompState tree4 2).done = true ∧
    ((hierarchicalDecompState tree4 2).log.getD 2 default).action =
      StepAction.leafBreak ∧
    (hierarchicalDecompState tree4 2).pq = [(2, (0, 2), 1), (0, (4, 4), 0)] ∧
    (0, 2) ∉ (hierarchical_decomp tree4 2).decomposition_ranges ∧
    (hierarchicalDecompState tree4 2).log.length = 3 := by
  decide

/-! ## Heap-pop facts -/

theorem listMax_mem :
    ∀ l : List (Nat × (Nat × Nat) × Nat), ∀ m, listMax l = some m → m ∈ l := by
  intro l m hm
  cases l with
  | nil => simp [listMax] at hm
  | cons e rest =>
      simp only [listMax] at hm
      have hfold : ∀ (xs : List (Nat × (Nat × Nat) × Nat)) (acc : _),
          acc = e ∨ acc ∈ rest →
          xs ⊆ e :: rest →
          (xs.foldl (fun m x => if entryLt m x then x else m) acc = m →
            m ∈ e :: rest) := by
        intro xs
        induction xs with
        | nil =>
            intro acc hacc _ hh
            rw [← hh]
            rcases hacc with h | h
            · simp [h]
            · simp [h]
        | cons x xs ih =>
            intro acc hacc hsub hh
            simp only [List.foldl_cons] at hh
            by_cases he : entryLt acc x
            · rw [if_pos he] at hh
              refine ih x ?_ (fun y hy => hsub (by simp [hy])) hh
              have : x ∈ e :: rest := hsub (by simp)
              rcases List.mem_cons.1 this with h | h
              · exact Or.inl h
              · exact Or.inr h
            · rw [if_neg he] at hh
              exact ih acc hacc (fun y hy => hsub (by simp [hy])) hh
      exact hfold rest e (Or.inl rfl) (fun y hy => by simp [hy])
        (Option.some.inj hm)

theorem popMax_none {l : List (Nat × (Nat × Nat) × Nat)} :
    popMax l = none ↔ l = [] := by
  cases l with
  | nil => simp [popMax, listMax]
  | cons e rest => simp [popMax, listMax]

theorem popMax_some {l : List (Nat × (Nat × Nat) × Nat)} {m rest} :
    popMax l = some (m, rest) → m ∈ l ∧ rest = l.erase m := by
  intro h
  unfold popMax at h
  cases hm : listMax l with
  | none => rw [hm] at h; exact Option.noConfusion h
  | some m' =>
      rw [hm] at h
      simp at h
      obtain ⟨h1, h2⟩ := h
      subst h1
      exact ⟨listMax_mem l m' hm, h2.symm⟩

/-- For a pairwise relation that is symmetric, the popped element is related
to everything left after erasing it. -/
theorem pairwise_erase_rel {α : Type _} [BEq α] [LawfulBEq α]
    {R : α → α → Prop}
    (hsymm : ∀ a b, R a b → R b a) :
    ∀ (l : List α) (m : α), List.Pairwise R l → m ∈ l →
      ∀ e ∈ l.erase m, R m e := by
  intro l
  induction l with
  | nil => intro m _ hm; simp at hm
  | cons x xs ih =>
      intro m hp hm e he
      rw [List.pairwise_cons] at hp
      obtain ⟨hx, hxs⟩ := hp
      rw [List.erase_cons] at he
      by_cases hxm : x = m
      · subst hxm
        simp at he
        exact hx e he
      · have : (x == m) = false := by
          simp [hxm]
        rw [this] at he
        simp at he
        rcases he with he | he
        · subst he
          have hmxs : m ∈ xs := by
            rcases List.mem_cons.1 hm with h | h
            · exact absurd h.symm hxm
            · exact h
          exact hsymm e m (hx m hmxs)
        · have hmxs : m ∈ xs := by
            rcases List.mem_cons.1 hm with h | h
            · exact absurd h.symm hxm
            · exact h
          exact ih m hxs hmxs e he

/-! ## Slice surgery on the taxon permutation -/

theorem slice_as_take (l : List Nat) (lb ub : Nat) :
    slice l lb ub = (l.take ub).drop lb := by
  unfold slice
  rw [List.drop_take]

theorem slice_length (l : List Nat) (lb ub : Nat) (hle : lb ≤ ub)
    (hub : ub ≤ l.length) : (slice l lb ub).length = ub - lb := by
  unfold slice
  rw [List.length_take, List.length_drop]
  omega

theorem writeSlice_perm (l : List Nat) (lb ub : Nat) (seg : List Nat)
    (hle : lb ≤ ub) (hperm : seg.Perm (slice l lb ub)) :
    (writeSlice l lb ub seg).Perm l := by
  unfold writeSlice
  have h1 : (l.drop lb).drop (ub - lb) = l.drop ub := by
    rw [List.drop_drop]
    congr 1
    omega
  have hdecomp : l = l.take lb ++ (slice l lb ub ++ l.drop ub) := by
    conv_lhs => rw [← List.take_append_drop lb l]
    congr 1
    unfold slice
    rw [← h1, List.take_append_drop]
  have hgoal : (l.take lb ++ (seg ++ l.drop ub)).Perm
      (l.take lb ++ (slice l lb ub ++ l.drop ub)) :=
    List.Perm.append_left _ (List.Perm.append hperm (List.Perm.refl _))
  rw [List.append_assoc]
  exact hgoal.trans (by rw [← hdecomp])

theorem slice_writeSlice_self (l : List Nat) (lb ub : Nat) (seg : List Nat)
    (hle : lb ≤ ub) (hub : ub ≤ l.length) (hlen : seg.length = ub - lb) :
    slice (writeSlice l lb ub seg) lb ub = seg := by
  unfold slice writeSlice
  rw [List.drop_append_of_le_length
    (by rw [List.length_append, List.length_take]; omega)]
  have h2 : (l.take lb ++ seg).drop lb = seg := by
    rw [List.drop_append_of_le_length (by rw [List.length_take]; omega)]
    rw [List.drop_eq_nil_of_le (by rw [List.length_take]; omega),
      List.nil_append]
  rw [h2]
  rw [List.take_append_of_le_length (by omega : ub - lb ≤ seg.length)]
  exact List.take_of_length_le (by omega)

theorem slice_writeSlice_left (l : List Nat) (lb ub : Nat) (seg : List Nat)
    (lb2 ub2 : Nat) (hub2 : ub2 ≤ lb) (hlb : lb ≤ l.length) :
    slice (writeSlice l lb ub seg) lb2 ub2 = slice l lb2 ub2 := by
  rw [slice_as_take, slice_as_take]
  unfold writeSlice
  congr 1
  rw [List.take_append_of_le_length
    (by rw [List.length_append, List.length_take]; omega)]
  rw [List.take_append_of_le_length (by rw [List.length_take]; omega)]
  rw [List.take_take]
  congr 1
  omega

theorem slice_writeSlice_right (l : List Nat) (lb ub : Nat) (seg : List Nat)
    (lb2 ub2 : Nat) (hlb2 : ub ≤ lb2) (hle : lb ≤ ub) (hub : ub ≤ l.length)
    (hlen : seg.length = ub - lb) :
    slice (writeSlice l lb ub seg) lb2 ub2 = slice l lb2 ub2 := by
  unfold slice writeSlice
  congr 1
  have hlenA : (l.take lb ++ seg).length = ub := by
    rw [List.length_append, List.length_take]
    omega
  rw [List.drop_append_eq_append_drop]
  rw [List.drop_eq_nil_of_le (by rw [hlenA]; omega), List.nil_append]
  rw [hlenA, List.drop_drop]
  congr 1
  omega

/-! ## Facts about the cut search -/

theorem cutStep_best_le (t : Tree) (szs : Nat → Nat) (size root : Nat)
    (acc : CutResult) (i : Nat) :
    (cutStep t szs size root acc i).best ≤ acc.best := by
  unfold cutStep
  split
  · exact le_refl _
  · split
    · exact le_refl _
    · split
      · rename_i h
        exact le_of_lt h
      · exact le_refl _

theorem cutStep_best_le_cand (t : Tree) (szs : Nat → Nat) (size root : Nat)
    (acc : CutResult) (i : Nat) (hir : i ≠ root)
    (hleaf : t.isLeafNode i = false) :
    (cutStep t szs size root acc i).best ≤
      u64AbsDiff (wsub size (szs i)) (szs i) := by
  unfold cutStep
  rw [if_neg hir, if_neg (by simp [hleaf])]
  split
  · exact le_refl _
  · rename_i h
    dsimp only
    omega

theorem cutStep_nonLeaf (t : Tree) (szs : Nat → Nat) (size root : Nat)
    (acc : CutResult) (i : Nat) :
    (cutStep t szs size root acc i).nonLeaf = true ↔
      (acc.nonLeaf = true ∨ (i ≠ root ∧ t.isLeafNode i = false)) := by
  unfold cutStep
  by_cases hir : i = root
  · simp [hir]
  · rw [if_neg hir]
    by_cases hleaf : t.isLeafNode i = true
    · simp [hleaf]
    · rw [if_neg hleaf]
      split <;> simp [hir, hleaf]

theorem cutStep_track (t : Tree) (szs : Nat → Nat) (size root : Nat)
    (acc : CutResult) (i : Nat) :
    ((cutStep t szs size root acc i).best = acc.best ∧
      (cutStep t szs size root acc i).bestCut = acc.bestCut) ∨
    ((cutStep t szs size root acc i).bestCut = i ∧ i ≠ root ∧
      t.isLeafNode i = false ∧
      (cutStep t szs size root acc i).best =
        u64AbsDiff (wsub size (szs i)) (szs i)) := by
  unfold cutStep
  by_cases hir : i = root
  · rw [if_pos hir]; exact Or.inl ⟨rfl, rfl⟩
  · rw [if_neg hir]
    by_cases hleaf : t.isLeafNode i = true
    · rw [if_pos hleaf]; exact Or.inl ⟨rfl, rfl⟩
    · rw [if_neg hleaf]
      split
      · exact Or.inr ⟨rfl, hir, by simp at hleaf; exact hleaf, rfl⟩
      · exact Or.inl ⟨rfl, rfl⟩

theorem cutFold_best_le (t : Tree) (szs : Nat → Nat) (size root : Nat) :
    ∀ (l : List Nat) (acc : CutResult),
      (l.foldl (cutStep t szs size root) acc).best ≤ acc.best := by
  intro l
  induction l with
  | nil => intro acc; simp
  | cons i l ih =>
      intro acc
      simp only [List.foldl_cons]
      exact le_trans (ih _) (cutStep_best_le t szs size root acc i)

theorem cutFold_best_le_cand (t : Tree) (szs : Nat → Nat) (size root : Nat) :
    ∀ (l : List Nat) (acc : CutResult), ∀ i ∈ l, i ≠ root →
      t.isLeafNode i = false →
      (l.foldl (cutStep t szs size root) acc).best ≤
        u64AbsDiff (wsub size (szs i)) (szs i) := by
  intro l
  induction l with
  | nil => intro acc i hi; simp at hi
  | cons j l ih =>
      intro acc i hi hir hleaf
      simp only [List.foldl_cons]
      rcases List.mem_cons.1 hi with hi | hi
      · subst hi
        exact le_trans (cutFold_best_le t szs size root l _)
          (cutStep_best_le_cand t szs size root acc i hir hleaf)
      · exact ih _ i hi hir hleaf

theorem cutFold_nonLeaf (t : Tree) (szs : Nat → Nat) (size root : Nat) :
    ∀ (l : List Nat) (acc : CutResult),
      (l.foldl (cutStep t szs size root) acc).nonLeaf = true ↔
        (acc.nonLeaf = true ∨ ∃ i ∈ l, i ≠ root ∧ t.isLeafNode i = false) := by
  intro l
  induction l with
  | nil => intro acc; simp
  | cons j l ih =>
      intro acc
      simp only [List.foldl_cons]
      rw [ih]
      rw [cutStep_nonLeaf]
      constructor
      · rintro ((h | h) | ⟨i, hi, hcand⟩)
        · exact Or.inl h
        · exact Or.inr ⟨j, by simp, h⟩
        · exact Or.inr ⟨i, by simp [hi], hcand⟩
      · rintro (h | ⟨i, hi, hcand⟩)
        · exact Or.inl (Or.inl h)
        · rcases List.mem_cons.1 hi with hi | hi
          · exact Or.inl (Or.inr (hi ▸ hcand))
          · exact Or.inr ⟨i, hi, hcand⟩

theorem cutFold_track (t : Tree) (szs : Nat → Nat) (size root : Nat) :
    ∀ (l : List Nat) (acc : CutResult),
      ((l.foldl (cutStep t szs size root) acc).best = acc.best ∧
        (l.foldl (cutStep t szs size root) acc).bestCut = acc.bestCut) ∨
      ((l.foldl (cutStep t szs size root) acc).bestCut ∈ l ∧
        (l.foldl (cutStep t szs size root) acc).bestCut ≠ root ∧
        t.isLeafNode (l.foldl (cutStep t szs size root) acc).bestCut = false) := by
  intro l
  induction l with
  | nil => intro acc; exact Or.inl ⟨rfl, rfl⟩
  | cons j l ih =>
      intro acc
      simp only [List.foldl_cons]
      rcases ih (cutStep t szs size root acc j) with ⟨h1, h2⟩ | ⟨h1, h2, h3⟩
      · rcases cutStep_track t szs size root acc j with ⟨g1, g2⟩ | ⟨g1, g2, g3, _⟩
        · exact Or.inl ⟨h1.trans g1, h2.trans g2⟩
        · exact Or.inr ⟨by rw [h2, g1]; simp, by rw [h2, g1]; exact g2,
            by rw [h2, g1]; exact g3⟩
      · exact Or.inr ⟨by simp [h1], h2, h3⟩

/-- If the search saw any internal candidate, `best_cut` is a non-leaf,
non-root member of the traversal. -/
theorem cutSearch_found (t : Tree) (szs : Nat → Nat) (size root : Nat)
    (visited : List Nat)
    (h : (cutSearch t szs size root visited).best ≠ U64MAX) :
    (cutSearch t szs size root visited).bestCut ∈ visited ∧
    (cutSearch t szs size root visited).bestCut ≠ root ∧
    t.isLeafNode (cutSearch t szs size root visited).bestCut = false := by
  rcases cutFold_track t szs size root visited ⟨U64MAX, 0, false⟩ with
    ⟨h1, _⟩ | h2
  · exact absurd h1 h
  · exact h2

/-! ## Regions of pending units and their leaf counts -/

theorem nodup_subset_length_le {l1 l2 : List Nat} (d1 : l1.Nodup)
    (hsub : ∀ a ∈ l1, a ∈ l2) : l1.length ≤ l2.length := by
  have h1 : l1.toFinset.card = l1.length := List.toFinset_card_of_nodup d1
  have h2 : l1.toFinset ⊆ l2.toFinset := by
    intro a ha
    rw [List.mem_toFinset] at ha ⊢
    exact hsub a ha
  have h3 : l2.toFinset.card ≤ l2.length := l2.toFinset_card_le
  have h4 := Finset.card_le_card h2
  omega

theorem fromNodeExcluding_sub_po {t : Tree} {r : Nat} {cuts : List Nat} :
    ∀ x ∈ t.fromNodeExcluding r cuts, x ∈ postorderList t.shape := by
  intro x hx
  unfold Tree.fromNodeExcluding at hx
  cases hfw : findSub t.shape r with
  | none => rw [hfw] at hx; simp at hx
  | some w =>
      rw [hfw] at hx
      exact findSub_po_subset hfw x (mem_of_mem_poExcl hx)

theorem fromNodeExcluding_nodup {t : Tree} (hn : (postorderList t.shape).Nodup)
    (r : Nat) (cuts : List Nat) : (t.fromNodeExcluding r cuts).Nodup := by
  unfold Tree.fromNodeExcluding
  cases hfw : findSub t.shape r with
  | none => simp
  | some w => exact poExcl_nodup (findSub_po_nodup hn hfw)

theorem root_mem_fromNodeExcluding {t : Tree} {r : Nat} {cuts : List Nat}
    (h : (findSub t.shape r).isSome = true) :
    r ∈ t.fromNodeExcluding r cuts := by
  unfold Tree.fromNodeExcluding
  cases hfw : findSub t.shape r with
  | none => rw [hfw] at h; simp at h
  | some w =>
      have := findSub_rootId t.shape r w hfw
      exact this ▸ rootId_mem_poExcl cuts w

theorem fromNodeExcluding_not_cut {t : Tree} {r : Nat} {cuts : List Nat} :
    ∀ x ∈ t.fromNodeExcluding r cuts, x ≠ r → x ∉ cuts := by
  intro x hx hxr
  unfold Tree.fromNodeExcluding at hx
  cases hfw : findSub t.shape r with
  | none => rw [hfw] at hx; simp at hx
  | some w =>
      rw [hfw] at hx
      exact poExcl_not_cut cuts w x hx
        (by rw [findSub_rootId t.shape r w hfw]; exact hxr)

theorem mem_fromNodeExcluding_isSome {t : Tree} {r x : Nat} {cuts : List Nat}
    (hx : x ∈ t.fromNodeExcluding r cuts) : (findSub t.shape r).isSome = true := by
  unfold Tree.fromNodeExcluding at hx
  cases hfw : findSub t.shape r with
  | none => rw [hfw] at hx; simp at hx
  | some w => simp

/-- Adding a cut that lies outside a region leaves the region unchanged. -/
theorem fromNodeExcluding_cons_notmem {t : Tree} {r bc : Nat}
    {cuts : List Nat} (h : bc ∉ t.fromNodeExcluding r cuts) :
    t.fromNodeExcluding r (bc :: cuts) = t.fromNodeExcluding r cuts := by
  unfold Tree.fromNodeExcluding at h ⊢
  cases hfw : findSub t.shape r with
  | none => rfl
  | some w =>
      rw [hfw] at h
      exact poExcl_cons_notmem cuts bc w h

/-- Cutting a region member `bc ≠ r` removes exactly `bc`'s full subtree
from the region. -/
theorem fromNodeExcluding_cons_mem {t : Tree}
    (hn : (postorderList t.shape).Nodup) {r bc : Nat} {cuts : List Nat}
    (hbc : bc ∈ t.fromNodeExcluding r cuts) (hne : bc ≠ r) :
    ∀ x, x ∈ t.fromNodeExcluding r (bc :: cuts) ↔
      (x ∈ t.fromNodeExcluding r cuts ∧ x ∉ t.postorderFrom bc) := by
  intro x
  unfold Tree.fromNodeExcluding Tree.postorderFrom at *
  cases hfw : findSub t.shape r with
  | none => rw [hfw] at hbc; simp at hbc
  | some w =>
      rw [hfw] at hbc
      dsimp only at hbc ⊢
      have hnw : (postorderList w).Nodup := findSub_po_nodup hn hfw
      have hbpo : bc ∈ postorderList w := mem_of_mem_poExcl hbc
      obtain ⟨wbc, hwbc⟩ := findSub_some_of_mem hbpo
      have hglobal : findSub t.shape bc = some wbc := by
        rw [findSub_trans t.shape hn r w hfw bc hbpo]
        exact hwbc
      rw [hglobal]
      dsimp only
      have hner : bc ≠ rootId w := by
        rw [findSub_rootId t.shape r w hfw]
        exact hne
      exact poExcl_cons_mem cuts w hnw bc wbc hbc hner hwbc x

/-- A unit re-rooted at its own (freshly cut) root keeps its region. -/
theorem fromNodeExcluding_self_cut {t : Tree}
    (hn : (postorderList t.shape).Nodup) (bc : Nat) (cuts : List Nat) :
    t.fromNodeExcluding bc (bc :: cuts) = t.fromNodeExcluding bc cuts := by
  unfold Tree.fromNodeExcluding
  cases hfw : findSub t.shape bc with
  | none => rfl
  | some w =>
      have : rootId w = bc := findSub_rootId t.shape bc w hfw
      rw [← this]
      exact poExcl_rootCons cuts w (findSub_po_nodup hn hfw)

/-- Relativization at the tree level: the region of a region member `v`
consists of the region nodes inside `v`'s subtree. -/
theorem fromNodeExcluding_relativize {t : Tree}
    (hn : (postorderList t.shape).Nodup) {r v : Nat} {cuts : List Nat}
    (hv : v ∈ t.fromNodeExcluding r cuts) :
    ∀ x, x ∈ t.fromNodeExcluding v cuts ↔
      (x ∈ t.fromNodeExcluding r cuts ∧ x ∈ t.postorderFrom v) := by
  intro x
  unfold Tree.fromNodeExcluding Tree.postorderFrom at *
  cases hfw : findSub t.shape r with
  | none => rw [hfw] at hv; simp at hv
  | some w =>
      rw [hfw] at hv
      dsimp only at hv ⊢
      have hnw : (postorderList w).Nodup := findSub_po_nodup hn hfw
      have hvpo : v ∈ postorderList w := mem_of_mem_poExcl hv
      obtain ⟨wv, hwv⟩ := findSub_some_of_mem hvpo
      have hglobal : findSub t.shape v = some wv := by
        rw [findSub_trans t.shape hn r w hfw v hvpo]
        exact hwv
      rw [hglobal]
      dsimp only
      exact poExcl_relativize cuts w hnw v wv hv hwv x

/-! ## The ancestor chain of a cut and the size-update loop -/

theorem getLast?_mem {α : Type _} {l : List α} {x : α}
    (h : l.getLast? = some x) : x ∈ l := by
  cases l with
  | nil => simp at h
  | cons a l =>
      have hne : a :: l ≠ [] := by simp
      rw [List.getLast?_eq_getLast _ hne] at h
      simp at h
      rw [← h]
      exact List.getLast_mem hne

theorem notmem_dropLast_of_nodup {l : List Nat} (hn : l.Nodup)
    (hx : l.getLast? = some x) : x ∉ l.dropLast := by
  cases hl : l with
  | nil => simp [hl] at hx
  | cons a l' =>
      rw [← hl]
      have hne : l ≠ [] := by simp [hl]
      rw [List.getLast?_eq_getLast _ hne] at hx
      simp at hx
      have hdecomp := List.dropLast_append_getLast hne
      intro hmem
      rw [← hdecomp, List.nodup_append] at hn
      exact hn.2.2 hmem (by rw [hx]; simp)

theorem dropLast_append_ne_nil {α : Type _} (l2 : List α) (h : l2 ≠ []) :
    ∀ l1 : List α, (l1 ++ l2).dropLast = l1 ++ l2.dropLast := by
  intro l1
  induction l1 with
  | nil => simp
  | cons a l1 ih =>
      have h1 : l1 ++ l2 ≠ [] := by
        intro hh
        rcases List.append_eq_nil.1 hh with ⟨_, h2⟩
        exact h h2
      rw [List.cons_append, dropLast_cons_ne_nil a h1, ih, List.cons_append]

/-- Pointwise description of the ancestor-update loop: with the ancestor
list split as `L1 ++ root :: L2` (`root` not in `L1`), exactly the nodes of
`L1` lose `szs bc`. -/
theorem applyAncestorCuts_eq (root bc : Nat) :
    ∀ (L1 L2 : List Nat) (szs : Nat → Nat), root ∉ L1 → bc ∉ L1 → L1.Nodup →
      ∀ v, applyAncestorCuts root bc (L1 ++ root :: L2) szs v =
        if v ∈ L1 then wsub (szs v) (szs bc) else szs v := by
  intro L1
  induction L1 with
  | nil =>
      intro L2 szs _ _ _ v
      simp only [List.nil_append, applyAncestorCuts, if_pos rfl]
      simp
  | cons a L1 ih =>
      intro L2 szs hroot hbc hnd v
      have har : a ≠ root := fun hh => hroot (by simp [hh])
      have hab : a ≠ bc := fun hh => hbc (by simp [hh])
      rw [List.nodup_cons] at hnd
      simp only [List.cons_append, applyAncestorCuts, if_neg har,
        List.append_eq]
      rw [ih L2 _ (fun hh => hroot (by simp [hh]))
        (fun hh => hbc (by simp [hh])) hnd.2 v]
      by_cases hv : v ∈ L1
      · have hva : v ≠ a := fun hh => hnd.1 (hh ▸ hv)
        rw [if_pos hv, if_pos (List.mem_cons_of_mem a hv)]
        rw [updf_other _ _ _ _ hva, updf_other _ _ _ _ (Ne.symm hab)]
      · by_cases hva : v = a
        · subst hva
          rw [if_neg hv, if_pos (List.mem_cons_self _ _), updf_same]
        · rw [if_neg hv, if_neg (by simp [hva, hv]),
            updf_other _ _ _ _ hva]

theorem root_not_mem_strict {ua wbc : RTree} {bc : Nat}
    (hnu : (postorderList ua).Nodup) (hfind : findSub ua bc = some wbc)
    (hne : bc ≠ rootId ua) : rootId ua ∉ postorderList wbc := by
  cases ua with
  | node a cs =>
      simp only [rootId] at hne ⊢
      rw [findSub_node] at hfind
      rw [if_neg (fun hh => hne hh.symm)] at hfind
      have hsub := findSubAux_po_sublist cs bc wbc hfind
      rw [postorderList_eq, List.nodup_append] at hnu
      exact fun hh => hnu.2.2 (hsub.mem hh) (by simp)

/-- If `bc` lies in the subtree found at `v`, then `v` lies on the path from
the root to `bc`. -/
theorem mem_path_of_subtree {w : RTree} (hn : (postorderList w).Nodup)
    {v bc : Nat} {wv : RTree} {Pw : List Nat}
    (hfv : findSub w v = some wv) (hbc : bc ∈ postorderList wv)
    (hPw : pathTo w bc = some Pw) : v ∈ Pw := by
  have hvpo : v ∈ postorderList w := by
    rw [← findSub_isSome_iff]
    simp [hfv]
  obtain ⟨Pv, hPv⟩ := pathTo_some_of_mem hvpo
  obtain ⟨Pvb, hPvb⟩ := pathTo_some_of_mem hbc
  have hdec := pathTo_decomp w hn v wv Pv bc Pvb hfv hPv hPvb
  rw [hPw] at hdec
  have heq : Pw = Pv.dropLast ++ Pvb := Option.some.inj hdec
  obtain ⟨tl, htl⟩ := pathTo_head wv bc Pvb hPvb
  have hrv : rootId wv = v := findSub_rootId w v wv hfv
  rw [heq, htl, hrv]
  simp

/-- Decomposition of `tree.ancestors(best_cut)` for a cut inside a unit's
region: the proper ancestors, nearest first, are the interior of the path
from the unit's root `r` down to `bc` (reversed), then `r`, then the rest of
the chain up to the global root; every interior ancestor belongs to the
region, its subtree contains `bc`'s subtree, and it lies outside `bc`'s
subtree. -/
theorem ancestors_split {t : Tree} (hn : (postorderList t.shape).Nodup)
    {r bc : Nat} {cuts : List Nat} {w : RTree}
    (hfw : findSub t.shape r = some w)
    (hbc : bc ∈ t.fromNodeExcluding r cuts) (hne : bc ≠ r) :
    ∃ A B : List Nat, t.ancestors bc = A ++ r :: B ∧ A.Nodup ∧ r ∉ A ∧
      bc ∉ A ∧
      (∀ v ∈ t.fromNodeExcluding r cuts, bc ∈ t.postorderFrom v →
        v = r ∨ v = bc ∨ v ∈ A) ∧
      ∀ a ∈ A, a ∈ t.fromNodeExcluding r cuts ∧
        (∀ x ∈ t.postorderFrom bc, x ∈ t.postorderFrom a) ∧
        a ∉ t.postorderFrom bc := by
  have hbcw : bc ∈ poExcl cuts w := by
    unfold Tree.fromNodeExcluding at hbc
    rw [hfw] at hbc
    exact hbc
  have hnw : (postorderList w).Nodup := findSub_po_nodup hn hfw
  have hbpo : bc ∈ postorderList w := mem_of_mem_poExcl hbcw
  obtain ⟨Pw, hPw⟩ := pathTo_some_of_mem hbpo
  have hrpo : r ∈ postorderList t.shape := by
    rw [← findSub_isSome_iff]
    simp [hfw]
  obtain ⟨Pr, hPr⟩ := pathTo_some_of_mem hrpo
  have hglob : pathTo t.shape bc = some (Pr.dropLast ++ Pw) :=
    pathTo_decomp t.shape hn r w Pr bc Pw hfw hPr hPw
  obtain ⟨tail, htail⟩ := pathTo_head w bc Pw hPw
  have hrw : rootId w = r := findSub_rootId t.shape r w hfw
  rw [hrw] at htail
  have htail_ne : tail ≠ [] := by
    intro hh
    rw [hh] at htail
    have := pathTo_getLast w bc Pw hPw
    rw [htail] at this
    simp at this
    exact hne this.symm
  have hPw_ne : Pw ≠ [] := by simp [htail]
  have hanc : t.ancestors bc = (Pr.dropLast ++ Pw).dropLast.reverse := by
    unfold Tree.ancestors
    rw [hglob]
  rw [dropLast_append_ne_nil Pw hPw_ne] at hanc
  rw [htail, dropLast_cons_ne_nil r htail_ne] at hanc
  have hanc2 : t.ancestors bc =
      tail.dropLast.reverse ++ r :: Pr.dropLast.reverse := by
    rw [hanc]
    rw [List.reverse_append, List.reverse_cons, List.append_assoc]
    simp
  have hnPw : Pw.Nodup := pathTo_nodup w hnw bc Pw hPw
  rw [htail, List.nodup_cons] at hnPw
  obtain ⟨hrtail, htailnd⟩ := hnPw
  have hAnd : tail.dropLast.reverse.Nodup := by
    rw [List.nodup_reverse]
    exact (List.dropLast_sublist tail).nodup htailnd
  have hArA : r ∉ tail.dropLast.reverse := by
    rw [List.mem_reverse]
    exact fun hh => hrtail ((List.dropLast_sublist tail).mem hh)
  have htaillast : tail.getLast? = some bc := by
    have h1 := pathTo_getLast w bc Pw hPw
    rw [htail, getLast?_cons_ne_nil r htail_ne] at h1
    exact h1
  have hbcA : bc ∉ tail.dropLast.reverse := by
    rw [List.mem_reverse]
    exact notmem_dropLast_of_nodup htailnd htaillast
  refine ⟨tail.dropLast.reverse, Pr.dropLast.reverse, hanc2, hAnd, hArA,
    hbcA, ?_, ?_⟩
  case _ =>
    intro v hv hbcv
    have hvw : v ∈ postorderList w := mem_of_mem_poExcl (by
      unfold Tree.fromNodeExcluding at hv
      rw [hfw] at hv
      exact hv)
    obtain ⟨wv, hwv⟩ := findSub_some_of_mem hvw
    have hgl : findSub t.shape v = some wv := by
      rw [findSub_trans t.shape hn r w hfw v hvw]
      exact hwv
    have hbcwv : bc ∈ postorderList wv := by
      unfold Tree.postorderFrom at hbcv
      rw [hgl] at hbcv
      exact hbcv
    have hvPw : v ∈ Pw := mem_path_of_subtree hnw hwv hbcwv hPw
    rw [htail] at hvPw
    rcases List.mem_cons.1 hvPw with h | h
    · exact Or.inl h
    · have hdecomp := List.dropLast_append_getLast htail_ne
      have hlast : tail.getLast htail_ne = bc := by
        rw [List.getLast?_eq_getLast _ htail_ne] at htaillast
        exact Option.some.inj htaillast
      rw [← hdecomp, hlast] at h
      rcases List.mem_append.1 h with h | h
      · exact Or.inr (Or.inr (List.mem_reverse.2 h))
      · simp at h
        exact Or.inr (Or.inl h)
  intro a ha
  rw [List.mem_reverse] at ha
  have haPw : a ∈ Pw := by
    rw [htail]
    exact List.mem_cons.2 (Or.inr ((List.dropLast_sublist tail).mem ha))
  have haw : a ∈ postorderList w := pathTo_mem w bc Pw hPw a haPw
  have hareg : a ∈ poExcl cuts w :=
    pathTo_mem_poExcl cuts w hnw bc Pw hbcw hPw a haPw
  obtain ⟨q1, q2, hsplit⟩ := List.append_of_mem haPw
  obtain ⟨ua, hua, hpua⟩ := pathTo_suffix w hnw bc q1 a q2 (hsplit ▸ hPw)
  have hbc_ua : bc ∈ postorderList ua := by
    rw [← pathTo_isSome_iff]
    simp [hpua]
  have hfua : findSub t.shape a = some ua := by
    rw [findSub_trans t.shape hn r w hfw a haw]
    exact hua
  have hrua : rootId ua = a := findSub_rootId w a ua hua
  have hfrom_a : t.postorderFrom a = postorderList ua := by
    unfold Tree.postorderFrom
    rw [hfua]
  have hbcg : findSub t.shape bc = findSub ua bc := by
    rw [findSub_trans t.shape hn a ua hfua bc hbc_ua]
  obtain ⟨wbc, hwbc⟩ := findSub_some_of_mem hbc_ua
  have hfrom_bc : t.postorderFrom bc = postorderList wbc := by
    unfold Tree.postorderFrom
    rw [hbcg, hwbc]
  have hnua : (postorderList ua).Nodup := findSub_po_nodup hn hfua
  have hbcnea : bc ≠ a := by
    intro hh
    exact hbcA (hh ▸ List.mem_reverse.2 ha)
  refine ⟨?_, ?_, ?_⟩
  · unfold Tree.fromNodeExcluding
    rw [hfw]
    exact hareg
  · intro x hx
    rw [hfrom_bc] at hx
    rw [hfrom_a]
    exact (findSub_po_sublist ua bc wbc hwbc).mem hx
  · rw [hfrom_bc]
    have := root_not_mem_strict hnua hwbc (by rw [hrua]; exact hbcnea)
    rw [hrua] at this
    exact this

/-! ## Counting leaves of regions under a new cut -/

theorem poExcl_nil_eq (u : RTree) : poExcl [] u = postorderList u := by
  have h := rtreeInd (fun u => poExcl [] u = postorderList u)
    (fun cs => poExclAux [] cs = poAux cs)
    (fun i cs hq => by
      dsimp only
      rw [poExcl_eq, postorderList_eq, hq])
    (by simp [poExclAux, poAux])
    (fun c cs hp hq => by
      dsimp only
      rw [poExclAux_eq, poAux_eq, hp, hq]
      simp)
  exact h u

theorem fromNodeExcluding_nil {t : Tree} {r : Nat} :
    t.fromNodeExcluding r [] = t.postorderFrom r := by
  unfold Tree.fromNodeExcluding Tree.postorderFrom
  cases hfw : findSub t.shape r with
  | none => rfl
  | some w => exact poExcl_nil_eq w

theorem postorderFrom_sub_po {t : Tree} {r : Nat} :
    ∀ x ∈ t.postorderFrom r, x ∈ postorderList t.shape := by
  intro x hx
  unfold Tree.postorderFrom at hx
  cases hfw : findSub t.shape r with
  | none => rw [hfw] at hx; simp at hx
  | some w =>
      rw [hfw] at hx
      exact findSub_po_subset hfw x hx

theorem self_mem_postorderFrom {t : Tree} {r : Nat}
    (h : (findSub t.shape r).isSome = true) : r ∈ t.postorderFrom r := by
  unfold Tree.postorderFrom
  cases hfw : findSub t.shape r with
  | none => rw [hfw] at h; simp at h
  | some w =>
      dsimp only
      have hr := findSub_rootId t.shape r w hfw
      exact hr ▸ rootId_mem_postorder w

theorem regLeaves_nodup {t : Tree} (hn : (postorderList t.shape).Nodup)
    (r : Nat) (cuts : List Nat) : (regLeaves t r cuts).Nodup :=
  (fromNodeExcluding_nodup hn r cuts).filter _

theorem regLeaves_sub_leaves {t : Tree} {r : Nat} {cuts : List Nat} :
    ∀ x ∈ regLeaves t r cuts, x ∈ t.leavesList := by
  intro x hx
  unfold regLeaves at hx
  rw [List.mem_filter] at hx
  unfold Tree.leavesList
  rw [List.mem_filter]
  exact ⟨fromNodeExcluding_sub_po x hx.1, hx.2⟩

theorem regCount_le_ntaxa {t : Tree} (hw : WfTree t) (r : Nat)
    (cuts : List Nat) : regCount t r cuts ≤ t.ntaxa := by
  unfold regCount
  rw [← leavesList_length hw]
  exact nodup_subset_length_le (regLeaves_nodup hw.nodup r cuts)
    regLeaves_sub_leaves

theorem mem_regLeaves_iff {t : Tree} {r x : Nat} {cuts : List Nat} :
    x ∈ regLeaves t r cuts ↔
      x ∈ t.fromNodeExcluding r cuts ∧ t.isLeafNode x = true := by
  unfold regLeaves
  rw [List.mem_filter]

theorem regLeaves_mono {t : Tree} (hn : (postorderList t.shape).Nodup)
    {r v : Nat} {cuts : List Nat} (hv : v ∈ t.fromNodeExcluding r cuts) :
    ∀ x ∈ regLeaves t v cuts, x ∈ regLeaves t r cuts := by
  intro x hx
  rw [mem_regLeaves_iff] at hx ⊢
  exact ⟨((fromNodeExcluding_relativize hn hv x).1 hx.1).1, hx.2⟩

theorem regCount_mono {t : Tree} (hn : (postorderList t.shape).Nodup)
    {r v : Nat} {cuts : List Nat} (hv : v ∈ t.fromNodeExcluding r cuts) :
    regCount t v cuts ≤ regCount t r cuts :=
  nodup_subset_length_le (regLeaves_nodup hn v cuts) (regLeaves_mono hn hv)

theorem mem_region_of_sub {t : Tree} (hn : (postorderList t.shape).Nodup)
    {r v bc : Nat} {cuts : List Nat}
    (hv : v ∈ t.fromNodeExcluding r cuts)
    (hbc : bc ∈ t.fromNodeExcluding r cuts)
    (hpo : bc ∈ t.postorderFrom v) : bc ∈ t.fromNodeExcluding v cuts :=
  (fromNodeExcluding_relativize hn hv bc).2 ⟨hbc, hpo⟩

/-- Cutting a region member `bc` keeps the leaves of `bc`'s sub-region inside
the old region's leaf list, and the new region's leaves are exactly the old
ones outside `bc`'s subtree. -/
theorem regLeaves_cut_perm {t : Tree} (hn : (postorderList t.shape).Nodup)
    {r bc : Nat} {cuts : List Nat}
    (hbc : bc ∈ t.fromNodeExcluding r cuts) (hne : bc ≠ r) :
    (regLeaves t bc cuts).Perm
      ((regLeaves t r cuts).filter
        (fun x => decide (x ∈ t.postorderFrom bc))) ∧
    (regLeaves t r (bc :: cuts)).Perm
      ((regLeaves t r cuts).filter
        (fun x => !decide (x ∈ t.postorderFrom bc))) := by
  constructor
  · rw [List.perm_ext_iff_of_nodup (regLeaves_nodup hn bc cuts)
      ((regLeaves_nodup hn r cuts).filter _)]
    intro x
    rw [List.mem_filter, mem_regLeaves_iff, mem_regLeaves_iff,
      fromNodeExcluding_relativize hn hbc x]
    constructor
    · rintro ⟨⟨h1, h2⟩, h3⟩
      exact ⟨⟨h1, h3⟩, by simp [h2]⟩
    · rintro ⟨⟨h1, h3⟩, h2⟩
      simp at h2
      exact ⟨⟨h1, h2⟩, h3⟩
  · rw [List.perm_ext_iff_of_nodup (regLeaves_nodup hn r (bc :: cuts))
      ((regLeaves_nodup hn r cuts).filter _)]
    intro x
    rw [List.mem_filter, mem_regLeaves_iff, mem_regLeaves_iff,
      fromNodeExcluding_cons_mem hn hbc hne x]
    constructor
    · rintro ⟨⟨h1, h2⟩, h3⟩
      exact ⟨⟨h1, h3⟩, by simp [h2]⟩
    · rintro ⟨⟨h1, h3⟩, h2⟩
      simp at h2
      exact ⟨⟨h1, h2⟩, h3⟩

/-- The two leaf counts under a cut: the cut subtree's leaves are part of the
unit's leaves, and after the cut the unit keeps exactly the rest. -/
theorem regCount_cut {t : Tree} (hn : (postorderList t.shape).Nodup)
    {r bc : Nat} {cuts : List Nat}
    (hbc : bc ∈ t.fromNodeExcluding r cuts) (hne : bc ≠ r) :
    regCount t bc cuts ≤ regCount t r cuts ∧
    regCount t r (bc :: cuts) = regCount t r cuts - regCount t bc cuts := by
  obtain ⟨hA, hB⟩ := regLeaves_cut_perm hn hbc hne
  have hsum :
      ((regLeaves t r cuts).filter
          (fun x => decide (x ∈ t.postorderFrom bc))).length +
        ((regLeaves t r cuts).filter
          (fun x => !decide (x ∈ t.postorderFrom bc))).length =
        (regLeaves t r cuts).length := by
    have := (List.filter_append_perm
      (fun x => decide (x ∈ t.postorderFrom bc)) (regLeaves t r cuts)).length_eq
    simp only [List.length_append] at this
    exact this
  have h1 := hA.length_eq
  have h2 := hB.length_eq
  unfold regCount
  omega

theorem regCount_cons_notmem {t : Tree} {r bc : Nat} {cuts : List Nat}
    (h : bc ∉ t.fromNodeExcluding r cuts) :
    regCount t r (bc :: cuts) = regCount t r cuts := by
  unfold regCount regLeaves
  rw [fromNodeExcluding_cons_notmem h]

theorem regLeaves_self_cut {t : Tree} (hn : (postorderList t.shape).Nodup)
    (bc : Nat) (cuts : List Nat) :
    regLeaves t bc (bc :: cuts) = regLeaves t bc cuts := by
  unfold regLeaves
  rw [fromNodeExcluding_self_cut hn]

theorem regCount_self_cut {t : Tree} (hn : (postorderList t.shape).Nodup)
    (bc : Nat) (cuts : List Nat) :
    regCount t bc (bc :: cuts) = regCount t bc cuts := by
  unfold regCount
  rw [regLeaves_self_cut hn]

/-! ## The taxon map on leaves, and the labelling step -/

theorem taxa_map_nodup {t : Tree} (hw : WfTree t) :
    (t.leavesList.map t.taxa).Nodup :=
  hw.taxa_perm.symm.nodup (List.nodup_range _)

theorem taxa_inj_on_leaves {t : Tree} (hw : WfTree t) :
    ∀ x ∈ t.leavesList, ∀ y ∈ t.leavesList, t.taxa x = t.taxa y → x = y :=
  List.inj_on_of_nodup_map (taxa_map_nodup hw)

/-- On the leaves of the popped unit's region, membership of the taxon in
`taxa_label` coincides with membership of the leaf in `best_cut`'s subtree. -/
theorem labeled_decide_eq {t : Tree} (hw : WfTree t) {bc x : Nat}
    (hx : x ∈ t.leavesList) :
    (labeledTaxa t bc).contains (t.taxa x) =
      decide (x ∈ t.postorderFrom bc) := by
  rw [show (labeledTaxa t bc).contains (t.taxa x) =
    decide (t.taxa x ∈ labeledTaxa t bc) from List.elem_eq_mem _ _]
  by_cases hmem : x ∈ t.postorderFrom bc
  · have hleaf : t.isLeafNode x = true := by
      unfold Tree.leavesList at hx
      rw [List.mem_filter] at hx
      exact hx.2
    have hin : t.taxa x ∈ labeledTaxa t bc := by
      unfold labeledTaxa
      exact List.mem_map.2 ⟨x, List.mem_filter.2 ⟨hmem, hleaf⟩, rfl⟩
    simp [hmem, hin]
  · have hout : t.taxa x ∉ labeledTaxa t bc := by
      unfold labeledTaxa
      simp only [List.mem_map, List.mem_filter]
      rintro ⟨y, ⟨hy1, hy2⟩, hy3⟩
      have hyl : y ∈ t.leavesList := by
        unfold Tree.leavesList
        rw [List.mem_filter]
        exact ⟨postorderFrom_sub_po y hy1, hy2⟩
      have := taxa_inj_on_leaves hw x hx y hyl hy3.symm
      exact hmem (this ▸ hy1)
    simp [hmem, hout]

/-- The labelled part of the popped slice is, up to permutation, the taxon
image of the cut subtree's region leaves; the unlabelled part is the taxon
image of the remaining region's leaves. -/
theorem partition_halves_perm {t : Tree} (hw : WfTree t) {r bc : Nat}
    {cuts : List Nat} {sl : List Nat}
    (hsl : sl.Perm ((regLeaves t r cuts).map t.taxa))
    (hbc : bc ∈ t.fromNodeExcluding r cuts) (hne : bc ≠ r) :
    (sl.filter (fun e => (labeledTaxa t bc).contains e)).Perm
        ((regLeaves t bc cuts).map t.taxa) ∧
    (sl.filter (fun e => !((labeledTaxa t bc).contains e))).Perm
        ((regLeaves t r (bc :: cuts)).map t.taxa) := by
  obtain ⟨hA, hB⟩ := regLeaves_cut_perm hw.nodup hbc hne
  constructor
  · refine (hsl.filter _).trans ?_
    rw [List.filter_map]
    rw [List.filter_congr (fun x hx => by
      simp only [Function.comp]
      exact labeled_decide_eq hw (regLeaves_sub_leaves x hx))]
    exact (hA.map t.taxa).symm
  · refine (hsl.filter _).trans ?_
    rw [List.filter_map]
    rw [List.filter_congr (fun x hx => by
      simp only [Function.comp]
      rw [labeled_decide_eq hw (regLeaves_sub_leaves x hx)])]
    exact (hB.map t.taxa).symm

/-! ## Slice prefix and suffix extraction -/

theorem slice_lower (l : List Nat) (lb mid ub : Nat) (h2 : mid ≤ ub) :
    slice l lb mid = (slice l lb ub).take (mid - lb) := by
  unfold slice
  rw [List.take_take]
  congr 1
  omega

theorem slice_suffix (l : List Nat) (lb mid ub : Nat) (h1 : lb ≤ mid) :
    slice l mid ub = (slice l lb ub).drop (mid - lb) := by
  unfold slice
  rw [List.drop_take, List.drop_drop]
  have h2 : ub - lb - (mid - lb) = ub - mid := by omega
  rw [h2]
  have h3 : lb + (mid - lb) = mid := by omega
  rw [h3]

theorem entrySep_symm {t : Tree} {cuts : List Nat}
    {a b : Nat × (Nat × Nat) × Nat} (h : EntrySep t cuts a b) :
    EntrySep t cuts b a :=
  ⟨h.1.symm, fun x hx1 hx2 => h.2 x hx2 hx1⟩

theorem extractRanges_append (l1 l2 : List LogEntry) :
    extractRanges (l1 ++ l2) = extractRanges l1 ++ extractRanges l2 := by
  unfold extractRanges
  rw [List.filter_append, List.map_append]

theorem extractRanges_single (L : LogEntry) :
    extractRanges [L] = if 2 ≤ L.size then [(L.lb, L.ub)] else [] := by
  unfold extractRanges
  by_cases h : 2 ≤ L.size
  · rw [if_pos h]
    simp [List.filter_cons, h]
  · rw [if_neg h]
    simp [List.filter_cons, h]

theorem fromNodeExcluding_sub_pofrom {t : Tree} {r : Nat} {cuts : List Nat} :
    ∀ x ∈ t.fromNodeExcluding r cuts, x ∈ t.postorderFrom r := by
  intro x hx
  unfold Tree.fromNodeExcluding at hx
  unfold Tree.postorderFrom
  cases hfw : findSub t.shape r with
  | none => rw [hfw] at hx; simp at hx
  | some w =>
      rw [hfw] at hx
      exact (poExcl_sublist cuts w).mem hx

/-- The unit root is not inside the subtree of a strictly smaller region
member. -/
theorem root_not_in_sub {t : Tree} (hn : (postorderList t.shape).Nodup)
    {r bc : Nat} {cuts : List Nat} {w : RTree}
    (hfr : findSub t.shape r = some w)
    (hbc : bc ∈ t.fromNodeExcluding r cuts) (hne : bc ≠ r) :
    r ∉ t.postorderFrom bc := by
  have hbcw : bc ∈ postorderList w := by
    unfold Tree.fromNodeExcluding at hbc
    rw [hfr] at hbc
    exact mem_of_mem_poExcl hbc
  obtain ⟨wbc, hwbc⟩ := findSub_some_of_mem hbcw
  have hgl : findSub t.shape bc = some wbc := by
    rw [findSub_trans t.shape hn r w hfr bc hbcw]
    exact hwbc
  have hrw : rootId w = r := findSub_rootId t.shape r w hfr
  have := root_not_mem_strict (findSub_po_nodup hn hfr) hwbc
    (by rw [hrw]; exact hne)
  rw [hrw] at this
  unfold Tree.postorderFrom
  rw [hgl]
  exact this

/-- Strict subtree membership is asymmetric. -/
theorem not_in_sub_of_in_sub {t : Tree} (hn : (postorderList t.shape).Nodup)
    {v bc : Nat} (hv : v ∈ t.postorderFrom bc) (hne : v ≠ bc)
    (hbcfind : (findSub t.shape bc).isSome = true) :
    bc ∉ t.postorderFrom v := by
  cases hfb : findSub t.shape bc with
  | none => rw [hfb] at hbcfind; simp at hbcfind
  | some wbc =>
      have hvw : v ∈ postorderList wbc := by
        unfold Tree.postorderFrom at hv
        rw [hfb] at hv
        exact hv
      obtain ⟨wv, hwv⟩ := findSub_some_of_mem hvw
      have hgl : findSub t.shape v = some wv := by
        rw [findSub_trans t.shape hn bc wbc hfb v hvw]
        exact hwv
      have hrb : rootId wbc = bc := findSub_rootId t.shape bc wbc hfb
      have := root_not_mem_strict (findSub_po_nodup hn hfb) hwv
        (by rw [hrb]; exact hne)
      rw [hrb] at this
      unfold Tree.postorderFrom
      rw [hgl]
      exact this

/-! ## The invariant holds initially -/

theorem region_all_init {t : Tree} (hw : WfTree t) :
    t.fromNodeExcluding 0 [0] = postorderList t.shape := by
  have hfs : findSub t.shape 0 = some t.shape := by
    have h := findSub_rootId_self t.shape
    rw [hw.root_id] at h
    exact h
  have h2 := fromNodeExcluding_self_cut hw.nodup 0 ([] : List Nat)
  rw [h2, fromNodeExcluding_nil]
  unfold Tree.postorderFrom
  rw [hfs]

theorem region_v_init {t : Tree} (hw : WfTree t) {v : Nat}
    (hv : v ∈ postorderList t.shape) (hne : v ≠ 0) :
    t.fromNodeExcluding v [0] = t.postorderFrom v := by
  have h0 : (0 : Nat) ∉ t.fromNodeExcluding v ([] : List Nat) := by
    rw [fromNodeExcluding_nil]
    intro hmem
    obtain ⟨wv, hwv⟩ := findSub_some_of_mem hv
    unfold Tree.postorderFrom at hmem
    rw [hwv] at hmem
    have := root_not_mem_strict hw.nodup hwv (by rw [hw.root_id]; exact hne)
    rw [hw.root_id] at this
    exact this hmem
  rw [fromNodeExcluding_cons_notmem h0, fromNodeExcluding_nil]

theorem regCount_init {t : Tree} (hw : WfTree t) {v : Nat}
    (hv : v ∈ postorderList t.shape) (hne : v ≠ 0) :
    regCount t v [0] = subLeafCount t v := by
  unfold regCount regLeaves subLeafCount
  rw [region_v_init hw hv hne]

theorem inv_init {t : Tree} (hw : WfTree t) (maxSize : Nat) :
    Inv t maxSize (decompInit t) := by
  have hfs : findSub t.shape 0 = some t.shape := by
    have h := findSub_rootId_self t.shape
    rw [hw.root_id] at h
    exact h
  have hregall : t.fromNodeExcluding 0 [0] = postorderList t.shape :=
    region_all_init hw
  have hregleaves : regLeaves t 0 [0] = t.leavesList := by
    unfold regLeaves Tree.leavesList
    rw [hregall]
  refine ⟨?_, ?_, ?_, ?_, ?_, ?_, ?_, ?_, ?_⟩
  · exact List.Perm.refl _
  · simp [decompInit]
  · intro c hc
    simp only [decompInit, List.mem_singleton] at hc
    subst hc
    rw [← hw.root_id]
    exact rootId_mem_postorder t.shape
  · intro e he
    simp only [decompInit, List.mem_singleton] at he
    subst he
    refine ⟨?_, ?_, ?_, ?_, ?_, ?_, ?_⟩
    · simp [hfs]
    · exact Nat.zero_le _
    · exact le_refl _
    · simp
    · show t.ntaxa = regCount t 0 [0]
      unfold regCount
      rw [hregleaves, leavesList_length hw]
    · dsimp only [decompInit]
      have hsl : slice (List.range t.ntaxa) 0 t.ntaxa = List.range t.ntaxa := by
        unfold slice
        simp
      rw [hsl, hregleaves]
      exact hw.taxa_perm.symm
    · intro v hv hne
      dsimp only [decompInit] at hv hne ⊢
      rw [hregall] at hv
      rw [buildSizes_eq t hw v hv, regCount_init hw hv hne]
  · simp [decompInit]
  · rfl
  · intro L hL
    simp [decompInit] at hL
  · simp [decompInit, extractRanges]
  · intro ρ hρ
    simp [decompInit, extractRanges] at hρ

/-! ## Preservation: the `continue` and `break` branches -/

theorem inv_kept {t : Tree} {maxSize : Nat} {st : DecompState}
    (hinv : Inv t maxSize st) {e : Nat × (Nat × Nat) × Nat}
    {rest : List (Nat × (Nat × Nat) × Nat)}
    (hpop : popMax st.pq = some (e, rest)) (hlt : e.1 < maxSize) :
    Inv t maxSize { st with
      pq := rest,
      ranges := if 2 ≤ e.1 then st.ranges ++ [(e.2.1.1, e.2.1.2)]
        else st.ranges,
      log := st.log ++ [⟨e.1, e.2.1.1, e.2.1.2, e.2.2, st.cuts, .kept⟩] } := by
  obtain ⟨hmem, hrest⟩ := popMax_some hpop
  have hE := hinv.entries e hmem
  have hrest_sub : ∀ e' ∈ rest, e' ∈ st.pq := by
    intro e' he'
    rw [hrest] at he'
    exact List.mem_of_mem_erase he'
  have hrest_pw : rest.Pairwise (EntrySep t st.cuts) := by
    rw [hrest]
    exact hinv.sep.sublist (List.erase_sublist _ _)
  have hsep_pop : ∀ e' ∈ rest, EntrySep t st.cuts e e' := by
    intro e' he'
    rw [hrest] at he'
    exact pairwise_erase_rel (fun a b h => entrySep_symm h) st.pq e
      hinv.sep hmem e' he'
  refine ⟨hinv.reord_perm, hinv.cuts_nodup, hinv.cuts_sub, ?_, hrest_pw,
    ?_, ?_, ?_, ?_⟩
  · intro e' he'
    exact hinv.entries e' (hrest_sub e' he')
  · dsimp only
    rw [hinv.ranges_log, extractRanges_append, extractRanges_single]
    dsimp only
    by_cases h2 : 2 ≤ e.1
    · rw [if_pos h2, if_pos h2]
    · rw [if_neg h2, if_neg h2, List.append_nil]
  · intro L hL
    dsimp only at hL
    rcases List.mem_append.1 hL with hL | hL
    · exact hinv.log_inv L hL
    · simp only [List.mem_singleton] at hL
      subst hL
      refine ⟨hE.lb_le, hE.ub_le, hE.size_eq, ?_, ?_, ?_, ?_⟩
      · simp only [true_iff]
        exact hlt
      · intro h
        exact StepAction.noConfusion h
      · intro h
        exact StepAction.noConfusion h
      · intro bc s h
        exact StepAction.noConfusion h
  · dsimp only
    by_cases h2 : 2 ≤ e.1
    · rw [if_pos h2, List.pairwise_append]
      refine ⟨hinv.ranges_lam, List.pairwise_singleton _ _, ?_⟩
      intro ρ hρ ρ' hρ'
      simp only [List.mem_singleton] at hρ'
      subst hρ'
      rcases hinv.ranges_pq ρ hρ e hmem with h | h
      · exact Or.inr (Or.inl h)
      · exact Or.inr (Or.inr h.symm)
    · rw [if_neg h2]
      exact hinv.ranges_lam
  · intro ρ hρ e' he'
    dsimp only at hρ he' ⊢
    by_cases h2 : 2 ≤ e.1
    · rw [if_pos h2] at hρ
      rcases List.mem_append.1 hρ with hρ | hρ
      · exact hinv.ranges_pq ρ hρ e' (hrest_sub e' he')
      · simp only [List.mem_singleton] at hρ
        subst hρ
        right
        have hd := (hsep_pop e' he').1
        unfold intDisj
        dsimp only
        omega
    · rw [if_neg h2] at hρ
      exact hinv.ranges_pq ρ hρ e' (hrest_sub e' he')

theorem inv_leafBreak {t : Tree} {maxSize : Nat} {st : DecompState}
    (hinv : Inv t maxSize st) {e : Nat × (Nat × Nat) × Nat}
    {rest : List (Nat × (Nat × Nat) × Nat)}
    (hpop : popMax st.pq = some (e, rest)) (hge : ¬ e.1 < maxSize)
    (hnl : (cutSearch t st.sizes e.1 e.2.2
      (t.fromNodeExcluding e.2.2 st.cuts)).nonLeaf = false) :
    Inv t maxSize { st with
      pq := rest,
      ranges := if 2 ≤ e.1 then st.ranges ++ [(e.2.1.1, e.2.1.2)]
        else st.ranges,
      done := true,
      log := st.log ++
        [⟨e.1, e.2.1.1, e.2.1.2, e.2.2, st.cuts, .leafBreak⟩] } := by
  obtain ⟨hmem, hrest⟩ := popMax_some hpop
  have hE := hinv.entries e hmem
  have hrest_sub : ∀ e' ∈ rest, e' ∈ st.pq := by
    intro e' he'
    rw [hrest] at he'
    exact List.mem_of_mem_erase he'
  have hrest_pw : rest.Pairwise (EntrySep t st.cuts) := by
    rw [hrest]
    exact hinv.sep.sublist (List.erase_sublist _ _)
  have hsep_pop : ∀ e' ∈ rest, EntrySep t st.cuts e e' := by
    intro e' he'
    rw [hrest] at he'
    exact pairwise_erase_rel (fun a b h => entrySep_symm h) st.pq e
      hinv.sep hmem e' he'
  refine ⟨hinv.reord_perm, hinv.cuts_nodup, hinv.cuts_sub, ?_, hrest_pw,
    ?_, ?_, ?_, ?_⟩
  · intro e' he'
    exact hinv.entries e' (hrest_sub e' he')
  · dsimp only
    rw [hinv.ranges_log, extractRanges_append, extractRanges_single]
    dsimp only
    by_cases h2 : 2 ≤ e.1
    · rw [if_pos h2, if_pos h2]
    · rw [if_neg h2, if_neg h2, List.append_nil]
  · intro L hL
    dsimp only at hL
    rcases List.mem_append.1 hL with hL | hL
    · exact hinv.log_inv L hL
    · simp only [List.mem_singleton] at hL
      subst hL
      refine ⟨hE.lb_le, hE.ub_le, hE.size_eq, ?_, ?_, ?_, ?_⟩
      · constructor
        · intro h
          exact StepAction.noConfusion h
        · intro h
          exact absurd h hge
      · intro h
        exact StepAction.noConfusion h
      · intro _
        intro i hi hine
        by_contra hleaf
        have hlf : t.isLeafNode i = false := by
          cases hli : t.isLeafNode i
          · rfl
          · exact absurd hli hleaf
        have hcontra : (cutSearch t st.sizes e.1 e.2.2
            (t.fromNodeExcluding e.2.2 st.cuts)).nonLeaf = true := by
          unfold cutSearch
          rw [cutFold_nonLeaf]
          exact Or.inr ⟨i, hi, hine, hlf⟩
        rw [hnl] at hcontra
        exact Bool.noConfusion hcontra
      · intro bc s h
        exact StepAction.noConfusion h
  · dsimp only
    by_cases h2 : 2 ≤ e.1
    · rw [if_pos h2, List.pairwise_append]
      refine ⟨hinv.ranges_lam, List.pairwise_singleton _ _, ?_⟩
      intro ρ hρ ρ' hρ'
      simp only [List.mem_singleton] at hρ'
      subst hρ'
      rcases hinv.ranges_pq ρ hρ e hmem with h | h
      · exact Or.inr (Or.inl h)
      · exact Or.inr (Or.inr h.symm)
    · rw [if_neg h2]
      exact hinv.ranges_lam
  · intro ρ hρ e' he'
    dsimp only at hρ he' ⊢
    by_cases h2 : 2 ≤ e.1
    · rw [if_pos h2] at hρ
      rcases List.mem_append.1 hρ with hρ | hρ
      · exact hinv.ranges_pq ρ hρ e' (hrest_sub e' he')
      · simp only [List.mem_singleton] at hρ
        subst hρ
        right
        have hd := (hsep_pop e' he').1
        unfold intDisj
        dsimp only
        omega
    · rw [if_neg h2] at hρ
      exact hinv.ranges_pq ρ hρ e' (hrest_sub e' he')

/-- Under the invariant, the `assert_ne!(best_inbalance, u64::MAX)` cannot
fire: whenever the search marked a non-leaf candidate, some candidate's
imbalance was compared, and every imbalance is at most `ntaxa < u64::MAX`. -/
theorem no_assert_fire {t : Tree} (hw : WfTree t) {maxSize : Nat}
    {st : DecompState} (hinv : Inv t maxSize st)
    {e : Nat × (Nat × Nat) × Nat} {rest : List (Nat × (Nat × Nat) × Nat)}
    (hpop : popMax st.pq = some (e, rest))
    (hnl : (cutSearch t st.sizes e.1 e.2.2
      (t.fromNodeExcluding e.2.2 st.cuts)).nonLeaf = true) :
    (cutSearch t st.sizes e.1 e.2.2
      (t.fromNodeExcluding e.2.2 st.cuts)).best ≠ U64MAX := by
  obtain ⟨hmem, _⟩ := popMax_some hpop
  have hE := hinv.entries e hmem
  unfold cutSearch at hnl ⊢
  have hcand : ∃ i ∈ t.fromNodeExcluding e.2.2 st.cuts,
      i ≠ e.2.2 ∧ t.isLeafNode i = false := by
    have h := (cutFold_nonLeaf t st.sizes e.1 e.2.2 _ ⟨U64MAX, 0, false⟩).1 hnl
    rcases h with h | h
    · simp at h
    · exact h
  obtain ⟨i, hi, hine, hleaf⟩ := hcand
  have hle := cutFold_best_le_cand t st.sizes e.1 e.2.2 _ ⟨U64MAX, 0, false⟩
    i hi hine hleaf
  have hszi : st.sizes i = regCount t i st.cuts := hE.sizes_reg i hi hine
  have hmono : regCount t i st.cuts ≤ regCount t e.2.2 st.cuts :=
    regCount_mono hw.nodup hi
  have hsz : e.1 = regCount t e.2.2 st.cuts := hE.size_reg
  have hsize_le : e.1 ≤ t.ntaxa := by
    have h1 := hE.size_eq
    have h2 := hE.ub_le
    omega
  have hU : t.ntaxa + 1 < U64 := ntaxa_ok hw
  have hile : st.sizes i ≤ e.1 := by
    rw [hszi, hsz]
    exact hmono
  have hwsub : wsub e.1 (st.sizes i) = e.1 - st.sizes i :=
    wsub_eq _ _ hile (by omega)
  have habs : u64AbsDiff (wsub e.1 (st.sizes i)) (st.sizes i) ≤ e.1 := by
    rw [hwsub]
    exact u64AbsDiff_le _ _ _ (by omega) hile
  intro hbad
  have hfin : ((t.fromNodeExcluding e.2.2 st.cuts).foldl
      (cutStep t st.sizes e.1 e.2.2) ⟨U64MAX, 0, false⟩).best ≤ e.1 :=
    le_trans hle habs
  rw [hbad] at hfin
  have hUM : U64MAX + 1 = U64 := by decide
  omega

/-! ## Preservation: the split branch -/

theorem inv_split {t : Tree} (hw : WfTree t) {maxSize : Nat}
    {st : DecompState} (hinv : Inv t maxSize st)
    {e : Nat × (Nat × Nat) × Nat} {rest : List (Nat × (Nat × Nat) × Nat)}
    (hpop : popMax st.pq = some (e, rest)) (hge : ¬ e.1 < maxSize)
    {bc : Nat}
    (hbcreg : bc ∈ t.fromNodeExcluding e.2.2 st.cuts)
    (hbcne : bc ≠ e.2.2) (hbcleaf : t.isLeafNode bc = false) :
    Inv t maxSize
      { reordered := partitionSlice t bc st.reordered e.2.1.1 e.2.1.2,
        sizes := applyAncestorCuts e.2.2 bc (t.ancestors bc) st.sizes,
        pq := rest ++
          [(applyAncestorCuts e.2.2 bc (t.ancestors bc) st.sizes bc,
            (e.2.1.1, wadd e.2.1.1
              (applyAncestorCuts e.2.2 bc (t.ancestors bc) st.sizes bc)), bc),
           (wsub e.1 (applyAncestorCuts e.2.2 bc (t.ancestors bc) st.sizes bc),
            (wadd e.2.1.1
              (applyAncestorCuts e.2.2 bc (t.ancestors bc) st.sizes bc),
              e.2.1.2), e.2.2)],
        cuts := bc :: st.cuts,
        ranges := if 2 ≤ e.1 then st.ranges ++ [(e.2.1.1, e.2.1.2)]
          else st.ranges,
        log := st.log ++ [⟨e.1, e.2.1.1, e.2.1.2, e.2.2, st.cuts,
          .split bc (applyAncestorCuts e.2.2 bc (t.ancestors bc) st.sizes bc)⟩],
        done := st.done } := by
  obtain ⟨hmem, hrest⟩ := popMax_some hpop
  have hn := hw.nodup
  have hE := hinv.entries e hmem
  have hrest_sub : ∀ e' ∈ rest, e' ∈ st.pq := by
    intro e' he'
    rw [hrest] at he'
    exact List.mem_of_mem_erase he'
  have hrest_pw : rest.Pairwise (EntrySep t st.cuts) := by
    rw [hrest]
    exact hinv.sep.sublist (List.erase_sublist _ _)
  have hsep_pop : ∀ e' ∈ rest, EntrySep t st.cuts e e' := by
    intro e' he'
    rw [hrest] at he'
    exact pairwise_erase_rel (fun a b h => entrySep_symm h) st.pq e
      hinv.sep hmem e' he'
  obtain ⟨w, hfw⟩ := Option.isSome_iff_exists.1 hE.hfind
  obtain ⟨A, B, hanc, hAnd, hrA, hbcA, hconv, hfacts⟩ :=
    ancestors_split hn hfw hbcreg hbcne
  have hsz1 : ∀ v, applyAncestorCuts e.2.2 bc (t.ancestors bc) st.sizes v =
      if v ∈ A then wsub (st.sizes v) (st.sizes bc) else st.sizes v := by
    intro v
    rw [hanc]
    exact applyAncestorCuts_eq e.2.2 bc A B st.sizes hrA hbcA hAnd v
  have hszbc : st.sizes bc = regCount t bc st.cuts :=
    hE.sizes_reg bc hbcreg hbcne
  have hs1bc : applyAncestorCuts e.2.2 bc (t.ancestors bc) st.sizes bc =
      regCount t bc st.cuts := by
    rw [hsz1 bc, if_neg hbcA, hszbc]
  have hcount := regCount_cut hn hbcreg hbcne
  have hszreg : e.1 = regCount t e.2.2 st.cuts := hE.size_reg
  have hlble : e.2.1.1 ≤ e.2.1.2 := hE.lb_le
  have huble : e.2.1.2 ≤ t.ntaxa := hE.ub_le
  have hszeq : e.1 = e.2.1.2 - e.2.1.1 := hE.size_eq
  have hUn : t.ntaxa + 1 < U64 := ntaxa_ok hw
  have hs1le : regCount t bc st.cuts ≤ e.1 := by
    rw [hszreg]
    exact hcount.1
  have hmid : wadd e.2.1.1 (applyAncestorCuts e.2.2 bc (t.ancestors bc)
      st.sizes bc) = e.2.1.1 + regCount t bc st.cuts := by
    rw [hs1bc]
    exact wadd_eq _ _ (by omega)
  have hsnew : wsub e.1 (applyAncestorCuts e.2.2 bc (t.ancestors bc)
      st.sizes bc) = regCount t e.2.2 (bc :: st.cuts) := by
    rw [hs1bc, wsub_eq _ _ hs1le (by omega), hszreg, hcount.2]
  have hbcpo : bc ∈ postorderList t.shape := fromNodeExcluding_sub_po bc hbcreg
  have hbcfind : (findSub t.shape bc).isSome = true := by
    rw [findSub_isSome_iff]
    exact hbcpo
  have hbc_not_cut : bc ∉ st.cuts := fromNodeExcluding_not_cut bc hbcreg hbcne
  have hlen : st.reordered.length = t.ntaxa := by
    rw [hinv.reord_perm.length_eq, List.length_range]
  obtain ⟨hlabP, hunlabP⟩ :=
    partition_halves_perm hw hE.slice_perm hbcreg hbcne
  have hlab_len : ((slice st.reordered e.2.1.1 e.2.1.2).filter
      (fun x => (labeledTaxa t bc).contains x)).length =
      regCount t bc st.cuts := by
    rw [hlabP.length_eq, List.length_map]
    rfl
  have hslice_len : (slice st.reordered e.2.1.1 e.2.1.2).length =
      e.2.1.2 - e.2.1.1 :=
    slice_length _ _ _ hlble (by rw [hlen]; exact huble)
  have hseg_len : (((slice st.reordered e.2.1.1 e.2.1.2).filter
        (fun x => (labeledTaxa t bc).contains x)) ++
      ((slice st.reordered e.2.1.1 e.2.1.2).filter
        (fun x => !((labeledTaxa t bc).contains x)))).length =
      e.2.1.2 - e.2.1.1 := by
    rw [← hslice_len]
    exact (List.filter_append_perm _ _).length_eq
  have hself : slice (partitionSlice t bc st.reordered e.2.1.1 e.2.1.2)
      e.2.1.1 e.2.1.2 =
      ((slice st.reordered e.2.1.1 e.2.1.2).filter
        (fun x => (labeledTaxa t bc).contains x)) ++
      ((slice st.reordered e.2.1.1 e.2.1.2).filter
        (fun x => !((labeledTaxa t bc).contains x))) := by
    unfold partitionSlice
    exact slice_writeSlice_self _ _ _ _ hlble (by rw [hlen]; exact huble)
      hseg_len
  have hleft : slice (partitionSlice t bc st.reordered e.2.1.1 e.2.1.2)
      e.2.1.1 (e.2.1.1 + regCount t bc st.cuts) =
      (slice st.reordered e.2.1.1 e.2.1.2).filter
        (fun x => (labeledTaxa t bc).contains x) := by
    rw [slice_lower _ e.2.1.1 _ e.2.1.2 (by omega), hself]
    have hh : e.2.1.1 + regCount t bc st.cuts - e.2.1.1 =
        ((slice st.reordered e.2.1.1 e.2.1.2).filter
          (fun x => (labeledTaxa t bc).contains x)).length := by
      rw [hlab_len]
      omega
    rw [hh, List.take_left]
  have hright : slice (partitionSlice t bc st.reordered e.2.1.1 e.2.1.2)
      (e.2.1.1 + regCount t bc st.cuts) e.2.1.2 =
      (slice st.reordered e.2.1.1 e.2.1.2).filter
        (fun x => !((labeledTaxa t bc).contains x)) := by
    rw [slice_suffix _ e.2.1.1 _ e.2.1.2 (by omega), hself]
    have hh : e.2.1.1 + regCount t bc st.cuts - e.2.1.1 =
        ((slice st.reordered e.2.1.1 e.2.1.2).filter
          (fun x => (labeledTaxa t bc).contains x)).length := by
      rw [hlab_len]
      omega
    rw [hh, List.drop_left]
  have hregbc' : t.fromNodeExcluding bc (bc :: st.cuts) =
      t.fromNodeExcluding bc st.cuts := fromNodeExcluding_self_cut hn bc st.cuts
  have hregroot' := fromNodeExcluding_cons_mem hn hbcreg hbcne
  have hsizes_left : ∀ v ∈ t.fromNodeExcluding bc (bc :: st.cuts), v ≠ bc →
      applyAncestorCuts e.2.2 bc (t.ancestors bc) st.sizes v =
        regCount t v (bc :: st.cuts) := by
    intro v hv hvne
    rw [hregbc'] at hv
    have hvsub := (fromNodeExcluding_relativize hn hbcreg v).1 hv
    have hvnotA : v ∉ A := fun hvA => (hfacts v hvA).2.2 hvsub.2
    have hvroot : v ≠ e.2.2 := by
      intro hveq
      exact root_not_in_sub hn hfw hbcreg hbcne (hveq ▸ hvsub.2)
    rw [hsz1 v, if_neg hvnotA, hE.sizes_reg v hvsub.1 hvroot]
    have hbc_not_v : bc ∉ t.fromNodeExcluding v st.cuts := by
      intro hbcv
      exact not_in_sub_of_in_sub hn hvsub.2 hvne hbcfind
        (fromNodeExcluding_sub_pofrom bc hbcv)
    rw [regCount_cons_notmem hbc_not_v]
  have hsizes_right : ∀ v ∈ t.fromNodeExcluding e.2.2 (bc :: st.cuts),
      v ≠ e.2.2 →
      applyAncestorCuts e.2.2 bc (t.ancestors bc) st.sizes v =
        regCount t v (bc :: st.cuts) := by
    intro v hv hvne
    obtain ⟨hvreg, hvnpo⟩ := (hregroot' v).1 hv
    by_cases hvA : v ∈ A
    · obtain ⟨hareg, hsub, hanpo⟩ := hfacts v hvA
      have hbcv : bc ∈ t.postorderFrom v :=
        hsub bc (self_mem_postorderFrom hbcfind)
      have hbcinv : bc ∈ t.fromNodeExcluding v st.cuts :=
        mem_region_of_sub hn hvreg hbcreg hbcv
      have hbcnev : bc ≠ v := by
        intro hh
        apply hvnpo
        rw [← hh]
        exact self_mem_postorderFrom hbcfind
      have hcv := regCount_cut hn hbcinv hbcnev
      rw [hsz1 v, if_pos hvA, hszbc, hE.sizes_reg v hvreg hvne]
      rw [wsub_eq _ _ hcv.1
        (by have := regCount_le_ntaxa hw v st.cuts; omega)]
      rw [hcv.2]
    · rw [hsz1 v, if_neg hvA, hE.sizes_reg v hvreg hvne]
      have hbc_not_v : bc ∉ t.fromNodeExcluding v st.cuts := by
        intro hbcv
        have hbcpo_v : bc ∈ t.postorderFrom v :=
          fromNodeExcluding_sub_pofrom bc hbcv
        rcases hconv v hvreg hbcpo_v with h | h | h
        · exact hvne h
        · apply hvnpo
          rw [h]
          exact self_mem_postorderFrom hbcfind
        · exact hvA h
      rw [regCount_cons_notmem hbc_not_v]
  refine ⟨?_, ?_, ?_, ?_, ?_, ?_, ?_, ?_, ?_⟩
  · -- reordered permutation
    dsimp only
    unfold partitionSlice
    exact (writeSlice_perm _ _ _ _ hlble
      (List.filter_append_perm _ _)).trans hinv.reord_perm
  · -- cuts nodup
    dsimp only
    exact List.nodup_cons.2 ⟨hbc_not_cut, hinv.cuts_nodup⟩
  · -- cuts ⊆ nodes
    intro c hc
    dsimp only at hc
    rcases List.mem_cons.1 hc with hc | hc
    · exact hc ▸ hbcpo
    · exact hinv.cuts_sub c hc
  · -- entries
    intro e' he'
    dsimp only at he'
    rcases List.mem_append.1 he' with he' | he'
    · -- surviving entries
      have hE' := hinv.entries e' (hrest_sub e' he')
      have hsep := hsep_pop e' he'
      have hbc_not : bc ∉ t.fromNodeExcluding e'.2.2 st.cuts :=
        fun hh => hsep.2 bc hbcreg hh
      have hregeq : t.fromNodeExcluding e'.2.2 (bc :: st.cuts) =
          t.fromNodeExcluding e'.2.2 st.cuts :=
        fromNodeExcluding_cons_notmem hbc_not
      have hregleq : regLeaves t e'.2.2 (bc :: st.cuts) =
          regLeaves t e'.2.2 st.cuts := by
        unfold regLeaves
        rw [hregeq]
      have hcnteq : regCount t e'.2.2 (bc :: st.cuts) =
          regCount t e'.2.2 st.cuts := by
        unfold regCount
        rw [hregleq]
      refine ⟨hE'.hfind, hE'.lb_le, hE'.ub_le, hE'.size_eq, ?_, ?_, ?_⟩
      · rw [hcnteq]
        exact hE'.size_reg
      · have hsl_eq : slice (partitionSlice t bc st.reordered e.2.1.1 e.2.1.2)
            e'.2.1.1 e'.2.1.2 = slice st.reordered e'.2.1.1 e'.2.1.2 := by
          unfold partitionSlice
          rcases hsep.1 with h | h
          · exact slice_writeSlice_right _ _ _ _ _ _ h hlble
              (by rw [hlen]; exact huble) hseg_len
          · exact slice_writeSlice_left _ _ _ _ _ _ h
              (by rw [hlen]; omega)
        rw [hsl_eq, hregleq]
        exact hE'.slice_perm
      · intro v hv hvne
        dsimp only at hv ⊢
        rw [hregeq] at hv
        have hvnotA : v ∉ A := by
          intro hvA
          exact hsep.2 v (hfacts v hvA).1 hv
        rw [hsz1 v, if_neg hvnotA, hE'.sizes_reg v hv hvne]
        have hbc_not_v : bc ∉ t.fromNodeExcluding v st.cuts := by
          intro hbcv
          exact hbc_not ((fromNodeExcluding_relativize hn hv bc).1 hbcv).1
        rw [regCount_cons_notmem hbc_not_v]
    · -- the two children
      simp only [List.mem_cons, List.mem_singleton] at he'
      rcases he' with he' | he' | he'
      · subst he'
        refine ⟨hbcfind, ?_, ?_, ?_, ?_, ?_, ?_⟩
        · dsimp only
          rw [hmid]
          omega
        · dsimp only
          rw [hmid]
          omega
        · dsimp only
          rw [hmid, hs1bc]
          omega
        · dsimp only
          rw [hs1bc, regCount_self_cut hn]
        · dsimp only
          rw [hmid, hleft, regLeaves_self_cut hn]
          exact hlabP
        · exact hsizes_left
      · subst he'
        refine ⟨hE.hfind, ?_, ?_, ?_, ?_, ?_, ?_⟩
        · dsimp only
          rw [hmid]
          omega
        · dsimp only
          exact huble
        · dsimp only
          rw [hmid, hs1bc, wsub_eq _ _ hs1le (by omega)]
          omega
        · dsimp only
          exact hsnew
        · dsimp only
          rw [hmid, hright]
          exact hunlabP
        · exact hsizes_right
      · exact absurd he' (by simp)
  · -- pairwise separation
    dsimp only
    rw [List.pairwise_append]
    refine ⟨?_, ?_, ?_⟩
    · refine List.Pairwise.imp_of_mem ?_ hrest_pw
      intro a b ha hb hR
      have hna : bc ∉ t.fromNodeExcluding a.2.2 st.cuts :=
        fun hh => (hsep_pop a ha).2 bc hbcreg hh
      have hnb : bc ∉ t.fromNodeExcluding b.2.2 st.cuts :=
        fun hh => (hsep_pop b hb).2 bc hbcreg hh
      refine ⟨hR.1, fun x hx1 hx2 => hR.2 x ?_ ?_⟩
      · rw [fromNodeExcluding_cons_notmem hna] at hx1
        exact hx1
      · rw [fromNodeExcluding_cons_notmem hnb] at hx2
        exact hx2
    · refine List.pairwise_cons.2 ⟨?_, List.pairwise_singleton _ _⟩
      intro b hb
      simp only [List.mem_singleton] at hb
      subst hb
      refine ⟨Or.inl (le_refl _), ?_⟩
      intro x hx1 hx2
      dsimp only at hx1 hx2
      rw [hregbc'] at hx1
      exact ((hregroot' x).1 hx2).2 (fromNodeExcluding_sub_pofrom x hx1)
    · intro a ha b hb
      have hsep := hsep_pop a ha
      have hbsub : (e.2.1.1 ≤ b.2.1.1 ∧ b.2.1.2 ≤ e.2.1.2) ∧
          (∀ x ∈ t.fromNodeExcluding b.2.2 (bc :: st.cuts),
            x ∈ t.fromNodeExcluding e.2.2 st.cuts) := by
        simp only [List.mem_cons, List.mem_singleton] at hb
        rcases hb with hb | hb | hb
        · subst hb
          constructor
          · dsimp only
            rw [hmid]
            omega
          · intro x hx
            dsimp only at hx
            rw [hregbc'] at hx
            exact ((fromNodeExcluding_relativize hn hbcreg x).1 hx).1
        · subst hb
          constructor
          · dsimp only
            rw [hmid]
            omega
          · intro x hx
            dsimp only at hx
            exact ((hregroot' x).1 hx).1
        · exact absurd hb (by simp)
      constructor
      · have hb1 := hbsub.1
        rcases hsep.1 with h | h
        · right
          omega
        · left
          omega
      · intro x hx1 hx2
        have hna : bc ∉ t.fromNodeExcluding a.2.2 st.cuts :=
          fun hh => hsep.2 bc hbcreg hh
        rw [fromNodeExcluding_cons_notmem hna] at hx1
        exact hsep.2 x (hbsub.2 x hx2) hx1
  · -- ranges = extractRanges log
    dsimp only
    rw [hinv.ranges_log, extractRanges_append, extractRanges_single]
    dsimp only
    by_cases h2 : 2 ≤ e.1
    · rw [if_pos h2, if_pos h2]
    · rw [if_neg h2, if_neg h2, List.append_nil]
  · -- log invariant
    intro L hL
    dsimp only at hL
    rcases List.mem_append.1 hL with hL | hL
    · exact hinv.log_inv L hL
    · simp only [List.mem_singleton] at hL
      subst hL
      refine ⟨hlble, huble, hszeq, ?_, ?_, ?_, ?_⟩
      · constructor
        · intro h
          exact StepAction.noConfusion h
        · intro h
          exact absurd h hge
      · intro h
        exact StepAction.noConfusion h
      · intro h
        exact StepAction.noConfusion h
      · intro bc' s' h
        rw [StepAction.split.injEq] at h
        obtain ⟨h1, h2⟩ := h
        subst h1
        subst h2
        refine ⟨hbcreg, hbcne, hbcleaf, ?_⟩
        dsimp only
        rw [hs1bc]
        omega
  · -- laminarity of the recorded ranges
    dsimp only
    by_cases h2 : 2 ≤ e.1
    · rw [if_pos h2, List.pairwise_append]
      refine ⟨hinv.ranges_lam, List.pairwise_singleton _ _, ?_⟩
      intro ρ hρ ρ' hρ'
      simp only [List.mem_singleton] at hρ'
      subst hρ'
      rcases hinv.ranges_pq ρ hρ e hmem with h | h
      · exact Or.inr (Or.inl h)
      · exact Or.inr (Or.inr h.symm)
    · rw [if_neg h2]
      exact hinv.ranges_lam
  · -- every pending interval is nested in or disjoint from each range
    intro ρ hρ e'' he''
    dsimp only at hρ he'' ⊢
    have hchild : ∀ e'' ∈ [(applyAncestorCuts e.2.2 bc (t.ancestors bc)
          st.sizes bc,
        (e.2.1.1, wadd e.2.1.1 (applyAncestorCuts e.2.2 bc (t.ancestors bc)
          st.sizes bc)), bc),
        (wsub e.1 (applyAncestorCuts e.2.2 bc (t.ancestors bc) st.sizes bc),
        (wadd e.2.1.1 (applyAncestorCuts e.2.2 bc (t.ancestors bc)
          st.sizes bc), e.2.1.2), e.2.2)],
        e.2.1.1 ≤ e''.2.1.1 ∧ e''.2.1.2 ≤ e.2.1.2 := by
      intro e'' he''
      simp only [List.mem_cons, List.mem_singleton] at he''
      rcases he'' with he'' | he'' | he''
      · subst he''
        dsimp only
        rw [hmid]
        omega
      · subst he''
        dsimp only
        rw [hmid]
        omega
      · exact absurd he'' (by simp)
    by_cases h2 : 2 ≤ e.1
    · rw [if_pos h2] at hρ
      rcases List.mem_append.1 hρ with hρ | hρ
      · rcases List.mem_append.1 he'' with he'' | he''
        · exact hinv.ranges_pq ρ hρ e'' (hrest_sub e'' he'')
        · have hc := hchild e'' he''
          rcases hinv.ranges_pq ρ hρ e hmem with h | h
          · left
            unfold intSub at h ⊢
            dsimp only at h ⊢
            omega
          · right
            unfold intDisj at h ⊢
            dsimp only at h ⊢
            omega
      · simp only [List.mem_singleton] at hρ
        subst hρ
        rcases List.mem_append.1 he'' with he'' | he''
        · right
          have hd := (hsep_pop e'' he'').1
          unfold intDisj
          dsimp only
          omega
        · left
          have hc := hchild e'' he''
          unfold intSub
          dsimp only
          omega
    · rw [if_neg h2] at hρ
      rcases List.mem_append.1 he'' with he'' | he''
      · exact hinv.ranges_pq ρ hρ e'' (hrest_sub e'' he'')
      · have hc := hchild e'' he''
        rcases hinv.ranges_pq ρ hρ e hmem with h | h
        · left
          unfold intSub at h ⊢
          dsimp only at h ⊢
          omega
        · right
          unfold intDisj at h ⊢
          dsimp only at h ⊢
          omega

/-! ## One full step preserves the invariant and makes progress -/

theorem inv_step {t : Tree} (hw : WfTree t) (maxSize : Nat)
    {st : DecompState} (hinv : Inv t maxSize st) :
    Inv t maxSize (decompStep t maxSize st) ∧
    ((decompStep t maxSize st).done = true ∨
      decompMeasure t (decompStep t maxSize st) < decompMeasure t st) := by
  unfold decompStep
  cases hpop : popMax st.pq with
  | none =>
      dsimp only
      exact ⟨⟨hinv.reord_perm, hinv.cuts_nodup, hinv.cuts_sub, hinv.entries,
        hinv.sep, hinv.ranges_log, hinv.log_inv, hinv.ranges_lam,
        hinv.ranges_pq⟩, Or.inl rfl⟩
  | some pr =>
      obtain ⟨e, rest⟩ := pr
      dsimp only
      obtain ⟨hmem, hrest⟩ := popMax_some hpop
      have hpq_pos : 0 < st.pq.length := List.length_pos_of_mem hmem
      have hpq_len : rest.length + 1 = st.pq.length := by
        rw [hrest, List.length_erase_of_mem hmem]
        omega
      by_cases hlt : e.1 < maxSize
      · rw [if_pos hlt]
        refine ⟨inv_kept hinv hpop hlt, Or.inr ?_⟩
        unfold decompMeasure
        dsimp only
        omega
      · rw [if_neg hlt]
        cases hnl : (cutSearch t st.sizes e.1 e.2.2
            (t.fromNodeExcluding e.2.2 st.cuts)).nonLeaf with
        | false =>
            rw [if_neg Bool.false_ne_true]
            exact ⟨inv_leafBreak hinv hpop hlt hnl, Or.inl rfl⟩
        | true =>
            rw [if_pos rfl]
            have hbest := no_assert_fire hw hinv hpop hnl
            rw [if_neg hbest]
            have hfound := cutSearch_found t st.sizes e.1 e.2.2
              (t.fromNodeExcluding e.2.2 st.cuts) hbest
            have hbc_not_cut : (cutSearch t st.sizes e.1 e.2.2
                (t.fromNodeExcluding e.2.2 st.cuts)).bestCut ∉ st.cuts :=
              fromNodeExcluding_not_cut _ hfound.1 hfound.2.1
            rw [if_neg hbc_not_cut]
            refine ⟨inv_split hw hinv hpop hlt hfound.1 hfound.2.1
              hfound.2.2, Or.inr ?_⟩
            have hcuts_le : st.cuts.length ≤ t.numNodes :=
              nodup_subset_length_le hinv.cuts_nodup hinv.cuts_sub
            unfold decompMeasure
            dsimp only
            simp only [List.length_append, List.length_cons,
              List.length_nil]
            omega

/-! ## Running the loop -/

theorem decompLoop_done {t : Tree} {maxSize : Nat} :
    ∀ (fuel : Nat) (st : DecompState), st.done = true →
      decompLoop t maxSize fuel st = st := by
  intro fuel
  induction fuel with
  | zero => intro st _; rfl
  | succ fuel _ =>
      intro st h
      unfold decompLoop
      rw [if_pos h]

theorem decompLoop_step {t : Tree} {maxSize : Nat} (fuel : Nat)
    (st : DecompState) (h : ¬ st.done = true) :
    decompLoop t maxSize (fuel + 1) st =
      decompLoop t maxSize fuel (decompStep t maxSize st) := by
  conv_lhs => rw [decompLoop]
  rw [if_neg h]

theorem inv_loop {t : Tree} (hw : WfTree t) (maxSize : Nat) :
    ∀ (fuel : Nat) (st : DecompState), Inv t maxSize st →
      Inv t maxSize (decompLoop t maxSize fuel st) := by
  intro fuel
  induction fuel with
  | zero => intro st h; exact h
  | succ fuel ih =>
      intro st h
      unfold decompLoop
      by_cases hd : st.done = true
      · rw [if_pos hd]
        exact h
      · rw [if_neg hd]
        exact ih _ (inv_step hw maxSize h).1

theorem loop_terminates {t : Tree} (hw : WfTree t) (maxSize : Nat) :
    ∀ (fuel : Nat) (st : DecompState), Inv t maxSize st →
      decompMeasure t st < fuel →
      (decompLoop t maxSize fuel st).done = true := by
  intro fuel
  induction fuel with
  | zero =>
      intro st _ hm
      exact absurd hm (by omega)
  | succ fuel ih =>
      intro st h hm
      unfold decompLoop
      by_cases hd : st.done = true
      · rw [if_pos hd]
        exact hd
      · rw [if_neg hd]
        obtain ⟨h', hstep⟩ := inv_step hw maxSize h
        rcases hstep with hdone | hmeas
        · rw [decompLoop_done fuel _ hdone]
          exact hdone
        · exact ih _ h' (by omega)

theorem inv_final {t : Tree} (hw : WfTree t) (maxSize : Nat) :
    Inv t maxSize (hierarchicalDecompState t maxSize) :=
  inv_loop hw maxSize (decompFuel t) (decompInit t) (inv_init hw maxSize)

theorem done_final {t : Tree} (hw : WfTree t) (maxSize : Nat) :
    (hierarchicalDecompState t maxSize).done = true := by
  apply loop_terminates hw maxSize (decompFuel t) (decompInit t)
    (inv_init hw maxSize)
  unfold decompMeasure decompInit decompFuel
  simp

/-! ## The recorded ranges only grow, and the first one covers everything -/

theorem decompStep_ranges_mono (t : Tree) (maxSize : Nat) (st : DecompState) :
    ∃ l, (decompStep t maxSize st).ranges = st.ranges ++ l := by
  unfold decompStep
  cases hpop : popMax st.pq with
  | none => exact ⟨[], by simp⟩
  | some pr =>
      obtain ⟨e, rest⟩ := pr
      dsimp only
      by_cases h2 : 2 ≤ e.1
      · rw [if_pos h2]
        split
        · exact ⟨[(e.2.1.1, e.2.1.2)], rfl⟩
        · split
          · split
            · exact ⟨[(e.2.1.1, e.2.1.2)], rfl⟩
            · split
              · exact ⟨[(e.2.1.1, e.2.1.2)], rfl⟩
              · exact ⟨[(e.2.1.1, e.2.1.2)], rfl⟩
          · exact ⟨[(e.2.1.1, e.2.1.2)], rfl⟩
      · rw [if_neg h2]
        split
        · exact ⟨[], by simp⟩
        · split
          · split
            · exact ⟨[], by simp⟩
            · split
              · exact ⟨[], by simp⟩
              · exact ⟨[], by simp⟩
          · exact ⟨[], by simp⟩

theorem decompLoop_ranges_mono (t : Tree) (maxSize : Nat) :
    ∀ (fuel : Nat) (st : DecompState),
      ∃ l, (decompLoop t maxSize fuel st).ranges = st.ranges ++ l := by
  intro fuel
  induction fuel with
  | zero => intro st; exact ⟨[], (List.append_nil _).symm⟩
  | succ fuel ih =>
      intro st
      unfold decompLoop
      by_cases hd : st.done = true
      · rw [if_pos hd]
        exact ⟨[], by simp⟩
      · rw [if_neg hd]
        obtain ⟨l1, h1⟩ := decompStep_ranges_mono t maxSize st
        obtain ⟨l2, h2⟩ := ih (decompStep t maxSize st)
        exact ⟨l1 ++ l2, by rw [h2, h1, List.append_assoc]⟩

theorem popMax_singleton (x : Nat × (Nat × Nat) × Nat) :
    popMax [x] = some (x, []) := by
  unfold popMax listMax
  dsimp only [List.foldl_nil]
  rw [List.erase_cons_head]

theorem first_step_ranges {t : Tree} (maxSize : Nat) (h2 : 2 ≤ t.ntaxa) :
    (decompStep t maxSize (decompInit t)).ranges = [(0, t.ntaxa)] := by
  unfold decompStep
  rw [show (decompInit t).pq = [(t.ntaxa, (0, t.ntaxa), 0)] from rfl]
  rw [popMax_singleton]
  dsimp only
  rw [if_pos h2]
  split
  · rfl
  · split
    · split
      · rfl
      · split
        · rfl
        · rfl
    · rfl

theorem first_range {t : Tree} (maxSize : Nat) (h2 : 2 ≤ t.ntaxa) :
    (0, t.ntaxa) ∈ (hierarchicalDecompState t maxSize).ranges := by
  unfold hierarchicalDecompState
  have hfuel : decompFuel t = 2 * t.numNodes + 1 + 1 := by
    unfold decompFuel
    omega
  have hnd : ¬ (decompInit t).done = true := by
    rw [show (decompInit t).done = false from rfl]
    exact Bool.false_ne_true
  rw [hfuel, decompLoop_step _ _ hnd]
  obtain ⟨l, hl⟩ := decompLoop_ranges_mono t maxSize (2 * t.numNodes + 1)
    (decompStep t maxSize (decompInit t))
  rw [hl, first_step_ranges maxSize h2]
  simp

/-! ## Reading recorded ranges back through the log -/

theorem ranges_from_log {t : Tree} (hw : WfTree t) (m : Nat) :
    ∀ ρ ∈ (hierarchical_decomp t m).decomposition_ranges,
      ∃ L ∈ (hierarchicalDecompState t m).log,
        (L.lb, L.ub) = ρ ∧ 2 ≤ L.size := by
  intro ρ hρ
  have hinv := inv_final hw m
  unfold hierarchical_decomp at hρ
  dsimp only at hρ
  rw [hinv.ranges_log] at hρ
  unfold extractRanges at hρ
  obtain ⟨L, hL, heq⟩ := List.mem_map.1 hρ
  have hLf := List.mem_filter.1 hL
  exact ⟨L, hLf.1, heq, of_decide_eq_true hLf.2⟩

/-! ## The claims about the decomposer -/

/-- C5: for every wellformed tree and every `max_size ≥ 1` the
`while let Some(..) = pq.pop()` loop of `hierarchical_decomp` terminates:
within `2·numNodes + 2` iterations it reaches its exit (the ghost `done`
flag is set, by empty queue or by `break`). -/
theorem C5_terminates (t : Tree) (hw : WfTree t) (m : Nat) (hm : 1 ≤ m) :
    (hierarchicalDecompState t m).done = true := done_final hw m

theorem C5_terminates_witness :
    (hierarchicalDecompState tree4 2).done = true :=
  C5_terminates tree4 tree4_wf 2 (by decide)

/-- C6: for every wellformed tree and every `max_size ≥ 1`, the
`reordered_taxa` vector returned by `hierarchical_decomp` is a permutation
of `0..ntaxa`. -/
theorem C6_reordered_perm (t : Tree) (hw : WfTree t) (m : Nat) (hm : 1 ≤ m) :
    (hierarchical_decomp t m).reordered_taxa.Perm (List.range t.ntaxa) :=
  (inv_final hw m).reord_perm

theorem C6_reordered_perm_witness :
    (hierarchical_decomp tree4 2).reordered_taxa.Perm
      (List.range tree4.ntaxa) :=
  C6_reordered_perm tree4 tree4_wf 2 (by decide)

/-- C9: in every execution (on a wellformed tree) the cut search selects a
best cut whenever the `non_leaf` flag is set, so the fatal
`assert_ne!(best_inbalance, u64::MAX)` never fires: no iteration of the loop
takes the assertion-failure branch. -/
theorem C9_no_assert (t : Tree) (hw : WfTree t) (m : Nat) :
    ∀ L ∈ (hierarchicalDecompState t m).log, L.action ≠ .assertFail :=
  fun L hL => ((inv_final hw m).log_inv L hL).no_assert

theorem C9_no_assert_witness :
    (hierarchicalDecompState tree4 2).log.length = 3 ∧
    (∀ L ∈ (hierarchicalDecompState tree4 2).log,
      L.action ≠ .assertFail) :=
  ⟨by decide, C9_no_assert tree4 tree4_wf 2⟩

/-- C1 (amended): for every wellformed tree and `max_size ≥ 1` the recorded
ranges are sub-intervals of `[0, ntaxa)` forming a laminar family (pairwise
nested or disjoint — not pairwise disjoint, see the counterexample), and
when `ntaxa ≥ 2` their union as index sets into `reordered_taxa` is exactly
`[0, ntaxa)`: the first recorded range is `(0, ntaxa)` itself and every
range stays inside it. -/
theorem C1_ranges_laminar_cover (t : Tree) (hw : WfTree t) (m : Nat)
    (hm : 1 ≤ m) :
    (hierarchical_decomp t m).decomposition_ranges.Pairwise lamRel ∧
    (∀ ρ ∈ (hierarchical_decomp t m).decomposition_ranges,
      ρ.1 ≤ ρ.2 ∧ ρ.2 ≤ t.ntaxa) ∧
    (2 ≤ t.ntaxa → ∀ j, j < t.ntaxa →
      ∃ ρ ∈ (hierarchical_decomp t m).decomposition_ranges,
        ρ.1 ≤ j ∧ j < ρ.2) := by
  have hinv := inv_final hw m
  refine ⟨hinv.ranges_lam, ?_, ?_⟩
  · intro ρ hρ
    obtain ⟨L, hL, heq, _⟩ := ranges_from_log hw m ρ hρ
    have hLI := hinv.log_inv L hL
    rw [← heq]
    exact ⟨hLI.lb_le, hLI.ub_le⟩
  · intro h2 j hj
    exact ⟨(0, t.ntaxa), first_range m h2, Nat.zero_le _, hj⟩

theorem C1_ranges_laminar_cover_witness :
    (hierarchical_decomp tree4 2).decomposition_ranges =
      [(0, 4), (2, 4), (2, 4)] ∧
    ((hierarchical_decomp tree4 2).decomposition_ranges.Pairwise lamRel ∧
    (∀ ρ ∈ (hierarchical_decomp tree4 2).decomposition_ranges,
      ρ.1 ≤ ρ.2 ∧ ρ.2 ≤ tree4.ntaxa) ∧
    (2 ≤ tree4.ntaxa → ∀ j, j < tree4.ntaxa →
      ∃ ρ ∈ (hierarchical_decomp tree4 2).decomposition_ranges,
        ρ.1 ≤ j ∧ j < ρ.2)) :=
  ⟨by decide, C1_ranges_laminar_cover tree4 tree4_wf 2 (by decide)⟩

/-- C2 (amended): every recorded range is the interval of a popped unit of
size at least 2 (recorded before the threshold test), and that unit either
was below `max_size` (`continue`), or was split into two enqueued children,
or consisted of leaves only (no internal cut candidate) and the loop
stopped. -/
theorem C2_range_states (t : Tree) (hw : WfTree t) (m : Nat) (hm : 1 ≤ m) :
    ∀ ρ ∈ (hierarchical_decomp t m).decomposition_ranges,
      ∃ L ∈ (hierarchicalDecompState t m).log,
        (L.lb, L.ub) = ρ ∧ 2 ≤ L.size ∧
        (L.size < m ∨ (∃ bc s, L.action = .split bc s) ∨
          (L.action = .leafBreak ∧ leafOnlyStep t L)) := by
  intro ρ hρ
  obtain ⟨L, hL, heq, hsz⟩ := ranges_from_log hw m ρ hρ
  have hLI := (inv_final hw m).log_inv L hL
  refine ⟨L, hL, heq, hsz, ?_⟩
  cases hact : L.action with
  | kept => exact Or.inl (hLI.kept_iff.1 hact)
  | leafBreak => exact Or.inr (Or.inr ⟨rfl, hLI.leaf_only hact⟩)
  | assertFail => exact absurd hact hLI.no_assert
  | split bc s => exact Or.inr (Or.inl ⟨bc, s, rfl⟩)

theorem C2_range_states_witness :
    (hierarchical_decomp tree4 2).decomposition_ranges =
      [(0, 4), (2, 4), (2, 4)] ∧
    (∀ ρ ∈ (hierarchical_decomp tree4 2).decomposition_ranges,
      ∃ L ∈ (hierarchicalDecompState tree4 2).log,
        (L.lb, L.ub) = ρ ∧ 2 ≤ L.size ∧
        (L.size < 2 ∨ (∃ bc s, L.action = .split bc s) ∨
          (L.action = .leafBreak ∧ leafOnlyStep tree4 L))) :=
  ⟨by decide, C2_range_states tree4 tree4_wf 2 (by decide)⟩

/-- C10: for every wellformed tree and `max_size ≥ 1` the recorded ranges
form a laminar family — any two are nested or disjoint — and every popped
unit that is split contains, as an interval, the two child intervals it
enqueues (`(lb, lb + s)` and `(lb + s, ub)` inside `(lb, ub)`). -/
theorem C10_laminar (t : Tree) (hw : WfTree t) (m : Nat) (hm : 1 ≤ m) :
    (hierarchical_decomp t m).decomposition_ranges.Pairwise lamRel ∧
    (∀ L ∈ (hierarchicalDecompState t m).log, ∀ bc s,
      L.action = .split bc s →
        intSub (L.lb, L.lb + s) (L.lb, L.ub) ∧
        intSub (L.lb + s, L.ub) (L.lb, L.ub)) := by
  have hinv := inv_final hw m
  refine ⟨hinv.ranges_lam, ?_⟩
  intro L hL bc s hact
  have h := ((hinv.log_inv L hL).split_wit bc s hact).2.2.2
  unfold intSub
  dsimp only
  omega

theorem C10_laminar_witness :
    (hierarchical_decomp tree4 2).decomposition_ranges.Pairwise lamRel ∧
    (∀ L ∈ (hierarchicalDecompState tree4 2).log, ∀ bc s,
      L.action = .split bc s →
        intSub (L.lb, L.lb + s) (L.lb, L.ub) ∧
        intSub (L.lb + s, L.ub) (L.lb, L.ub)) :=
  C10_laminar tree4 tree4_wf 2 (by decide)

end Crucible
